import Mathlib

/-!
# Identity-keyed table (`src/src/iddict.c`)

A shallow embedding of the open-addressing table of `iddict.c`.

* A `jl_value_t *` is a natural number, `0` being `NULL`.
* A `jl_genericmemory_t` is the list of its cells (`a->length` is the length of the list,
  `a->ptr[i]` is the `i`-th cell); `jl_alloc_memory_any n` is `n` null cells.
* `HT_N_INLINE`, `keyhash` (`jl_object_id_`), `jl_egal` and `jl_nothing` are declared outside
  `iddict.c`; they are the fields of `Runtime`, and every definition takes them as a parameter.
* `assert` is compiled out (`NDEBUG`), the write barrier `jl_gc_wb` and the GC frame are no-ops,
  atomic loads and stores are plain reads and writes (one mutator, no concurrent reader).  The
  table states between the cell stores of one insertion, which a reader running concurrently
  would see, are listed by `put_stores`.
* An array of pointers has fewer than `2^61` cells, so the `size_t` values that are array
  lengths or indices into an array, and the sizes `sz << 1` and `sz << 2` requested from the
  allocator, do not wrap: they are plain naturals, and the allocator always succeeds.  The
  sentinel `empty_slot == -1` is `none`.  The cursor argument of `jl_eqtable_nextind` is an
  arbitrary `size_t` of the caller, so its `i++` wraps at `2^64`.
* `while (1)` in `jl_table_assign_bp` (grow and retry) and in `jl_eqtable_pop` (backward shift)
  are run with explicit fuel; `none` means the fuel ran out.
-/

namespace IdDict

/-- The cells of a `jl_genericmemory_t`; `0` is `NULL`. -/
abbrev Table := List Nat

/-- What `iddict.c` takes from the rest of the runtime. -/
structure Runtime where
  /-- The constant `HT_N_INLINE`. -/
  HT_N_INLINE : Nat
  /-- The macro `keyhash(k)`, that is `jl_object_id_(jl_typetagof(k), k)`. -/
  keyhash : Nat → Nat
  /-- The identity predicate `jl_egal`. -/
  jl_egal : Nat → Nat → Bool
  /-- The address of the singleton `jl_nothing`. -/
  jl_nothing : Nat

/-- Read of cell `i` (`tab[i]`). -/
def load (tab : Table) (i : Nat) : Nat := tab.getD i 0

/-- Write of cell `i` (`tab[i] = x`). -/
def store (tab : Table) (i : Nat) (x : Nat) : Table := tab.set i x

/-- The allocator `jl_alloc_memory_any`: `n` zero-initialised cells. -/
def jl_alloc_memory_any (n : Nat) : Table := List.replicate n 0

/-- The macro `hash_size(h)`: `h->length / 2`. -/
def hash_size (h : Table) : Nat := h.length / 2

/-- The macro `max_probe(size)`: `(size) <= 1024 ? 16 : (size) >> 6`. -/
def max_probe (size : Nat) : Nat := if size ≤ 1024 then 16 else size >>> 6

/-- The macro `h2index(hv, sz)`: `((hv) & ((sz)-1)) * 2`. -/
def h2index (hv sz : Nat) : Nat := (hv &&& (sz - 1)) * 2

/-- The size requested for the replacement store, lines 132-138 of `jl_table_assign_bp`;
`sz` is `a->length`. -/
def growth_newsz (rt : Runtime) (sz : Nat) : Nat :=
  if sz < rt.HT_N_INLINE then rt.HT_N_INLINE
  else if sz ≥ 1 <<< 19 ∨ sz ≤ 1 <<< 8 then sz <<< 1
  else sz <<< 2

/-- How the `do ... while` scan of `jl_table_assign_bp` ends. -/
inductive Scan where
  /-- The `return 0` of line 89: the value cell of an equal key was overwritten. -/
  | updated (tab : Table)
  /-- The scan was left (by `break` or by its condition) with these values of `tab`, `key`,
  `val` and `empty_slot`. -/
  | left (tab : Table) (key val : Nat) (empty_slot : Option Nat)
  deriving DecidableEq, Repr

/-- The `do ... while (iter <= maxprobe && index != orig)` scan of `jl_table_assign_bp`,
lines 78-118.  `n` is `maxprobe - iter`, so `iter <= maxprobe` after `iter++` reads `n ≠ 0`. -/
def assign_scan (rt : Runtime) (rehash : Bool) (sz orig : Nat) :
    Nat → Table → Nat → Nat → Nat → Nat → Option Nat → Scan
  | n, tab, key, val, index, probe_current, empty_slot =>
    let two_sz := sz * 2
    let k2 := load tab index
    if k2 = 0 then
      Scan.left tab key val (if empty_slot = none then some index else empty_slot)
    else if rehash = false ∧ rt.jl_egal key k2 = true ∧ load tab (index + 1) ≠ 0 then
      Scan.updated (store tab (index + 1) val)
    else
      let desired_index := h2index (rt.keyhash k2) sz
      let current_distance := (index + two_sz - desired_index) &&& (two_sz - 1)
      let swap := decide (probe_current > desired_index)
      let val2 := load tab (index + 1)
      let tab1 := if swap then store (store tab index key) (index + 1) val else tab
      let val1 := if swap then val2 else val
      let key1 := if swap then k2 else key
      let probe1 := if swap then current_distance else probe_current
      let empty1 :=
        if empty_slot = none ∧ load tab1 (index + 1) = 0 then some index else empty_slot
      let index1 := (index + 2) &&& (two_sz - 1)
      match n with
      | 0 => Scan.left tab1 key1 val1 empty1
      | m + 1 =>
        if index1 ≠ orig then
          assign_scan rt rehash sz orig m tab1 key1 val1 index1 (probe1 + 2) empty1
        else Scan.left tab1 key1 val1 empty1

/-- The loop of `jl_idtable_rehash`, lines 22-28: `for (i = 0; i < sz; i += 2)` over the old
cells `ol`, with `assign` standing for `jl_table_assign_bp(&newa, ·, ·, 1)`.  `n` bounds the
number of iterations left (`sz / 2 + 1` is always enough). -/
def rehash_loop (assign : Table → Nat → Nat → Option (Table × Nat)) (ol : Table) (sz : Nat) :
    Nat → Nat → Table → Option Table
  | 0, _, newa => some newa
  | n + 1, i, newa =>
    if i < sz then
      if load ol (i + 1) ≠ 0 then
        match assign newa (load ol i) (load ol (i + 1)) with
        | none => none
        | some (newa1, _) => rehash_loop assign ol sz n (i + 2) newa1
      else rehash_loop assign ol sz n (i + 2) newa
    else some newa

/-- The `while (1)` of `jl_table_assign_bp`, lines 68-145, entered with `*pa = a` already
materialised; the result is the final `*pa` and the returned `int`.  Each turn of the loop uses
one unit of `fuel`, and the calls made by the rehash of that turn get what is left. -/
def assign_loop (rt : Runtime) : Nat → Table → Nat → Nat → Bool → Option (Table × Nat)
  | 0, _, _, _, _ => none
  | fuel + 1, a, key, val, rehash =>
    let sz := hash_size a
    let maxprobe := max_probe sz
    let orig := h2index (rt.keyhash key) sz
    match assign_scan rt rehash sz orig maxprobe a key val orig 0 none with
    | Scan.updated tab => some (tab, 0)
    | Scan.left tab key val (some empty_slot) =>
      some (store (store tab empty_slot key) (empty_slot + 1) val, 1)
    | Scan.left tab key val none =>
      let newsz := growth_newsz rt tab.length
      match rehash_loop
          (fun newa k v =>
            assign_loop rt fuel
              (if hash_size newa = 0 then jl_alloc_memory_any rt.HT_N_INLINE else newa) k v true)
          tab tab.length (tab.length / 2 + 1) 0 (jl_alloc_memory_any newsz) with
      | none => none
      | some newa => assign_loop rt fuel newa key val rehash

/-- The function `jl_table_assign_bp`, lines 33-146, on `*pa = a`: the lazy allocation of lines
40-44, then the loop.  The result is the new `*pa` and the returned `int`. -/
def jl_table_assign_bp (rt : Runtime) (fuel : Nat) (a : Table) (key val : Nat) (rehash : Bool) :
    Option (Table × Nat) :=
  assign_loop rt fuel (if hash_size a = 0 then jl_alloc_memory_any rt.HT_N_INLINE else a)
    key val rehash

/-- The function `jl_idtable_rehash`, lines 13-31. -/
def jl_idtable_rehash (rt : Runtime) (fuel : Nat) (a : Table) (newsz : Nat) : Option Table :=
  rehash_loop (fun newa k v => jl_table_assign_bp rt fuel newa k v true)
    a a.length (a.length / 2 + 1) 0 (jl_alloc_memory_any newsz)

/-- The `do ... while` scan of `jl_table_peek_valueindex`, lines 163-185, with its `return`s.
`n` is `maxprobe - iter`. -/
def peek_scan (rt : Runtime) (tab : Table) (key sz orig : Nat) : Nat → Nat → Nat
  | n, index =>
    let two_sz := sz * 2
    let k2 := load tab index
    if k2 = 0 then 0
    else if rt.jl_egal key k2 = true ∧ load tab (index + 1) ≠ 0 then index + 1
    else if rt.jl_egal key k2 = true ∧ key ≠ rt.jl_nothing then 0
    else
      let index1 := (index + 2) &&& (two_sz - 1)
      match n with
      | 0 => 0
      | m + 1 => if index1 ≠ orig then peek_scan rt tab key sz orig m index1 else 0

/-- The function `jl_table_peek_valueindex`, lines 149-188: the index of the value cell of
`key`, or `0`. -/
def jl_table_peek_valueindex (rt : Runtime) (a : Table) (key : Nat) : Nat :=
  let sz := hash_size a
  if sz = 0 then 0
  else
    let orig := h2index (rt.keyhash key) sz
    peek_scan rt a key sz orig (max_probe sz) orig

/-- The function `jl_table_peek_bp`, lines 191-198: `&tab[validx]` as `some validx`, `NULL` as
`none`. -/
def jl_table_peek_bp (rt : Runtime) (a : Table) (key : Nat) : Option Nat :=
  let validx := jl_table_peek_valueindex rt a key
  if validx ≠ 0 then some validx else none

/-- The function `jl_eqtable_put`, lines 201-207: the returned table and `*p_inserted`. -/
def jl_eqtable_put (rt : Runtime) (fuel : Nat) (h : Table) (key val : Nat) :
    Option (Table × Nat) :=
  jl_table_assign_bp rt fuel h key val false

/-- The function `jl_eqtable_get`, lines 212-216. -/
def jl_eqtable_get (rt : Runtime) (h : Table) (key deflt : Nat) : Nat :=
  match jl_table_peek_bp rt h key with
  | none => deflt
  | some bp => load h bp

/-- The function `jl_eqtable_getkey`, lines 218-222. -/
def jl_eqtable_getkey (rt : Runtime) (h : Table) (key deflt : Nat) : Nat :=
  match jl_table_peek_bp rt h key with
  | none => deflt
  | some bp => load h (bp - 1)

/-- The `while (1)` of `jl_eqtable_pop`, lines 239-251; each turn uses one unit of `fuel`. -/
def pop_loop (rt : Runtime) (sz : Nat) : Nat → Table → Nat → Option Table
  | 0, _, _ => none
  | fuel + 1, tab, keyidx =>
    let two_sz := sz * 2
    let tab1 := store (store tab keyidx 0) (keyidx + 1) 0
    let next_keyidx := (keyidx + 2) &&& (two_sz - 1)
    let k2 := load tab1 next_keyidx
    if k2 = 0 then some tab1
    else
      let desired_index := h2index (rt.keyhash k2) sz
      if next_keyidx = desired_index then some tab1
      else
        let tab2 := store tab1 keyidx k2
        let tab3 := store tab2 (keyidx + 1) (load tab2 (next_keyidx + 1))
        pop_loop rt sz fuel tab3 next_keyidx

/-- The function `jl_eqtable_pop`, lines 225-253: the table after the call, the returned value
and `*found`. -/
def jl_eqtable_pop (rt : Runtime) (fuel : Nat) (h : Table) (key deflt : Nat) :
    Option (Table × Nat × Nat) :=
  let validx := jl_table_peek_valueindex rt h key
  let found := if validx ≠ 0 then 1 else 0
  if validx = 0 then some (h, deflt, found)
  else
    let val := load h validx
    match pop_loop rt (hash_size h) fuel h (validx - 1) with
    | none => none
    | some tab => some (tab, val, found)

/-- The value `(size_t)-1`. -/
def SIZE_MAX : Nat := 2 ^ 64 - 1

/-- The loop `while (i < alen && t[i + 1] == NULL) i += 2` of `jl_eqtable_nextind`, line 261;
`n` bounds the number of turns left (`alen` is always enough). -/
def nextind_loop (t : Table) (alen : Nat) : Nat → Nat → Nat
  | 0, i => i
  | n + 1, i => if i < alen ∧ load t (i + 1) = 0 then nextind_loop t alen n (i + 2) else i

/-- The function `jl_eqtable_nextind`, lines 256-266; the argument is a `size_t`, and so is the
result. -/
def jl_eqtable_nextind (t : Table) (i : Nat) : Nat :=
  let i := if i &&& 1 ≠ 0 then (i + 1) % 2 ^ 64 else i
  let alen := t.length
  let i := nextind_loop t alen alen i
  if i ≥ alen then SIZE_MAX else i

/-! ## Notions used by the statements -/

/-- A finite sequence of `jl_eqtable_put` calls, the caller adopting the returned handle after
each call; `puts` lists the `(key, val)` arguments in call order. -/
def put_all (rt : Runtime) (fuel : Nat) : Table → List (Nat × Nat) → Option Table
  | t, [] => some t
  | t, (k, v) :: rest =>
    match jl_eqtable_put rt fuel t k v with
    | none => none
    | some (t1, _) => put_all rt fuel t1 rest

/-- The slot pair with key cell `2 * i` is Occupied: both cells are non-null. -/
def Occupied (t : Table) (i : Nat) : Prop := load t (2 * i) ≠ 0 ∧ load t (2 * i + 1) ≠ 0

instance (t : Table) (i : Nat) : Decidable (Occupied t i) := by
  unfold Occupied; infer_instance

/-- The number of Occupied slot pairs of a table. -/
def occupied_count (t : Table) : Nat :=
  ((List.range (hash_size t)).filter (fun i => Occupied t i)).length

/-- The iteration `i_0 = jl_eqtable_nextind(t, 0)`, `i_{n+1} = jl_eqtable_nextind(t, i_n + 2)`,
stopped at the first result `(size_t)-1`: the list of the results before the stop, starting
the cursor at `i` and making at most `n` calls.  The caller's `i_n + 2` is `size_t`
arithmetic. -/
def nextind_iter (t : Table) : Nat → Nat → List Nat
  | 0, _ => []
  | n + 1, i =>
    let j := jl_eqtable_nextind t i
    if j = SIZE_MAX then [] else j :: nextind_iter t n ((j + 2) % 2 ^ 64)

/-- The key-cell indices `2 * k, 2 * (k + 1), ...` of the `m` slot pairs from slot `k` on whose
value cell is non-null, in increasing order. -/
def valued_cells (t : Table) : Nat → Nat → List Nat
  | 0, _ => []
  | m + 1, k =>
    if load t (2 * k + 1) ≠ 0 then 2 * k :: valued_cells t m (k + 1) else valued_cells t m (k + 1)

/-! ## Concrete runs

A runtime with `HT_N_INLINE = 32` (its value in `htable.h`), in which every key is a distinct
object (`jl_egal` is pointer equality) whose hash is the number naming it. -/

/-- The runtime of the concrete runs. -/
def rt32 : Runtime := ⟨32, fun k => k, fun a b => a == b, 8⟩

/-- Seventeen keys of bucket `0` (hashes `32, 64, ..., 544`), then one key of bucket `1`. -/
def puts_C1 : List (Nat × Nat) :=
  (List.range 17).map (fun i => (32 * (i + 1), 1000 + i)) ++ [(1, 7)]

/-- Three keys of bucket `0`. -/
def puts_three : List (Nat × Nat) := [(16, 1), (32, 2), (48, 3)]

/-- One key of bucket `2`, then sixteen keys of bucket `3`. -/
def puts_C3 : List (Nat × Nat) :=
  (66, 100) :: (List.range 16).map (fun i => (64 * (i + 2) + 3, 101 + i))

/-- Two keys of bucket `0` around one key of bucket `1`. -/
def puts_C5 : List (Nat × Nat) := [(16, 1), (1, 2), (32, 3)]

/-- Two keys of bucket `1`, four of bucket `2`, twelve of bucket `3`. -/
def puts_C6 : List (Nat × Nat) :=
  (List.range 18).map
    (fun i => (64 * (i + 1) + (if i < 2 then 1 else if i < 6 then 2 else 3), 100 + i))

/-- The table after the first seventeen puts of `puts_C1`: 64 cells, the keys of bucket `0` in
slots 0 to 16. -/
def table_C1_before : Table :=
  [32, 1000, 64, 1001, 96, 1002, 128, 1003, 160, 1004, 192, 1005, 224, 1006, 256, 1007,
    288, 1008, 320, 1009, 352, 1010, 384, 1011, 416, 1012, 448, 1013, 480, 1014, 512, 1015,
    544, 1016] ++ List.replicate 30 0

/-- The table after all of `puts_C1`: key `544` sits in slot 17 (cells 34 and 35). -/
def table_C1 : Table :=
  [32, 1000, 64, 1001, 1, 7, 96, 1002, 128, 1003, 160, 1004, 192, 1005, 224, 1006, 256, 1007,
    288, 1008, 320, 1009, 352, 1010, 384, 1011, 416, 1012, 448, 1013, 480, 1014, 512, 1015,
    544, 1016] ++ List.replicate 28 0

/-- The table after `puts_three`. -/
def table_three : Table := [16, 1, 48, 3, 32, 2] ++ List.replicate 26 0

/-- The table after `puts_three` and the put of `(32, 4)`: key `32` in slots 1 and 3. -/
def table_dup : Table := [16, 1, 32, 4, 48, 3, 32, 2] ++ List.replicate 24 0

/-- The table `table_dup` after the pop of key `32`. -/
def table_dup_popped : Table := [16, 1, 48, 3, 32, 2] ++ List.replicate 26 0

/-- The table after `puts_C3`. -/
def table_C3 : Table :=
  [0, 0, 0, 0, 66, 100, 515, 107, 451, 106, 387, 105, 131, 101, 579, 108, 643, 109, 707, 110,
    771, 111, 835, 112, 899, 113, 963, 114, 1027, 115, 1091, 116, 323, 104, 259, 103,
    195, 102] ++ List.replicate 26 0

/-- The table `table_C3` after the put of `(2, 7)`: 128 cells, key `2` (bucket 2) in slot 19. -/
def table_C3_put : Table :=
  [0, 0, 0, 0, 66, 100, 515, 107, 451, 106, 387, 105, 131, 101, 195, 102, 259, 103, 323, 104,
    1091, 116, 1027, 115, 963, 114, 899, 113, 835, 112, 771, 111, 707, 110, 643, 109,
    579, 108, 2, 7] ++ List.replicate 88 0

/-- The table after `puts_C5`. -/
def table_C5 : Table := [16, 1, 1, 2, 32, 3] ++ List.replicate 26 0

/-- The table `table_C5` after the pop of key `16`. -/
def table_C5_popped : Table := [0, 0, 1, 2, 32, 3] ++ List.replicate 26 0

/-- The table after `puts_C6`: key `65` (bucket 1) in slot 4. -/
def table_C6 : Table :=
  [0, 0, 129, 101, 322, 104, 515, 107, 65, 100, 194, 102, 1155, 117, 386, 105, 451, 106,
    579, 108, 643, 109, 707, 110, 771, 111, 835, 112, 899, 113, 963, 114, 1027, 115,
    1091, 116, 258, 103] ++ List.replicate 26 0

/-- The table `jl_idtable_rehash` makes of `table_C6` with 128 cells: key `65` in slot 18. -/
def table_C6_grown : Table :=
  [0, 0, 129, 101, 322, 104, 515, 107, 194, 102, 1155, 117, 258, 103, 451, 106, 1091, 116,
    1027, 115, 963, 114, 899, 113, 835, 112, 771, 111, 707, 110, 643, 109, 579, 108,
    386, 105, 65, 100] ++ List.replicate 90 0

/-- The table of 32 cells after the first sixteen puts of `puts_C1`: every slot is Occupied. -/
def table_full : Table :=
  [32, 1000, 512, 1015, 480, 1014, 448, 1013, 416, 1012, 384, 1011, 352, 1010, 320, 1009,
    288, 1008, 256, 1007, 224, 1006, 192, 1005, 160, 1004, 128, 1003, 96, 1002, 64, 1001]

/-- The table `table_full` as the scan of the put of `(544, 1016)` leaves it. -/
def table_full_scanned : Table :=
  [32, 1000, 544, 1016, 512, 1015, 480, 1014, 448, 1013, 416, 1012, 384, 1011, 352, 1010,
    320, 1009, 288, 1008, 256, 1007, 224, 1006, 192, 1005, 160, 1004, 128, 1003, 96, 1002]

/-! ## Notions used by the proofs -/

/-- The table a scan ends with. -/
def Scan.tab : Scan → Table
  | Scan.updated t => t
  | Scan.left t _ _ _ => t

/-- The slot pair with key cell `2 * i` is in use: one of its two cells is non-null. -/
def Used (t : Table) (i : Nat) : Prop := load t (2 * i) ≠ 0 ∨ load t (2 * i + 1) ≠ 0

instance (t : Table) (i : Nat) : Decidable (Used t i) := by
  unfold Used; infer_instance

/-- The number of slot pairs in use. -/
def used_count (t : Table) : Nat :=
  ((Finset.range (hash_size t)).filter (fun i => Used t i)).card

/-- The number of slot pairs below slot `k` whose value cell is non-null. -/
def valued_below (t : Table) (k : Nat) : Nat :=
  ((Finset.range k).filter (fun i => load t (2 * i + 1) ≠ 0)).card

/-- The cyclic probe distance, in cells, of the key stored in slot `i` (`0` for a null key
cell): the key cell index minus the ideal index of the key, modulo the array length. -/
def slot_dist (rt : Runtime) (t : Table) (i : Nat) : Nat :=
  if load t (2 * i) = 0 then 0
  else
    (2 * i + hash_size t * 2 - h2index (rt.keyhash (load t (2 * i))) (hash_size t))
      % (hash_size t * 2)

/-- The sum of the cyclic probe distances of all slots. -/
def total_dist (rt : Runtime) (t : Table) : Nat :=
  ∑ i in Finset.range (hash_size t), slot_dist rt t i

/-- Lines 240-241 of `jl_eqtable_pop`: the key cell `keyidx` and its value cell are cleared. -/
def clear_slot (t : Table) (keyidx : Nat) : Table := store (store t keyidx 0) (keyidx + 1) 0

/-- Lines 248-249 of `jl_eqtable_pop`, the backward shift: the entry of the slot at `next_keyidx`
is written into the slot at `keyidx`. -/
def backshift (t : Table) (keyidx next_keyidx : Nat) : Table :=
  store (store t keyidx (load t next_keyidx)) (keyidx + 1)
    (load (store t keyidx (load t next_keyidx)) (next_keyidx + 1))

/-- A table of 32 cells with key `16` in slot 0 and key `32` in slot 1, both of bucket 0. -/
def table_AB : Table := [16, 1, 32, 2] ++ List.replicate 28 0

/-- A table of 32 cells with key `16` (bucket 0) in slot 0 and key `1` (bucket 1) in slot 1. -/
def table_A1 : Table := [16, 1, 1, 2] ++ List.replicate 28 0

/-- Seventeen keys whose hashes are multiples of 64: bucket 0 for 16, 32 and 64 slot pairs. -/
def puts_C14 : List (Nat × Nat) := (List.range 17).map (fun i => (64 * (i + 1), 100 + i))

/-- The table of 64 cells after `puts_C14`: slots 0 to 16 are Occupied. -/
def table_C14 : Table :=
  [64, 100, 128, 101, 192, 102, 256, 103, 320, 104, 384, 105, 448, 106, 512, 107, 576, 108,
    640, 109, 704, 110, 768, 111, 832, 112, 896, 113, 960, 114, 1024, 115, 1088, 116]
    ++ List.replicate 30 0

/-- The table `table_C14` as the scan of the put of `(1152, 7)` leaves it. -/
def table_C14_scanned : Table :=
  [64, 100, 1152, 7, 128, 101, 192, 102, 256, 103, 320, 104, 384, 105, 448, 106, 512, 107,
    576, 108, 640, 109, 704, 110, 768, 111, 832, 112, 896, 113, 960, 114, 1024, 115]
    ++ List.replicate 30 0

/-- The table of 128 cells `jl_idtable_rehash` makes of `table_C14_scanned`. -/
def table_C14_grown : Table :=
  [64, 100, 1024, 115, 960, 114, 896, 113, 832, 112, 768, 111, 704, 110, 640, 109, 576, 108,
    512, 107, 448, 106, 384, 105, 320, 104, 256, 103, 192, 102, 128, 101, 1152, 7]
    ++ List.replicate 94 0

/-- The table `table_C14_grown` as the retried scan, of the carried `(1088, 116)`, leaves it. -/
def table_C14_rescanned : Table :=
  [64, 100, 1088, 116, 1024, 115, 960, 114, 896, 113, 832, 112, 768, 111, 704, 110, 640, 109,
    576, 108, 512, 107, 448, 106, 384, 105, 320, 104, 256, 103, 192, 102, 128, 101]
    ++ List.replicate 94 0

/-- The table after each individual cell store made by the scan of `jl_table_assign_bp`, in
program order: the store of line 87 (value of an equal key) and, at a displacement, the store
of line 98 (key cell) followed by the store of line 100 (value cell).  The control flow is that
of `assign_scan`. -/
def assign_scan_stores (rt : Runtime) (rehash : Bool) (sz orig : Nat) :
    Nat → Table → Nat → Nat → Nat → Nat → Option Nat → List Table
  | n, tab, key, val, index, probe_current, empty_slot =>
    let two_sz := sz * 2
    let k2 := load tab index
    if k2 = 0 then []
    else if rehash = false ∧ rt.jl_egal key k2 = true ∧ load tab (index + 1) ≠ 0 then
      [store tab (index + 1) val]
    else
      let desired_index := h2index (rt.keyhash k2) sz
      let current_distance := (index + two_sz - desired_index) &&& (two_sz - 1)
      let swap := decide (probe_current > desired_index)
      let val2 := load tab (index + 1)
      let stores :=
        if swap then [store tab index key, store (store tab index key) (index + 1) val] else []
      let tab1 := if swap then store (store tab index key) (index + 1) val else tab
      let val1 := if swap then val2 else val
      let key1 := if swap then k2 else key
      let probe1 := if swap then current_distance else probe_current
      let empty1 :=
        if empty_slot = none ∧ load tab1 (index + 1) = 0 then some index else empty_slot
      let index1 := (index + 2) &&& (two_sz - 1)
      match n with
      | 0 => stores
      | m + 1 =>
        if index1 ≠ orig then
          stores ++ assign_scan_stores rt rehash sz orig m tab1 key1 val1 index1 (probe1 + 2) empty1
        else stores

/-- The table after each individual cell store of one call of `jl_eqtable_put` that needs no
growth: the stores of the scan, then the stores of lines 121 and 123 into the empty slot. -/
def put_stores (rt : Runtime) (h : Table) (key val : Nat) : List Table :=
  let a := if hash_size h = 0 then jl_alloc_memory_any rt.HT_N_INLINE else h
  let sz := hash_size a
  let orig := h2index (rt.keyhash key) sz
  assign_scan_stores rt false sz orig (max_probe sz) a key val orig 0 none ++
    match assign_scan rt false sz orig (max_probe sz) a key val orig 0 none with
    | Scan.left tab key1 val1 (some empty_slot) =>
      [store tab empty_slot key1, store (store tab empty_slot key1) (empty_slot + 1) val1]
    | _ => []

/-- The slot pair with key cell `2 * i` is Empty: both cells are null. -/
def Empty (t : Table) (i : Nat) : Prop := load t (2 * i) = 0 ∧ load t (2 * i + 1) = 0

instance (t : Table) (i : Nat) : Decidable (Empty t i) := by
  unfold Empty; infer_instance

/-- Invariant I2: every slot pair of the table has its key cell and its value cell either both
null or both non-null. -/
def SlotsPaired (t : Table) : Prop :=
  ∀ i, i < hash_size t → (load t (2 * i) = 0 ↔ load t (2 * i + 1) = 0)

instance (t : Table) : Decidable (SlotsPaired t) := by
  unfold SlotsPaired; infer_instance

/-- The ideal bucket of key `k` in table `t`, as a slot number: `h2index(keyhash(k), sz) / 2`. -/
def ideal_slot (rt : Runtime) (t : Table) (k : Nat) : Nat :=
  h2index (rt.keyhash k) (hash_size t) / 2

/-- Contiguous probe chains: for every Occupied slot `s`, none of the slots from the ideal bucket
of its key up to `s`, cyclically, is Empty. -/
def Contiguous (rt : Runtime) (t : Table) : Prop :=
  ∀ s, s < hash_size t → Occupied t s →
    ∀ d, d ≤ (s + hash_size t - ideal_slot rt t (load t (2 * s))) % hash_size t →
      ¬ Empty t ((ideal_slot rt t (load t (2 * s)) + d) % hash_size t)

instance (rt : Runtime) (t : Table) : Decidable (Contiguous rt t) := by
  unfold Contiguous; infer_instance

/-- Whether the scan of `jl_table_peek_valueindex` ends at the `return 0` of line 166, that is
by reaching a null key cell.  The control flow is that of `peek_scan`. -/
def peek_scan_reaches_empty (rt : Runtime) (tab : Table) (key sz orig : Nat) : Nat → Nat → Bool
  | n, index =>
    let two_sz := sz * 2
    let k2 := load tab index
    if k2 = 0 then true
    else if rt.jl_egal key k2 = true ∧ load tab (index + 1) ≠ 0 then false
    else if rt.jl_egal key k2 = true ∧ key ≠ rt.jl_nothing then false
    else
      let index1 := (index + 2) &&& (two_sz - 1)
      match n with
      | 0 => false
      | m + 1 => if index1 ≠ orig then peek_scan_reaches_empty rt tab key sz orig m index1 else false

/-- Whether the lookup of `key` in table `a` reaches an Empty slot (`hash_size(a) != 0` and the
scan ends at line 166). -/
def lookup_reaches_empty (rt : Runtime) (a : Table) (key : Nat) : Bool :=
  let sz := hash_size a
  if sz = 0 then false
  else
    let orig := h2index (rt.keyhash key) sz
    peek_scan_reaches_empty rt a key sz orig (max_probe sz) orig

/-- Contiguous probe chains on the key cells of a table of `2 ^ p` slot pairs: for every slot
`s` with a non-null key cell, every slot from the ideal bucket `keyhash(k) % 2 ^ p` of its key
up to `s`, cyclically, has a non-null key cell. -/
def Chain (rt : Runtime) (p : Nat) (t : Table) : Prop :=
  ∀ s, s < 2 ^ p → load t (2 * s) ≠ 0 →
    ∀ d, d ≤ (s + 2 ^ p - rt.keyhash (load t (2 * s)) % 2 ^ p) % 2 ^ p →
      load t (2 * ((rt.keyhash (load t (2 * s)) % 2 ^ p + d) % 2 ^ p)) ≠ 0

/-- The entry carried by the insertion scan has come from the ideal bucket of its key to slot
`c` over `D` slots, all with a non-null key cell. -/
def Arc (rt : Runtime) (p : Nat) (t : Table) (key c : Nat) : Prop :=
  ∃ D, (rt.keyhash key % 2 ^ p + D) % 2 ^ p = c ∧
    ∀ d, d < D → load t (2 * ((rt.keyhash key % 2 ^ p + d) % 2 ^ p)) ≠ 0

/-- A table of 16 slot pairs with one half-filled slot: slot 14 holds key `14` and a null value
cell, slot 15 holds `(15, 1)` and slot 0 holds `(16, 2)`, each key in its ideal bucket. -/
def table_half : Table := [16, 2] ++ List.replicate 26 0 ++ [14, 0, 15, 1]

/-- The table `table_half` after `jl_eqtable_put(table_half, 30, 9)`. -/
def table_half_put : Table := [30, 9] ++ List.replicate 26 0 ++ [16, 2, 15, 1]
/-! ## Lemmas -/

/-- A store keeps the array length. -/
theorem store_length (t : Table) (i x : Nat) : (store t i x).length = t.length := by
  simp [store]

/-- The scan stops at a null key cell (lines 80-84). -/
theorem assign_scan_null (rt : Runtime) (rehash : Bool) (sz orig n : Nat) (tab : Table)
    (key val index pc : Nat) (e : Option Nat) (h : load tab index = 0) :
    assign_scan rt rehash sz orig n tab key val index pc e
      = Scan.left tab key val (if e = none then some index else e) := by
  unfold assign_scan
  simp only [h, if_true]

/-- The scan overwrites the value of an equal key and returns (lines 85-90). -/
theorem assign_scan_update (rt : Runtime) (rehash : Bool) (sz orig n : Nat) (tab : Table)
    (key val index pc : Nat) (e : Option Nat) (hk : load tab index ≠ 0)
    (hB : rehash = false ∧ rt.jl_egal key (load tab index) = true ∧ load tab (index + 1) ≠ 0) :
    assign_scan rt rehash sz orig n tab key val index pc e
      = Scan.updated (store tab (index + 1) val) := by
  unfold assign_scan
  simp only []
  rw [if_neg hk, if_pos hB]

/-- One full turn of the scan body (lines 93-117): the table is kept or gets the incoming entry
at the current slot, and `empty_slot` is kept (the slot then has a value) or becomes the
current index. -/
theorem assign_scan_step (rt : Runtime) (rehash : Bool) (sz orig n : Nat) (tab : Table)
    (key val index pc : Nat) (e : Option Nat) (hk : load tab index ≠ 0)
    (hB : ¬(rehash = false ∧ rt.jl_egal key (load tab index) = true ∧
      load tab (index + 1) ≠ 0)) :
    ∃ (tab1 : Table) (key1 val1 pc1 : Nat) (e1 : Option Nat),
      (tab1 = tab ∨ tab1 = store (store tab index key) (index + 1) val) ∧
      ((e1 = e ∧ (e = none → load tab1 (index + 1) ≠ 0)) ∨ (e = none ∧ e1 = some index)) ∧
      assign_scan rt rehash sz orig n tab key val index pc e =
        match n with
        | 0 => Scan.left tab1 key1 val1 e1
        | m + 1 =>
          if (index + 2) &&& (sz * 2 - 1) ≠ orig then
            assign_scan rt rehash sz orig m tab1 key1 val1 ((index + 2) &&& (sz * 2 - 1)) pc1 e1
          else Scan.left tab1 key1 val1 e1 := by
  by_cases hs : pc > h2index (rt.keyhash (load tab index)) sz
  · by_cases he : e = none ∧ load (store (store tab index key) (index + 1) val) (index + 1) = 0
    · refine ⟨store (store tab index key) (index + 1) val, load tab index, load tab (index + 1),
        ((index + sz * 2 - h2index (rt.keyhash (load tab index)) sz) &&& (sz * 2 - 1)) + 2,
        some index, Or.inr rfl, Or.inr ⟨he.1, rfl⟩, ?_⟩
      conv_lhs => unfold assign_scan
      simp only []
      rw [if_neg hk, if_neg hB]
      simp only [decide_eq_true hs, if_true, if_pos he]
    · refine ⟨store (store tab index key) (index + 1) val, load tab index, load tab (index + 1),
        ((index + sz * 2 - h2index (rt.keyhash (load tab index)) sz) &&& (sz * 2 - 1)) + 2,
        e, Or.inr rfl, Or.inl ⟨rfl, fun h1 h2 => he ⟨h1, h2⟩⟩, ?_⟩
      conv_lhs => unfold assign_scan
      simp only []
      rw [if_neg hk, if_neg hB]
      simp only [decide_eq_true hs, if_true, if_neg he]
  · by_cases he : e = none ∧ load tab (index + 1) = 0
    · refine ⟨tab, key, val, pc + 2, some index, Or.inl rfl, Or.inr ⟨he.1, rfl⟩, ?_⟩
      conv_lhs => unfold assign_scan
      simp only []
      rw [if_neg hk, if_neg hB]
      simp only [decide_eq_false hs, if_false, if_pos he, Bool.false_eq_true]
    · refine ⟨tab, key, val, pc + 2, e, Or.inl rfl, Or.inl ⟨rfl, fun h1 h2 => he ⟨h1, h2⟩⟩, ?_⟩
      conv_lhs => unfold assign_scan
      simp only []
      rw [if_neg hk, if_neg hB]
      simp only [decide_eq_false hs, if_false, if_neg he, Bool.false_eq_true]
/-- The scan keeps the array length. -/
theorem assign_scan_length (rt : Runtime) (rehash : Bool) (sz orig : Nat) :
    ∀ (n : Nat) (tab : Table) (key val index pc : Nat) (e : Option Nat),
      (assign_scan rt rehash sz orig n tab key val index pc e).tab.length = tab.length := by
  intro n
  induction n with
  | zero =>
    intro tab key val index pc e
    by_cases hk : load tab index = 0
    · rw [assign_scan_null _ _ _ _ _ _ _ _ _ _ _ hk]; rfl
    by_cases hB : rehash = false ∧ rt.jl_egal key (load tab index) = true ∧
        load tab (index + 1) ≠ 0
    · rw [assign_scan_update _ _ _ _ _ _ _ _ _ _ _ hk hB]; exact store_length _ _ _
    obtain ⟨tab1, key1, val1, pc1, e1, ht, -, hr⟩ :=
      assign_scan_step rt rehash sz orig 0 tab key val index pc e hk hB
    rw [hr]
    rcases ht with rfl | rfl
    · rfl
    · simp [Scan.tab, store_length]
  | succ m ih =>
    intro tab key val index pc e
    by_cases hk : load tab index = 0
    · rw [assign_scan_null _ _ _ _ _ _ _ _ _ _ _ hk]; rfl
    by_cases hB : rehash = false ∧ rt.jl_egal key (load tab index) = true ∧
        load tab (index + 1) ≠ 0
    · rw [assign_scan_update _ _ _ _ _ _ _ _ _ _ _ hk hB]; exact store_length _ _ _
    obtain ⟨tab1, key1, val1, pc1, e1, ht, -, hr⟩ :=
      assign_scan_step rt rehash sz orig (m + 1) tab key val index pc e hk hB
    rw [hr]
    have hl : tab1.length = tab.length := by
      rcases ht with rfl | rfl
      · rfl
      · simp [store_length]
    simp only []
    split_ifs
    · rw [ih, hl]
    · exact hl

/-- What the loop of `jl_eqtable_nextind` computes, given enough turns. -/
theorem nextind_loop_spec (t : Table) (alen : Nat) :
    ∀ (n i : Nat), alen ≤ i + 2 * n →
      i ≤ nextind_loop t alen n i ∧
      (∃ d, nextind_loop t alen n i = i + 2 * d) ∧
      (nextind_loop t alen n i < alen → load t (nextind_loop t alen n i + 1) ≠ 0) ∧
      (∀ d, i + 2 * d < nextind_loop t alen n i → load t (i + 2 * d + 1) = 0) := by
  intro n
  induction n with
  | zero =>
    intro i h
    simp only [nextind_loop]
    refine ⟨le_refl _, ⟨0, rfl⟩, ?_, ?_⟩
    · intro h1; omega
    · intro d h1; omega
  | succ m ih =>
    intro i h
    unfold nextind_loop
    split_ifs with hc
    · obtain ⟨h1, ⟨d, h2⟩, h3, h4⟩ := ih (i + 2) (by omega)
      refine ⟨by omega, ⟨d + 1, by omega⟩, h3, ?_⟩
      intro d' hd'
      rcases d' with _ | d'
      · exact hc.2
      · have := h4 d' (by omega)
        rw [← this]; congr 2; omega
    · refine ⟨le_refl _, ⟨0, rfl⟩, ?_, ?_⟩
      · intro h1 h0; exact hc ⟨h1, h0⟩
      · intro d h1; omega

/-- The result of `jl_eqtable_nextind` for a cursor other than `(size_t)-1`. -/
theorem nextind_spec (t : Table) (i : Nat) (hi : i < SIZE_MAX) :
    (jl_eqtable_nextind t i = SIZE_MAX ∧
      ∀ j, i ≤ j → j < t.length → j % 2 = 0 → load t (j + 1) = 0) ∨
    (i ≤ jl_eqtable_nextind t i ∧ jl_eqtable_nextind t i < t.length ∧
      jl_eqtable_nextind t i % 2 = 0 ∧ load t (jl_eqtable_nextind t i + 1) ≠ 0 ∧
      ∀ j, i ≤ j → j < jl_eqtable_nextind t i → j % 2 = 0 → load t (j + 1) = 0) := by
  have hS : SIZE_MAX = 2 ^ 64 - 1 := rfl
  obtain ⟨i', hi', hle, hev, hmin⟩ : ∃ i', (if i &&& 1 ≠ 0 then (i + 1) % 2 ^ 64 else i) = i' ∧
      i ≤ i' ∧ i' % 2 = 0 ∧ ∀ j, i ≤ j → j % 2 = 0 → i' ≤ j := by
    refine ⟨_, rfl, ?_⟩
    rw [Nat.and_one_is_mod]
    split_ifs with h
    · have h1 : (i + 1) % 2 ^ 64 = i + 1 := Nat.mod_eq_of_lt (by omega)
      rw [h1]
      refine ⟨by omega, by omega, fun j h2 h3 => by omega⟩
    · refine ⟨le_refl _, by omega, fun j h2 _ => h2⟩
  obtain ⟨h1, ⟨d, h2⟩, h3, h4⟩ := nextind_loop_spec t t.length t.length i' (by omega)
  unfold jl_eqtable_nextind
  simp only []
  rw [hi']
  split_ifs with hc
  · left
    refine ⟨rfl, fun j hj1 hj2 hj3 => ?_⟩
    have hj4 := hmin j hj1 hj3
    have := h4 ((j - i') / 2) (by omega)
    rw [← this]; congr 2; omega
  · right
    refine ⟨by omega, by omega, by omega, h3 (by omega), fun j hj1 hj2 hj3 => ?_⟩
    have hj4 := hmin j hj1 hj3
    have := h4 ((j - i') / 2) (by omega)
    rw [← this]; congr 2; omega

/-- Slots with a null value cell contribute nothing to `valued_cells`. -/
theorem valued_cells_skip (t : Table) :
    ∀ (j m k : Nat), (∀ s, k ≤ s → s < k + j → load t (2 * s + 1) = 0) → j ≤ m →
      valued_cells t m k = valued_cells t (m - j) (k + j) := by
  intro j
  induction j with
  | zero => intro m k _ _; rfl
  | succ j ih =>
    intro m k h hm
    obtain ⟨m', rfl⟩ : ∃ m', m = m' + 1 := ⟨m - 1, by omega⟩
    have h0 : load t (2 * k + 1) = 0 := h k (le_refl _) (by omega)
    rw [valued_cells, if_neg (by simpa using h0),
      ih m' (k + 1) (fun s hs1 hs2 => h s (by omega) (by omega)) (by omega)]
    congr 1 <;> omega

/-- The list `valued_cells` as a filter of the key-cell indices. -/
theorem valued_cells_eq_filter (t : Table) :
    ∀ (m k : Nat), valued_cells t m k =
      ((List.range' k m).map (fun s => 2 * s)).filter (fun j => load t (j + 1) ≠ 0) := by
  intro m
  induction m with
  | zero => intro k; rfl
  | succ m ih =>
    intro k
    rw [valued_cells, List.range'_succ, List.map_cons, List.filter_cons, ih]
    by_cases h : load t (2 * k + 1) = 0 <;> simp [h]

/-- The iteration from the key cell of slot `k` lists the valued slots from `k` on. -/
theorem nextind_iter_eq (t : Table) (hlen : t.length % 2 = 0) (hmax : t.length ≤ SIZE_MAX) :
    ∀ (n k : Nat), k ≤ t.length / 2 → t.length / 2 - k < n →
      nextind_iter t n (2 * k) = valued_cells t (t.length / 2 - k) k := by
  have hS : SIZE_MAX = 2 ^ 64 - 1 := rfl
  intro n
  induction n with
  | zero => intro k _ h; omega
  | succ n ih =>
    intro k hk hn
    rw [nextind_iter]
    rcases nextind_spec t (2 * k) (by omega) with ⟨h1, h2⟩ | ⟨h1, h2, h3, h4, h5⟩
    · rw [if_pos h1]
      rw [valued_cells_skip t (t.length / 2 - k) (t.length / 2 - k) k
        (fun s hs1 hs2 => h2 (2 * s) (by omega) (by omega) (by omega)) (le_refl _)]
      simp [valued_cells]
    · have hne : jl_eqtable_nextind t (2 * k) ≠ SIZE_MAX := by omega
      rw [if_neg hne]
      obtain ⟨k', hk'⟩ : ∃ k', jl_eqtable_nextind t (2 * k) = 2 * k' :=
        ⟨jl_eqtable_nextind t (2 * k) / 2, by omega⟩
      rw [hk'] at h1 h2 h4 h5 ⊢
      have hmod : (2 * k' + 2) % 2 ^ 64 = 2 * (k' + 1) := by
        rw [Nat.mod_eq_of_lt (by omega)]; ring
      rw [hmod, ih (k' + 1) (by omega) (by omega)]
      rw [valued_cells_skip t (k' - k) (t.length / 2 - k) k
        (fun s hs1 hs2 => h5 (2 * s) (by omega) (by omega) (by omega)) (by omega)]
      obtain ⟨m', hm'⟩ : ∃ m', t.length / 2 - k - (k' - k) = m' + 1 :=
        ⟨t.length / 2 - k' - 1, by omega⟩
      have hkk : k + (k' - k) = k' := by omega
      rw [hm', hkk, valued_cells, if_pos h4]
      congr 2
      omega

/-- A store does not change the other cells. -/
theorem load_store_ne (t : Table) (i j x : Nat) (h : i ≠ j) :
    load (store t i x) j = load t j := by
  simp [load, store, List.getD_eq_getElem?_getD, List.getElem?_set_ne h]

/-- A cell inside the array holds what was stored in it. -/
theorem load_store_eq (t : Table) (i x : Nat) (h : i < t.length) :
    load (store t i x) i = x := by
  simp [load, store, List.getD_eq_getElem?_getD, List.getElem?_set_self, h]

/-- Reads past the end of the list give `0` in the embedding. -/
theorem load_of_length_le (t : Table) (i : Nat) (h : t.length ≤ i) : load t i = 0 := by
  simp [load, List.getD_eq_getElem?_getD, List.getElem?_eq_none h]

/-- A fresh array holds only null cells. -/
theorem load_alloc (n i : Nat) : load (jl_alloc_memory_any n) i = 0 := by
  unfold load jl_alloc_memory_any
  rw [List.getD_eq_getElem?_getD]
  by_cases h : i < n
  · simp [List.getElem?_replicate, h]
  · simp [List.getElem?_replicate, h]

/-- The length of a fresh array. -/
theorem length_alloc (n : Nat) : (jl_alloc_memory_any n).length = n := by
  simp [jl_alloc_memory_any]

/-- A store into a cell of slot `c / 2` does not change whether another slot is in use. -/
theorem used_store_other (t : Table) (c x s : Nat) (h : s ≠ c / 2) :
    Used (store t c x) s ↔ Used t s := by
  unfold Used
  rw [load_store_ne t c (2 * s) x (by omega), load_store_ne t c (2 * s + 1) x (by omega)]

/-- Fewer slots in use, smaller count. -/
theorem used_count_mono (t t1 : Table) (hl : t1.length = t.length)
    (h : ∀ i, i < hash_size t → Used t1 i → Used t i) : used_count t1 ≤ used_count t := by
  unfold used_count
  have hs : hash_size t1 = hash_size t := by unfold hash_size; rw [hl]
  rw [hs]
  apply Finset.card_le_card
  intro i hi
  rw [Finset.mem_filter, Finset.mem_range] at hi ⊢
  exact ⟨hi.1, h i hi.1 hi.2⟩

/-- If only slot `s` can have come into use, the count grows by at most one. -/
theorem used_count_succ (t t1 : Table) (s : Nat) (hl : t1.length = t.length)
    (h : ∀ i, i < hash_size t → i ≠ s → Used t1 i → Used t i) :
    used_count t1 ≤ used_count t + 1 := by
  unfold used_count
  have hs : hash_size t1 = hash_size t := by unfold hash_size; rw [hl]
  rw [hs]
  calc ((Finset.range (hash_size t)).filter (fun i => Used t1 i)).card
      ≤ (insert s ((Finset.range (hash_size t)).filter (fun i => Used t i))).card := by
        apply Finset.card_le_card
        intro i hi
        rw [Finset.mem_filter, Finset.mem_range] at hi
        rw [Finset.mem_insert, Finset.mem_filter, Finset.mem_range]
        by_cases his : i = s
        · exact Or.inl his
        · exact Or.inr ⟨hi.1, h i hi.1 his hi.2⟩
    _ ≤ _ := Finset.card_insert_le _ _

/-- At most every slot is in use. -/
theorem used_count_le (t : Table) : used_count t ≤ hash_size t := by
  unfold used_count
  calc _ ≤ (Finset.range (hash_size t)).card := Finset.card_filter_le _ _
    _ = _ := Finset.card_range _

/-- No slot of a fresh array is in use. -/
theorem used_count_alloc (n : Nat) : used_count (jl_alloc_memory_any n) = 0 := by
  unfold used_count
  rw [Finset.card_eq_zero, Finset.filter_eq_empty_iff]
  intro i _
  simp [Used, load_alloc]

/-- Writing one slot pair brings at most one slot into use. -/
theorem used_count_put (t : Table) (e k v : Nat) (he : e % 2 = 0) :
    used_count (store (store t e k) (e + 1) v) ≤ used_count t + 1 := by
  apply used_count_succ t _ (e / 2) (by simp [store_length])
  intro i _ his hu
  rw [used_store_other _ _ _ _ (by omega), used_store_other _ _ _ _ his] at hu
  exact hu

/-- A bitwise `and` with an even number is even. -/
theorem and_even (a b : Nat) (h : a % 2 = 0) : (a &&& b) % 2 = 0 := by
  have h1 := Nat.testBit_and a b 0
  rw [Nat.testBit_zero, Nat.testBit_zero, Nat.testBit_zero] at h1
  have h2 : decide (a % 2 = 1) = false := by simp [h]
  rw [h2, Bool.false_and] at h1
  have h3 := of_decide_eq_false h1
  omega

/-- A slot with a non-null key cell is in use. -/
theorem used_of_key (t : Table) (index : Nat) (hk : load t index ≠ 0) (he : index % 2 = 0) :
    Used t (index / 2) := by
  left
  have : 2 * (index / 2) = index := by omega
  rw [this]; exact hk

/-- Overwriting the value cell of a slot with a key brings no slot into use. -/
theorem used_store_val (t : Table) (index x : Nat) (hk : load t index ≠ 0)
    (he : index % 2 = 0) (i : Nat) (h : Used (store t (index + 1) x) i) : Used t i := by
  by_cases hi : i = index / 2
  · rw [hi]; exact used_of_key t index hk he
  · rwa [used_store_other _ _ _ _ (by omega)] at h

/-- Overwriting both cells of a slot with a key brings no slot into use. -/
theorem used_store_pair (t : Table) (index x y : Nat) (hk : load t index ≠ 0)
    (he : index % 2 = 0) (i : Nat)
    (h : Used (store (store t index x) (index + 1) y) i) : Used t i := by
  by_cases hi : i = index / 2
  · rw [hi]; exact used_of_key t index hk he
  · rwa [used_store_other _ _ _ _ (by omega), used_store_other _ _ _ _ hi] at h

/-- The scan brings no slot into use, and the empty slot it reports is a key-cell index. -/
theorem assign_scan_used (rt : Runtime) (rehash : Bool) (sz orig : Nat) :
    ∀ (n : Nat) (tab : Table) (key val index pc : Nat) (e : Option Nat), index % 2 = 0 →
      (∀ i, Used (assign_scan rt rehash sz orig n tab key val index pc e).tab i → Used tab i) ∧
      (∀ t k v e1, assign_scan rt rehash sz orig n tab key val index pc e
          = Scan.left t k v (some e1) → e = some e1 ∨ e1 % 2 = 0) := by
  intro n
  induction n with
  | zero =>
    intro tab key val index pc e hev
    by_cases hk : load tab index = 0
    · rw [assign_scan_null _ _ _ _ _ _ _ _ _ _ _ hk]
      refine ⟨fun i h => h, fun t k v e1 h => ?_⟩
      injection h with _ _ _ h4
      split_ifs at h4 with h5
      · injection h4 with h4; right; omega
      · left; exact h4
    by_cases hB : rehash = false ∧ rt.jl_egal key (load tab index) = true ∧
        load tab (index + 1) ≠ 0
    · rw [assign_scan_update _ _ _ _ _ _ _ _ _ _ _ hk hB]
      refine ⟨fun i h => used_store_val tab index val hk hev i h, fun t k v e1 h => ?_⟩
      exact absurd h (by simp)
    obtain ⟨tab1, key1, val1, pc1, e1, ht, he1, hr⟩ :=
      assign_scan_step rt rehash sz orig 0 tab key val index pc e hk hB
    rw [hr]
    have hu : ∀ i, Used tab1 i → Used tab i := by
      rcases ht with rfl | rfl
      · exact fun i h => h
      · exact fun i h => used_store_pair tab index key val hk hev i h
    refine ⟨hu, fun t k v e2 h => ?_⟩
    injection h with _ _ _ h4
    rcases he1 with ⟨h5, -⟩ | ⟨-, h5⟩
    · left; rw [← h5, h4]
    · rw [h5] at h4; injection h4 with h4; right; omega
  | succ m ih =>
    intro tab key val index pc e hev
    by_cases hk : load tab index = 0
    · rw [assign_scan_null _ _ _ _ _ _ _ _ _ _ _ hk]
      refine ⟨fun i h => h, fun t k v e1 h => ?_⟩
      injection h with _ _ _ h4
      split_ifs at h4 with h5
      · injection h4 with h4; right; omega
      · left; exact h4
    by_cases hB : rehash = false ∧ rt.jl_egal key (load tab index) = true ∧
        load tab (index + 1) ≠ 0
    · rw [assign_scan_update _ _ _ _ _ _ _ _ _ _ _ hk hB]
      refine ⟨fun i h => used_store_val tab index val hk hev i h, fun t k v e1 h => ?_⟩
      exact absurd h (by simp)
    obtain ⟨tab1, key1, val1, pc1, e1, ht, he1, hr⟩ :=
      assign_scan_step rt rehash sz orig (m + 1) tab key val index pc e hk hB
    rw [hr]
    have hu : ∀ i, Used tab1 i → Used tab i := by
      rcases ht with rfl | rfl
      · exact fun i h => h
      · exact fun i h => used_store_pair tab index key val hk hev i h
    have hee : ∀ e2, e1 = some e2 → e = some e2 ∨ e2 % 2 = 0 := by
      intro e2 h4
      rcases he1 with ⟨h5, -⟩ | ⟨-, h5⟩
      · left; rw [← h5, h4]
      · rw [h5] at h4; injection h4 with h4; right; omega
    simp only []
    split_ifs with hc
    · obtain ⟨h1, h2⟩ := ih tab1 key1 val1 ((index + 2) &&& (sz * 2 - 1)) pc1 e1
        (and_even _ _ (by omega))
      refine ⟨fun i h => hu i (h1 i h), fun t k v e2 h => ?_⟩
      rcases h2 t k v e2 h with h3 | h3
      · exact hee e2 h3
      · exact Or.inr h3
    · refine ⟨hu, fun t k v e2 h => ?_⟩
      injection h with _ _ _ h4
      exact hee e2 h4

/-- Once `empty_slot` is set, the scan cannot end with `empty_slot == -1`. -/
theorem assign_scan_some (rt : Runtime) (rehash : Bool) (sz orig : Nat) :
    ∀ (n : Nat) (tab : Table) (key val index pc x : Nat) (t : Table) (k v : Nat),
      assign_scan rt rehash sz orig n tab key val index pc (some x) ≠ Scan.left t k v none := by
  intro n
  induction n with
  | zero =>
    intro tab key val index pc x t k v
    by_cases hk : load tab index = 0
    · rw [assign_scan_null _ _ _ _ _ _ _ _ _ _ _ hk]; simp
    by_cases hB : rehash = false ∧ rt.jl_egal key (load tab index) = true ∧
        load tab (index + 1) ≠ 0
    · rw [assign_scan_update _ _ _ _ _ _ _ _ _ _ _ hk hB]; simp
    obtain ⟨tab1, key1, val1, pc1, e1, -, he1, hr⟩ :=
      assign_scan_step rt rehash sz orig 0 tab key val index pc (some x) hk hB
    rw [hr]
    rcases he1 with ⟨h5, -⟩ | ⟨h5, -⟩
    · rw [h5]; simp
    · exact absurd h5 (by simp)
  | succ m ih =>
    intro tab key val index pc x t k v
    by_cases hk : load tab index = 0
    · rw [assign_scan_null _ _ _ _ _ _ _ _ _ _ _ hk]; simp
    by_cases hB : rehash = false ∧ rt.jl_egal key (load tab index) = true ∧
        load tab (index + 1) ≠ 0
    · rw [assign_scan_update _ _ _ _ _ _ _ _ _ _ _ hk hB]; simp
    obtain ⟨tab1, key1, val1, pc1, e1, -, he1, hr⟩ :=
      assign_scan_step rt rehash sz orig (m + 1) tab key val index pc (some x) hk hB
    rw [hr]
    rcases he1 with ⟨h5, -⟩ | ⟨h5, -⟩
    · rw [h5]
      simp only []
      split_ifs
      · exact ih _ _ _ _ _ _ _ _ _
      · simp
    · exact absurd h5 (by simp)
/-- For a power-of-two capacity the mask `two_sz - 1` is reduction modulo `two_sz`. -/
theorem mask_eq_mod (p x : Nat) : x &&& (2 ^ p * 2 - 1) = x % (2 ^ p * 2) := by
  rw [← pow_succ, Nat.and_pow_two_sub_one_eq_mod]

/-- The key cell after slot `s`, cyclically. -/
theorem next_slot (sz s : Nat) : (2 * s + 2) % (sz * 2) = 2 * ((s + 1) % sz) := by
  have h : 2 * s + 2 = 2 * (s + 1) := by ring
  rw [h, Nat.mul_comm sz 2, Nat.mul_mod_mul_left]

/-- Fewer than `sz` consecutive slots are pairwise distinct. -/
theorem slot_ne (sz o i j : Nat) (hij : i < j) (hj : j < sz) :
    (o + i) % sz ≠ (o + j) % sz := by
  intro h
  have h1 : i ≡ j [MOD sz] := Nat.ModEq.add_left_cancel' o h
  have h2 : i % sz = j % sz := h1
  rw [Nat.mod_eq_of_lt (by omega), Nat.mod_eq_of_lt hj] at h2
  omega

/-- If the scan ends with `empty_slot == -1`, every slot it visited has a non-null value cell in
the final table: `j` slots were visited before, and the scan visits up to `n + 1` more. -/
theorem assign_scan_exhausted (rt : Runtime) (rehash : Bool) (p o : Nat) (ho : o < 2 ^ p) :
    ∀ (n j : Nat) (tab : Table) (key val pc : Nat) (t : Table) (k v : Nat), j < 2 ^ p →
      (∀ i, i < j → load tab (2 * ((o + i) % 2 ^ p) + 1) ≠ 0) →
      assign_scan rt rehash (2 ^ p) (2 * o) n tab key val (2 * ((o + j) % 2 ^ p)) pc none
        = Scan.left t k v none →
      ∀ i, i < n + j + 1 → i < 2 ^ p → load t (2 * ((o + i) % 2 ^ p) + 1) ≠ 0 := by
  intro n
  induction n with
  | zero =>
    intro j tab key val pc t k v hj hprev hres i hi1 hi2
    by_cases hk : load tab (2 * ((o + j) % 2 ^ p)) = 0
    · rw [assign_scan_null _ _ _ _ _ _ _ _ _ _ _ hk] at hres
      simp at hres
    by_cases hB : rehash = false ∧ rt.jl_egal key (load tab (2 * ((o + j) % 2 ^ p))) = true ∧
        load tab (2 * ((o + j) % 2 ^ p) + 1) ≠ 0
    · rw [assign_scan_update _ _ _ _ _ _ _ _ _ _ _ hk hB] at hres
      simp at hres
    obtain ⟨tab1, key1, val1, pc1, e1, ht, he1, hr⟩ :=
      assign_scan_step rt rehash (2 ^ p) (2 * o) 0 tab key val (2 * ((o + j) % 2 ^ p)) pc
        none hk hB
    rw [hr] at hres
    injection hres with h1 _ _ h4
    subst h1
    have hval : load tab1 (2 * ((o + j) % 2 ^ p) + 1) ≠ 0 := by
      rcases he1 with ⟨-, h5⟩ | ⟨-, h5⟩
      · exact h5 rfl
      · rw [h5] at h4; simp at h4
    by_cases hij : i = j
    · rw [hij]; exact hval
    · have hlt : i < j := by omega
      have hne := slot_ne (2 ^ p) o i j hlt hj
      rcases ht with rfl | rfl
      · exact hprev i hlt
      · rw [load_store_ne _ _ _ _ (by omega), load_store_ne _ _ _ _ (by omega)]
        exact hprev i hlt
  | succ m ih =>
    intro j tab key val pc t k v hj hprev hres i hi1 hi2
    by_cases hk : load tab (2 * ((o + j) % 2 ^ p)) = 0
    · rw [assign_scan_null _ _ _ _ _ _ _ _ _ _ _ hk] at hres
      simp at hres
    by_cases hB : rehash = false ∧ rt.jl_egal key (load tab (2 * ((o + j) % 2 ^ p))) = true ∧
        load tab (2 * ((o + j) % 2 ^ p) + 1) ≠ 0
    · rw [assign_scan_update _ _ _ _ _ _ _ _ _ _ _ hk hB] at hres
      simp at hres
    obtain ⟨tab1, key1, val1, pc1, e1, ht, he1, hr⟩ :=
      assign_scan_step rt rehash (2 ^ p) (2 * o) (m + 1) tab key val (2 * ((o + j) % 2 ^ p)) pc
        none hk hB
    rw [hr] at hres
    simp only [mask_eq_mod, next_slot, Nat.mod_add_mod] at hres
    have hprev1 : ∀ i, i < j → load tab1 (2 * ((o + i) % 2 ^ p) + 1) ≠ 0 := by
      intro i hlt
      have hne := slot_ne (2 ^ p) o i j hlt hj
      rcases ht with rfl | rfl
      · exact hprev i hlt
      · rw [load_store_ne _ _ _ _ (by omega), load_store_ne _ _ _ _ (by omega)]
        exact hprev i hlt
    have hval : e1 = none → load tab1 (2 * ((o + j) % 2 ^ p) + 1) ≠ 0 := by
      intro h6
      rcases he1 with ⟨-, h5⟩ | ⟨-, h5⟩
      · exact h5 rfl
      · rw [h5] at h6; simp at h6
    split_ifs at hres with hc
    · -- the scan goes on
      have he1n : e1 = none := by
        rcases he1 with ⟨h5, -⟩ | ⟨-, h5⟩
        · exact h5
        · rw [h5] at hres
          exact absurd hres (assign_scan_some _ _ _ _ _ _ _ _ _ _ _ _ _ _)
      rw [he1n] at hres
      have hj1 : j + 1 < 2 ^ p := by
        rcases Nat.lt_or_ge (j + 1) (2 ^ p) with h | h
        · exact h
        · exfalso
          apply hc
          have : j + 1 = 2 ^ p := by omega
          rw [Nat.add_assoc, this, Nat.add_mod_right, Nat.mod_eq_of_lt ho]
      have hprev2 : ∀ i, i < j + 1 → load tab1 (2 * ((o + i) % 2 ^ p) + 1) ≠ 0 := by
        intro i hlt
        by_cases hij : i = j
        · rw [hij]; exact hval he1n
        · exact hprev1 i (by omega)
      exact ih (j + 1) tab1 key1 val1 pc1 t k v hj1 hprev2 hres i (by omega) hi2
    · -- the scan is back at `orig`
      injection hres with h1 _ _ h4
      subst h1
      have hj1 : j + 1 = 2 ^ p := by
        rcases Nat.lt_or_ge (j + 1) (2 ^ p) with h | h
        · exfalso
          have h9 : 2 * ((o + j + 1) % 2 ^ p) = 2 * o := not_not.mp hc
          have h10 : (o + j + 1) % 2 ^ p = o := Nat.eq_of_mul_eq_mul_left (by norm_num) h9
          have h7 : (o + (j + 1)) % 2 ^ p = (o + 0) % 2 ^ p := by
            have h11 : (o + 0) % 2 ^ p = o := Nat.mod_eq_of_lt ho
            rw [h11, ← Nat.add_assoc]
            exact h10
          exact slot_ne (2 ^ p) o 0 (j + 1) (by omega) h h7.symm
        · omega
      by_cases hij : i = j
      · rw [hij]; exact hval h4
      · exact hprev1 i (by omega)
/-- The capacity of a table of `2 ^ p * 2` cells. -/
theorem hash_size_pow (t : Table) (p : Nat) (h : t.length = 2 ^ p * 2) : hash_size t = 2 ^ p := by
  unfold hash_size; rw [h]; omega

/-- The ideal index for a power-of-two capacity. -/
theorem h2index_pow (hv p : Nat) : h2index hv (2 ^ p) = 2 * (hv % 2 ^ p) := by
  unfold h2index
  rw [Nat.and_pow_two_sub_one_eq_mod, Nat.mul_comm]

/-- A run of `r` consecutive valued slots gives at least `r` slots in use. -/
theorem used_count_ge_of_run (t : Table) (p o r : Nat) (hlen : t.length = 2 ^ p * 2)
    (hr : r ≤ 2 ^ p) (h : ∀ i, i < r → load t (2 * ((o + i) % 2 ^ p) + 1) ≠ 0) :
    r ≤ used_count t := by
  unfold used_count
  rw [hash_size_pow t p hlen]
  have hpos : 0 < 2 ^ p := Nat.two_pow_pos p
  calc r = (Finset.range r).card := (Finset.card_range r).symm
    _ ≤ _ := by
      apply Finset.card_le_card_of_injOn (fun i => (o + i) % 2 ^ p)
      · intro i hi
        rw [Finset.mem_range] at hi
        rw [Finset.mem_filter, Finset.mem_range]
        exact ⟨Nat.mod_lt _ hpos, Or.inr (h i hi)⟩
      · intro i hi j hj hij
        rw [Finset.mem_coe, Finset.mem_range] at hi hj
        simp only [] at hij
        rcases Nat.lt_trichotomy i j with h1 | h1 | h1
        · exact absurd hij (slot_ne _ o i j h1 (by omega))
        · exact h1
        · exact absurd hij.symm (slot_ne _ o j i h1 (by omega))

/-- When fewer slots are in use than the scan visits, the scan finds a place. -/
theorem assign_scan_finds (rt : Runtime) (rehash : Bool) (p : Nat) (a : Table) (key val : Nat)
    (hlen : a.length = 2 ^ p * 2) (hcnt : used_count a < max_probe (2 ^ p) + 1)
    (hcnt2 : used_count a < 2 ^ p) (t : Table) (k v : Nat) :
    assign_scan rt rehash (hash_size a) (h2index (rt.keyhash key) (hash_size a))
      (max_probe (hash_size a)) a key val (h2index (rt.keyhash key) (hash_size a)) 0 none
        ≠ Scan.left t k v none := by
  intro hres
  have hpos : 0 < 2 ^ p := Nat.two_pow_pos p
  have ho : rt.keyhash key % 2 ^ p < 2 ^ p := Nat.mod_lt _ hpos
  have hl := assign_scan_length rt rehash (hash_size a) (h2index (rt.keyhash key) (hash_size a))
    (max_probe (hash_size a)) a key val (h2index (rt.keyhash key) (hash_size a)) 0 none
  have hu := (assign_scan_used rt rehash (hash_size a) (h2index (rt.keyhash key) (hash_size a))
    (max_probe (hash_size a)) a key val (h2index (rt.keyhash key) (hash_size a)) 0 none
    (by rw [hash_size_pow a p hlen, h2index_pow]; omega)).1
  rw [hres] at hl hu
  simp only [Scan.tab] at hl hu
  rw [hash_size_pow a p hlen, h2index_pow] at hres
  have h0 : 2 * (rt.keyhash key % 2 ^ p)
      = 2 * ((rt.keyhash key % 2 ^ p + 0) % 2 ^ p) := by
    rw [Nat.add_zero, Nat.mod_mod]
  have hres' : assign_scan rt rehash (2 ^ p) (2 * (rt.keyhash key % 2 ^ p)) (max_probe (2 ^ p))
      a key val (2 * ((rt.keyhash key % 2 ^ p + 0) % 2 ^ p)) 0 none = Scan.left t k v none := by
    rw [← h0]; exact hres
  have hrun := assign_scan_exhausted rt rehash p (rt.keyhash key % 2 ^ p) ho
    (max_probe (2 ^ p)) 0 a key val 0 t k v hpos (fun i hi => absurd hi (Nat.not_lt_zero i))
    hres'
  have hge := used_count_ge_of_run t p (rt.keyhash key % 2 ^ p)
    (min (max_probe (2 ^ p) + 1) (2 ^ p)) (by rw [hl, hlen]) (Nat.min_le_right _ _)
    (fun i hi => hrun i (by have := Nat.min_le_left (max_probe (2 ^ p) + 1) (2 ^ p); omega)
      (by have := Nat.min_le_right (max_probe (2 ^ p) + 1) (2 ^ p); omega))
  have hmono := used_count_mono a t hl (fun i _ h => hu i h)
  have hmin : min (max_probe (2 ^ p) + 1) (2 ^ p) ≤ used_count a := le_trans hge hmono
  rcases Nat.le_total (max_probe (2 ^ p) + 1) (2 ^ p) with h | h
  · rw [Nat.min_eq_left h] at hmin; omega
  · rw [Nat.min_eq_right h] at hmin; omega
/-- The growth policy turns a power of two into a strictly larger power of two. -/
theorem growth_newsz_pow (rt : Runtime) (q p : Nat) (hHT : rt.HT_N_INLINE = 2 ^ q * 2) :
    ∃ p1, growth_newsz rt (2 ^ p * 2) = 2 ^ p1 * 2 ∧ p < p1 := by
  unfold growth_newsz
  simp only [Nat.shiftLeft_eq]
  split_ifs with h1 h2
  · refine ⟨q, hHT, ?_⟩
    rw [hHT] at h1
    have h3 : 2 ^ p < 2 ^ q := by omega
    exact (Nat.pow_lt_pow_iff_right (by norm_num)).mp h3
  · exact ⟨p + 1, by ring, by omega⟩
  · exact ⟨p + 2, by ring, by omega⟩

/-- Counting the valued slots one slot further. -/
theorem valued_below_succ (t : Table) (k : Nat) :
    valued_below t (k + 1) = valued_below t k + (if load t (2 * k + 1) ≠ 0 then 1 else 0) := by
  unfold valued_below
  rw [Finset.range_succ, Finset.filter_insert]
  split_ifs with h
  · rw [Finset.card_insert_of_not_mem]
    simp
  · rfl

/-- The count of valued slots grows with the bound. -/
theorem valued_below_mono (t : Table) (k K : Nat) (h : k ≤ K) :
    valued_below t k ≤ valued_below t K := by
  unfold valued_below
  apply Finset.card_le_card
  intro i hi
  rw [Finset.mem_filter, Finset.mem_range] at hi ⊢
  exact ⟨by omega, hi.2⟩

/-- Valued slots are in use. -/
theorem valued_below_le_used (t : Table) : valued_below t (hash_size t) ≤ used_count t := by
  unfold valued_below used_count
  apply Finset.card_le_card
  intro i hi
  rw [Finset.mem_filter, Finset.mem_range] at hi ⊢
  exact ⟨hi.1, Or.inr hi.2⟩

/-- The rehash loop returns when every insertion it makes returns, and the new table has at most
as many slots in use as the old one has valued slots. -/
theorem rehash_loop_total (assign : Table → Nat → Nat → Option (Table × Nat)) (ol : Table)
    (N p1 K : Nat) (hN : valued_below ol K ≤ N) (hK : ol.length = 2 * K)
    (hassign : ∀ (newa : Table) (k v p : Nat), newa.length = 2 ^ p * 2 → p1 ≤ p →
      used_count newa ≤ N →
      ∃ a1 ins p2, assign newa k v = some (a1, ins) ∧ a1.length = 2 ^ p2 * 2 ∧ p ≤ p2 ∧
        used_count a1 ≤ used_count newa + 1) :
    ∀ (n k : Nat) (newa : Table) (p : Nat), newa.length = 2 ^ p * 2 → p1 ≤ p →
      used_count newa ≤ valued_below ol k → k ≤ K →
      ∃ a1 p2, rehash_loop assign ol ol.length n (2 * k) newa = some a1 ∧
        a1.length = 2 ^ p2 * 2 ∧ p ≤ p2 ∧ used_count a1 ≤ valued_below ol K := by
  intro n
  induction n with
  | zero =>
    intro k newa p hl hp hu hk
    exact ⟨newa, p, rfl, hl, le_refl _, le_trans hu (valued_below_mono ol k K hk)⟩
  | succ n ih =>
    intro k newa p hl hp hu hk
    unfold rehash_loop
    split_ifs with h1 h2
    · -- a valued slot is inserted
      have hk1 : k + 1 ≤ K := by omega
      have hs := valued_below_succ ol k
      rw [if_pos h2] at hs
      have hm := valued_below_mono ol (k + 1) K hk1
      obtain ⟨a1, ins, p2, ha, hl2, hp2, hu2⟩ :=
        hassign newa (load ol (2 * k)) (load ol (2 * k + 1)) p hl hp (by omega)
      rw [ha]
      simp only []
      obtain ⟨a3, p3, h3, hl3, hp3, hu3⟩ := ih (k + 1) a1 p2 hl2 (by omega) (by omega) hk1
      have he : 2 * k + 2 = 2 * (k + 1) := by ring
      rw [he]
      exact ⟨a3, p3, h3, hl3, by omega, hu3⟩
    · have hk1 : k + 1 ≤ K := by omega
      have hs := valued_below_succ ol k
      rw [if_neg h2] at hs
      obtain ⟨a3, p3, h3, hl3, hp3, hu3⟩ := ih (k + 1) newa p hl hp (by omega) hk1
      have he : 2 * k + 2 = 2 * (k + 1) := by ring
      rw [he]
      exact ⟨a3, p3, h3, hl3, hp3, hu3⟩
    · exact ⟨newa, p, rfl, hl, le_refl _, le_trans hu (valued_below_mono ol k K hk)⟩
/-- The loop of `jl_table_assign_bp` when the scan found no place: rehash and retry. -/
theorem assign_loop_grow (rt : Runtime) (fuel : Nat) (a : Table) (key val : Nat)
    (rehash : Bool) (tab : Table) (key1 val1 : Nat)
    (hscan : assign_scan rt rehash (hash_size a) (h2index (rt.keyhash key) (hash_size a))
      (max_probe (hash_size a)) a key val (h2index (rt.keyhash key) (hash_size a)) 0 none
        = Scan.left tab key1 val1 none) :
    assign_loop rt (fuel + 1) a key val rehash =
      match rehash_loop
          (fun newa k v =>
            assign_loop rt fuel
              (if hash_size newa = 0 then jl_alloc_memory_any rt.HT_N_INLINE else newa) k v true)
          tab tab.length (tab.length / 2 + 1) 0
          (jl_alloc_memory_any (growth_newsz rt tab.length)) with
      | none => none
      | some newa => assign_loop rt fuel newa key1 val1 rehash := by
  conv_lhs => unfold assign_loop
  simp only [hscan]

/-- The loop of `jl_table_assign_bp` when the scan found a place: it returns at once. -/
theorem assign_loop_settled (rt : Runtime) (fuel : Nat) (a : Table) (key val : Nat)
    (rehash : Bool) (p : Nat) (hl : a.length = 2 ^ p * 2)
    (hne : ∀ t k v, assign_scan rt rehash (hash_size a) (h2index (rt.keyhash key) (hash_size a))
      (max_probe (hash_size a)) a key val (h2index (rt.keyhash key) (hash_size a)) 0 none
        ≠ Scan.left t k v none) :
    ∃ a1 ins, assign_loop rt (fuel + 1) a key val rehash = some (a1, ins) ∧
      a1.length = a.length ∧ used_count a1 ≤ used_count a + 1 := by
  have hlen := assign_scan_length rt rehash (hash_size a) (h2index (rt.keyhash key) (hash_size a))
    (max_probe (hash_size a)) a key val (h2index (rt.keyhash key) (hash_size a)) 0 none
  have hu := assign_scan_used rt rehash (hash_size a) (h2index (rt.keyhash key) (hash_size a))
    (max_probe (hash_size a)) a key val (h2index (rt.keyhash key) (hash_size a)) 0 none
    (by rw [hash_size_pow a p hl, h2index_pow]; omega)
  cases hs : assign_scan rt rehash (hash_size a) (h2index (rt.keyhash key) (hash_size a))
    (max_probe (hash_size a)) a key val (h2index (rt.keyhash key) (hash_size a)) 0 none with
  | updated tab =>
    rw [hs] at hlen hu
    simp only [Scan.tab] at hlen hu
    refine ⟨tab, 0, ?_, hlen, ?_⟩
    · conv_lhs => unfold assign_loop
      simp only [hs]
    · have := used_count_mono a tab hlen (fun i _ h => hu.1 i h)
      omega
  | left tab k v e =>
    rw [hs] at hlen hu
    simp only [Scan.tab] at hlen hu
    cases e with
    | none => exact absurd hs (hne tab k v)
    | some e =>
      have hev : e % 2 = 0 := by
        rcases hu.2 tab k v e rfl with h | h
        · exact absurd h (by simp)
        · exact h
      refine ⟨store (store tab e k) (e + 1) v, 1, ?_, ?_, ?_⟩
      · conv_lhs => unfold assign_loop
        simp only [hs]
      · rw [store_length, store_length, hlen]
      · have h1 := used_count_mono a tab hlen (fun i _ h => hu.1 i h)
        have h2 := used_count_put tab e k v hev
        omega

/-- The loop of `jl_table_assign_bp` returns: a table of capacity `2 ^ B` or more has room for
`N` entries within the probe bound, and every growth strictly increases the exponent, so `d`
nested growths suffice when `B <= p + d`. -/
theorem assign_loop_total (rt : Runtime) (q : Nat) (hHT : rt.HT_N_INLINE = 2 ^ q * 2)
    (N B : Nat) (hB : ∀ p, B ≤ p → N < max_probe (2 ^ p) + 1 ∧ N < 2 ^ p) :
    ∀ (d fuel : Nat) (a : Table) (key val : Nat) (rehash : Bool) (p : Nat), d < fuel →
      a.length = 2 ^ p * 2 → B ≤ p + d → used_count a ≤ N →
      ∃ a1 ins p1, assign_loop rt fuel a key val rehash = some (a1, ins) ∧
        a1.length = 2 ^ p1 * 2 ∧ p ≤ p1 ∧ used_count a1 ≤ used_count a + 1 := by
  intro d
  induction d with
  | zero =>
    intro fuel a key val rehash p hf hl hb hu
    obtain ⟨f, rfl⟩ : ∃ f, fuel = f + 1 := ⟨fuel - 1, by omega⟩
    obtain ⟨hB1, hB2⟩ := hB p (by omega)
    obtain ⟨a1, ins, h1, h2, h3⟩ := assign_loop_settled rt f a key val rehash p hl
      (fun t k v => assign_scan_finds rt rehash p a key val hl (by omega) (by omega) t k v)
    exact ⟨a1, ins, p, h1, by rw [h2, hl], le_refl _, h3⟩
  | succ d ih =>
    intro fuel a key val rehash p hf hl hb hu
    obtain ⟨f, rfl⟩ : ∃ f, fuel = f + 1 := ⟨fuel - 1, by omega⟩
    have hdf : d < f := by omega
    by_cases hne : ∀ t k v, assign_scan rt rehash (hash_size a)
        (h2index (rt.keyhash key) (hash_size a)) (max_probe (hash_size a)) a key val
        (h2index (rt.keyhash key) (hash_size a)) 0 none ≠ Scan.left t k v none
    · obtain ⟨a1, ins, h1, h2, h3⟩ := assign_loop_settled rt f a key val rehash p hl hne
      exact ⟨a1, ins, p, h1, by rw [h2, hl], le_refl _, h3⟩
    · push_neg at hne
      obtain ⟨tab, key1, val1, hs⟩ := hne
      have hlen := assign_scan_length rt rehash (hash_size a)
        (h2index (rt.keyhash key) (hash_size a)) (max_probe (hash_size a)) a key val
        (h2index (rt.keyhash key) (hash_size a)) 0 none
      have hus := (assign_scan_used rt rehash (hash_size a)
        (h2index (rt.keyhash key) (hash_size a)) (max_probe (hash_size a)) a key val
        (h2index (rt.keyhash key) (hash_size a)) 0 none
        (by rw [hash_size_pow a p hl, h2index_pow]; omega)).1
      rw [hs] at hlen hus
      simp only [Scan.tab] at hlen hus
      have hcnt : used_count tab ≤ used_count a := used_count_mono a tab hlen (fun i _ h => hus i h)
      have htl : tab.length = 2 ^ p * 2 := by rw [hlen, hl]
      obtain ⟨p1, hg, hp1⟩ := growth_newsz_pow rt q p hHT
      rw [assign_loop_grow rt f a key val rehash tab key1 val1 hs, htl, hg]
      have hvu : valued_below tab (2 ^ p) ≤ used_count tab := by
        have := valued_below_le_used tab
        rwa [hash_size_pow tab p htl] at this
      have hvb : valued_below tab (2 ^ p) ≤ N := by omega
      have hassign : ∀ (newa : Table) (k v p2 : Nat), newa.length = 2 ^ p2 * 2 → p1 ≤ p2 →
          used_count newa ≤ N →
          ∃ a1 ins p3, (fun newa k v => assign_loop rt f
              (if hash_size newa = 0 then jl_alloc_memory_any rt.HT_N_INLINE else newa) k v true)
              newa k v = some (a1, ins) ∧ a1.length = 2 ^ p3 * 2 ∧ p2 ≤ p3 ∧
            used_count a1 ≤ used_count newa + 1 := by
        intro newa k v p2 hl2 hp2 hu2
        have hpos : 0 < 2 ^ p2 := Nat.two_pow_pos p2
        have hhs : ¬ hash_size newa = 0 := by rw [hash_size_pow newa p2 hl2]; omega
        simp only [if_neg hhs]
        exact ih f newa k v true p2 hdf hl2 (by omega) hu2
      have hK : tab.length = 2 * 2 ^ p := by rw [htl]; ring
      have h0 := rehash_loop_total _ tab N p1 (2 ^ p) hvb hK hassign
        (2 ^ p * 2 / 2 + 1) 0 (jl_alloc_memory_any (2 ^ p1 * 2)) p1 (length_alloc _) (le_refl _)
        (by rw [used_count_alloc]; exact Nat.zero_le _) (Nat.zero_le _)
      obtain ⟨newa, p2, hr, hl2, hp2, hu2⟩ := h0
      rw [htl, Nat.mul_zero] at hr
      rw [hr]
      simp only []
      obtain ⟨a1, ins, p3, h1, h2, h3, h4⟩ :=
        ih f newa key1 val1 rehash p2 hdf hl2 (by omega) (by omega)
      exact ⟨a1, ins, p3, h1, h2, by omega, by omega⟩
/-- The cyclic distance from `D` to `a` modulo `M`. -/
theorem cyclic_dist (a M D : Nat) (ha : a < M) (hD : D < M) :
    (a + M - D) % M = if D ≤ a then a - D else a + M - D := by
  split_ifs with h
  · have : a + M - D = (a - D) + M := by omega
    rw [this, Nat.add_mod_right, Nat.mod_eq_of_lt (by omega)]
  · exact Nat.mod_eq_of_lt (by omega)

/-- A sum decreases when it decreases on two points and is unchanged elsewhere. -/
theorem sum_two_lt (S : Finset Nat) (f g : Nat → Nat) (s s1 : Nat) (hs : s ∈ S) (hs1 : s1 ∈ S)
    (hne : s ≠ s1) (hsame : ∀ i, i ∈ S → i ≠ s → i ≠ s1 → g i = f i)
    (hlt : g s + g s1 < f s + f s1) : ∑ i in S, g i < ∑ i in S, f i := by
  have hs1' : s1 ∈ S.erase s := Finset.mem_erase.mpr ⟨fun h => hne h.symm, hs1⟩
  rw [← Finset.add_sum_erase S g hs, ← Finset.add_sum_erase S f hs,
    ← Finset.add_sum_erase (S.erase s) g hs1', ← Finset.add_sum_erase (S.erase s) f hs1']
  have hrest : ∑ i in (S.erase s).erase s1, g i = ∑ i in (S.erase s).erase s1, f i := by
    apply Finset.sum_congr rfl
    intro i hi
    rw [Finset.mem_erase, Finset.mem_erase] at hi
    exact hsame i hi.2.2 hi.2.1 hi.1
  rw [hrest]
  omega

/-- A probe distance is below the array length. -/
theorem slot_dist_lt (rt : Runtime) (t : Table) (i : Nat) (h : 0 < hash_size t) :
    slot_dist rt t i < hash_size t * 2 := by
  unfold slot_dist
  split_ifs
  · omega
  · exact Nat.mod_lt _ (by omega)

/-- A bound on the sum of the probe distances. -/
theorem total_dist_le (rt : Runtime) (t : Table) :
    total_dist rt t ≤ hash_size t * (hash_size t * 2) := by
  unfold total_dist
  rcases Nat.eq_zero_or_pos (hash_size t) with h | h
  · rw [h]; simp
  · calc ∑ i in Finset.range (hash_size t), slot_dist rt t i
        ≤ ∑ _i in Finset.range (hash_size t), hash_size t * 2 :=
          Finset.sum_le_sum (fun i _ => le_of_lt (slot_dist_lt rt t i h))
      _ = hash_size t * (hash_size t * 2) := by
          rw [Finset.sum_const, Finset.card_range, smul_eq_mul]
/-- The probe distance of a slot depends on its key cell only. -/
theorem slot_dist_congr (rt : Runtime) (t t1 : Table) (i : Nat) (hl : t1.length = t.length)
    (h : load t1 (2 * i) = load t (2 * i)) : slot_dist rt t1 i = slot_dist rt t i := by
  unfold slot_dist hash_size
  rw [hl, h]

/-- The slot after `s`, cyclically. -/
theorem succ_mod_cases (s sz : Nat) (h : s < sz) :
    (s + 1 < sz ∧ (s + 1) % sz = s + 1) ∨ (s + 1 = sz ∧ (s + 1) % sz = 0) := by
  rcases Nat.lt_or_ge (s + 1) sz with h1 | h1
  · exact Or.inl ⟨h1, Nat.mod_eq_of_lt h1⟩
  · have : s + 1 = sz := by omega
    exact Or.inr ⟨this, by rw [this, Nat.mod_self]⟩

/-- One backward shift (lines 248-250, then 240-241 of the next turn) strictly decreases the sum
of the probe distances. -/
theorem shift_decreases (rt : Runtime) (p : Nat) (t1 : Table) (s s1 k2 v2 : Nat)
    (hl : t1.length = 2 ^ p * 2) (hs : s < 2 ^ p) (hs1 : s1 = (s + 1) % 2 ^ p)
    (hzero : load t1 (2 * s) = 0) (hk2 : load t1 (2 * s1) = k2) (hk2ne : k2 ≠ 0)
    (hnd : 2 * s1 ≠ h2index (rt.keyhash k2) (2 ^ p)) :
    total_dist rt (store (store (store (store t1 (2 * s) k2) (2 * s + 1) v2) (2 * s1) 0)
      (2 * s1 + 1) 0) < total_dist rt t1 := by
  have hs1lt : s1 < 2 ^ p := by rw [hs1]; exact Nat.mod_lt _ (Nat.two_pow_pos p)
  have hne : s ≠ s1 := by
    intro h
    rw [← h, hzero] at hk2
    exact hk2ne hk2.symm
  have hl4 : (store (store (store (store t1 (2 * s) k2) (2 * s + 1) v2) (2 * s1) 0)
      (2 * s1 + 1) 0).length = 2 ^ p * 2 := by
    simp [store_length, hl]
  have hk : load (store (store (store (store t1 (2 * s) k2) (2 * s + 1) v2) (2 * s1) 0)
      (2 * s1 + 1) 0) (2 * s) = k2 := by
    rw [load_store_ne _ _ _ _ (by omega), load_store_ne _ _ _ _ (by omega),
      load_store_ne _ _ _ _ (by omega), load_store_eq _ _ _ (by omega)]
  have hz : load (store (store (store (store t1 (2 * s) k2) (2 * s + 1) v2) (2 * s1) 0)
      (2 * s1 + 1) 0) (2 * s1) = 0 := by
    rw [load_store_ne _ _ _ _ (by omega),
      load_store_eq _ _ _ (by simp [store_length, hl]; omega)]
  unfold total_dist
  rw [hash_size_pow _ p hl4, hash_size_pow _ p hl]
  apply sum_two_lt _ _ _ s s1 (Finset.mem_range.mpr hs) (Finset.mem_range.mpr hs1lt) hne
  · intro i _ hi1 hi2
    apply slot_dist_congr
    · rw [hl4, hl]
    · rw [load_store_ne _ _ _ _ (by omega), load_store_ne _ _ _ _ (by omega),
        load_store_ne _ _ _ _ (by omega), load_store_ne _ _ _ _ (by omega)]
  · unfold slot_dist
    rw [hk, hz, hzero, hk2, if_pos rfl, if_pos rfl, if_neg hk2ne, if_neg hk2ne,
      hash_size_pow _ p hl4, hash_size_pow _ p hl]
    rw [h2index_pow] at hnd ⊢
    have hD : rt.keyhash k2 % 2 ^ p < 2 ^ p := Nat.mod_lt _ (Nat.two_pow_pos p)
    rw [cyclic_dist _ _ _ (by omega) (by omega), cyclic_dist _ _ _ (by omega) (by omega)]
    rcases succ_mod_cases s (2 ^ p) hs with ⟨h3, h4⟩ | ⟨h3, h4⟩
    · rw [h4] at hs1
      split_ifs <;> omega
    · rw [h4] at hs1
      split_ifs <;> omega

/-- The backward-shift loop returns, within as many turns as the sum of the probe distances
allows, and keeps the array length. -/
theorem pop_loop_total (rt : Runtime) (p : Nat) :
    ∀ (fuel : Nat) (tab : Table) (s : Nat), tab.length = 2 ^ p * 2 → s < 2 ^ p →
      total_dist rt (store (store tab (2 * s) 0) (2 * s + 1) 0) < fuel →
      ∃ tab1, pop_loop rt (2 ^ p) fuel tab (2 * s) = some tab1 ∧ tab1.length = tab.length := by
  intro fuel
  induction fuel with
  | zero => intro tab s _ _ h; omega
  | succ fuel ih =>
    intro tab s hl hs hd
    obtain ⟨t1, ht1⟩ : ∃ t1, t1 = store (store tab (2 * s) 0) (2 * s + 1) 0 := ⟨_, rfl⟩
    have hl1 : t1.length = 2 ^ p * 2 := by rw [ht1]; simp [store_length, hl]
    have hzero : load t1 (2 * s) = 0 := by
      rw [ht1, load_store_ne _ _ _ _ (by omega), load_store_eq _ _ _ (by omega)]
    unfold pop_loop
    simp only [mask_eq_mod, next_slot]
    rw [← ht1] at hd ⊢
    split_ifs with h1 h2
    · exact ⟨_, rfl, by rw [hl1, hl]⟩
    · exact ⟨_, rfl, by rw [hl1, hl]⟩
    · -- backward shift
      have hs1 : (s + 1) % 2 ^ p < 2 ^ p := Nat.mod_lt _ (Nat.two_pow_pos p)
      have hdec := shift_decreases rt p t1 s ((s + 1) % 2 ^ p)
        (load t1 (2 * ((s + 1) % 2 ^ p)))
        (load (store t1 (2 * s) (load t1 (2 * ((s + 1) % 2 ^ p)))) (2 * ((s + 1) % 2 ^ p) + 1))
        hl1 hs rfl hzero rfl h1 h2
      obtain ⟨tab1, hr, hlr⟩ := ih
        (store (store t1 (2 * s) (load t1 (2 * ((s + 1) % 2 ^ p)))) (2 * s + 1)
          (load (store t1 (2 * s) (load t1 (2 * ((s + 1) % 2 ^ p))))
            (2 * ((s + 1) % 2 ^ p) + 1)))
        ((s + 1) % 2 ^ p) (by simp [store_length, hl1]) hs1 (by omega)
      exact ⟨tab1, hr, by rw [hlr]; simp [store_length, hl1, hl]⟩
/-- The lookup scan returns `0` or the index of a value cell of the table. -/
theorem peek_scan_range (rt : Runtime) (tab : Table) (key p orig : Nat) :
    ∀ (n s : Nat), s < 2 ^ p →
      peek_scan rt tab key (2 ^ p) orig n (2 * s) = 0 ∨
      ∃ s1, s1 < 2 ^ p ∧ peek_scan rt tab key (2 ^ p) orig n (2 * s) = 2 * s1 + 1 := by
  intro n
  induction n with
  | zero =>
    intro s hs
    unfold peek_scan
    simp only []
    split_ifs
    · exact Or.inl rfl
    · exact Or.inr ⟨s, hs, rfl⟩
    · exact Or.inl rfl
    · exact Or.inl rfl
  | succ n ih =>
    intro s hs
    unfold peek_scan
    simp only [mask_eq_mod, next_slot]
    split_ifs
    · exact Or.inl rfl
    · exact Or.inr ⟨s, hs, rfl⟩
    · exact Or.inl rfl
    · exact ih _ (Nat.mod_lt _ (Nat.two_pow_pos p))
    · exact Or.inl rfl

/-- The function `jl_table_peek_valueindex` returns `0` or the index of a value cell. -/
theorem peek_valueindex_range (rt : Runtime) (a : Table) (key p : Nat)
    (hl : a.length = 2 ^ p * 2) :
    jl_table_peek_valueindex rt a key = 0 ∨
    ∃ s, s < 2 ^ p ∧ jl_table_peek_valueindex rt a key = 2 * s + 1 := by
  unfold jl_table_peek_valueindex
  simp only []
  rw [hash_size_pow a p hl, h2index_pow]
  split_ifs
  · exact Or.inl rfl
  · exact peek_scan_range rt a key p _ _ _ (Nat.mod_lt _ (Nat.two_pow_pos p))

/-- The function `jl_eqtable_pop` returns and keeps the array length. -/
theorem pop_total (rt : Runtime) (h : Table) (key deflt fuel : Nat)
    (hlen : h.length = 0 ∨ ∃ p, h.length = 2 ^ p * 2) (hf : h.length ^ 2 ≤ fuel) :
    ∃ h1 v f, jl_eqtable_pop rt fuel h key deflt = some (h1, v, f) ∧ h1.length = h.length := by
  rcases hlen with h0 | ⟨p, hp⟩
  · refine ⟨h, deflt, 0, ?_, rfl⟩
    have : jl_table_peek_valueindex rt h key = 0 := by
      unfold jl_table_peek_valueindex hash_size
      simp [h0]
    unfold jl_eqtable_pop
    simp [this]
  · rcases peek_valueindex_range rt h key p hp with h0 | ⟨s, hs, h1⟩
    · refine ⟨h, deflt, 0, ?_, rfl⟩
      unfold jl_eqtable_pop
      simp [h0]
    · have hpos : 0 < 2 ^ p := Nat.two_pow_pos p
      have hd : total_dist rt (store (store h (2 * s) 0) (2 * s + 1) 0) < fuel := by
        have h2 := total_dist_le rt (store (store h (2 * s) 0) (2 * s + 1) 0)
        rw [hash_size_pow _ p (by simp [store_length, hp])] at h2
        rw [hp] at hf
        have h3 : (2 ^ p * 2) ^ 2 = 2 * (2 ^ p * (2 ^ p * 2)) := by ring
        have h4 : 0 < 2 ^ p * (2 ^ p * 2) := by positivity
        omega
      obtain ⟨tab1, hr, hl1⟩ := pop_loop_total rt p fuel h s hp hs hd
      refine ⟨tab1, load h (2 * s + 1), 1, ?_, hl1⟩
      unfold jl_eqtable_pop
      simp only [h1, hash_size_pow h p hp]
      have h5 : 2 * s + 1 - 1 = 2 * s := by omega
      rw [h5, hr]
      simp

/-- The probe bound of a large table. -/
theorem max_probe_large (p : Nat) (hp : 11 ≤ p) : max_probe (2 ^ p) = 2 ^ (p - 6) := by
  unfold max_probe
  have h1 : (2 : Nat) ^ 11 ≤ 2 ^ p := Nat.pow_le_pow_right (by norm_num) hp
  have h2 : ¬ (2 ^ p ≤ 1024) := by omega
  rw [if_neg h2, Nat.shiftRight_eq_div_pow, Nat.pow_div (by omega) (by norm_num)]

/-- The function `jl_eqtable_put` returns, on a table of power-of-two length, with 12 units of
fuel or more. -/
theorem put_total (rt : Runtime) (q : Nat) (hHT : rt.HT_N_INLINE = 2 ^ q * 2) (h : Table)
    (key val fuel : Nat) (hlen : h.length = 0 ∨ ∃ p, h.length = 2 ^ p * 2) (hf : 12 ≤ fuel) :
    ∃ h1 ins p1, jl_eqtable_put rt fuel h key val = some (h1, ins) ∧ h1.length = 2 ^ p1 * 2 ∧
      h.length ≤ h1.length ∧ (h.length = 0 → rt.HT_N_INLINE ≤ h1.length) ∧
      used_count h1 ≤ used_count h + 1 := by
  have key_step : ∀ (a : Table) (p : Nat), a.length = 2 ^ p * 2 →
      ∃ a1 ins p1, assign_loop rt fuel a key val false = some (a1, ins) ∧
        a1.length = 2 ^ p1 * 2 ∧ p ≤ p1 ∧ used_count a1 ≤ used_count a + 1 := by
    intro a p hl
    apply assign_loop_total rt q hHT (2 ^ p) (p + 11) ?_ 11 fuel a key val false p (by omega) hl
      (le_refl _)
    · have := used_count_le a
      rwa [hash_size_pow a p hl] at this
    · intro p1 hp1
      have h1 : (2 : Nat) ^ p < 2 ^ (p1 - 6) :=
        Nat.pow_lt_pow_right (by norm_num) (by omega)
      have h2 : (2 : Nat) ^ p < 2 ^ p1 := Nat.pow_lt_pow_right (by norm_num) (by omega)
      rw [max_probe_large p1 (by omega)]
      exact ⟨by omega, h2⟩
  unfold jl_eqtable_put jl_table_assign_bp
  rcases hlen with h0 | ⟨p, hp⟩
  · have hs : hash_size h = 0 := by unfold hash_size; rw [h0]
    rw [if_pos hs]
    obtain ⟨a1, ins, p1, h1, h2, h3, h4⟩ :=
      key_step (jl_alloc_memory_any rt.HT_N_INLINE) q (by rw [length_alloc, hHT])
    refine ⟨a1, ins, p1, h1, h2, by omega, fun _ => ?_, ?_⟩
    · rw [h2, hHT]
      have := Nat.pow_le_pow_right (show 0 < 2 by norm_num) h3
      omega
    · rw [used_count_alloc] at h4; omega
  · have hs : ¬ hash_size h = 0 := by
      rw [hash_size_pow h p hp]; exact Nat.ne_of_gt (Nat.two_pow_pos p)
    rw [if_neg hs]
    obtain ⟨a1, ins, p1, h1, h2, h3, h4⟩ := key_step h p hp
    have := Nat.pow_le_pow_right (show 0 < 2 by norm_num) h3
    have hpos : 0 < 2 ^ p := Nat.two_pow_pos p
    exact ⟨a1, ins, p1, h1, h2, by omega, fun h0 => by omega, h4⟩
/-- The lookup scan returns `0` or the index of a non-null value cell whose key cell holds a
key that is non-null and identity-equal to the queried key. -/
theorem peek_scan_hit (rt : Runtime) (tab : Table) (key sz orig : Nat) :
    ∀ (n index : Nat), index % 2 = 0 →
      peek_scan rt tab key sz orig n index = 0 ∨
      (peek_scan rt tab key sz orig n index % 2 = 1 ∧
        load tab (peek_scan rt tab key sz orig n index - 1) ≠ 0 ∧
        rt.jl_egal key (load tab (peek_scan rt tab key sz orig n index - 1)) = true ∧
        load tab (peek_scan rt tab key sz orig n index) ≠ 0) := by
  intro n
  induction n with
  | zero =>
    intro index hev
    unfold peek_scan
    simp only []
    split_ifs with h1 h2 h3
    · exact Or.inl rfl
    · exact Or.inr ⟨by omega, by simpa using h1, by simpa using h2.1, h2.2⟩
    · exact Or.inl rfl
    · exact Or.inl rfl
  | succ n ih =>
    intro index hev
    unfold peek_scan
    simp only []
    split_ifs with h1 h2 h3 h4
    · exact Or.inl rfl
    · exact Or.inr ⟨by omega, by simpa using h1, by simpa using h2.1, h2.2⟩
    · exact Or.inl rfl
    · exact ih _ (and_even _ _ (by omega))
    · exact Or.inl rfl

/-- The function `jl_table_peek_valueindex` returns `0` or the index of a non-null value cell
whose key cell holds a non-null key identity-equal to the queried key. -/
theorem peek_valueindex_hit (rt : Runtime) (a : Table) (key : Nat) :
    jl_table_peek_valueindex rt a key = 0 ∨
    (jl_table_peek_valueindex rt a key % 2 = 1 ∧
      load a (jl_table_peek_valueindex rt a key - 1) ≠ 0 ∧
      rt.jl_egal key (load a (jl_table_peek_valueindex rt a key - 1)) = true ∧
      load a (jl_table_peek_valueindex rt a key) ≠ 0) := by
  unfold jl_table_peek_valueindex
  simp only []
  split_ifs
  · exact Or.inl rfl
  · exact peek_scan_hit rt a key _ _ _ _ (by unfold h2index; omega)

/-- One turn of the loop of `jl_eqtable_pop`: the hole is made, and either the loop breaks (next
key cell null, or next entry in its ideal slot) or the next entry is shifted back and the loop
goes on from its slot. -/
theorem pop_loop_succ (rt : Runtime) (sz fuel : Nat) (tab : Table) (keyidx : Nat) :
    pop_loop rt sz (fuel + 1) tab keyidx =
      if load (clear_slot tab keyidx) ((keyidx + 2) &&& (sz * 2 - 1)) = 0 then
        some (clear_slot tab keyidx)
      else if (keyidx + 2) &&& (sz * 2 - 1)
          = h2index (rt.keyhash (load (clear_slot tab keyidx) ((keyidx + 2) &&& (sz * 2 - 1))))
            sz then
        some (clear_slot tab keyidx)
      else
        pop_loop rt sz fuel
          (backshift (clear_slot tab keyidx) keyidx ((keyidx + 2) &&& (sz * 2 - 1)))
          ((keyidx + 2) &&& (sz * 2 - 1)) := by
  conv_lhs => unfold pop_loop
  rfl

/-- A backward shift moves the entry exactly one slot pair (two cells) closer to its ideal
bucket. -/
theorem shift_moves_closer (rt : Runtime) (p : Nat) (t1 : Table) (s s1 k2 v2 : Nat)
    (hl : t1.length = 2 ^ p * 2) (hs : s < 2 ^ p) (hs1 : s1 = (s + 1) % 2 ^ p)
    (hzero : load t1 (2 * s) = 0) (hk2 : load t1 (2 * s1) = k2) (hk2ne : k2 ≠ 0)
    (hnd : 2 * s1 ≠ h2index (rt.keyhash k2) (2 ^ p)) :
    slot_dist rt (store (store (store (store t1 (2 * s) k2) (2 * s + 1) v2) (2 * s1) 0)
      (2 * s1 + 1) 0) s + 2 = slot_dist rt t1 s1 := by
  have hs1lt : s1 < 2 ^ p := by rw [hs1]; exact Nat.mod_lt _ (Nat.two_pow_pos p)
  have hne : s ≠ s1 := by
    intro h
    rw [← h, hzero] at hk2
    exact hk2ne hk2.symm
  have hl4 : (store (store (store (store t1 (2 * s) k2) (2 * s + 1) v2) (2 * s1) 0)
      (2 * s1 + 1) 0).length = 2 ^ p * 2 := by
    simp [store_length, hl]
  have hk : load (store (store (store (store t1 (2 * s) k2) (2 * s + 1) v2) (2 * s1) 0)
      (2 * s1 + 1) 0) (2 * s) = k2 := by
    rw [load_store_ne _ _ _ _ (by omega), load_store_ne _ _ _ _ (by omega),
      load_store_ne _ _ _ _ (by omega), load_store_eq _ _ _ (by omega)]
  unfold slot_dist
  rw [hk, hk2, if_neg hk2ne, if_neg hk2ne, hash_size_pow _ p hl4, hash_size_pow _ p hl]
  rw [h2index_pow] at hnd ⊢
  have hD : rt.keyhash k2 % 2 ^ p < 2 ^ p := Nat.mod_lt _ (Nat.two_pow_pos p)
  rw [cyclic_dist _ _ _ (by omega) (by omega), cyclic_dist _ _ _ (by omega) (by omega)]
  rcases succ_mod_cases s (2 ^ p) hs with ⟨h3, h4⟩ | ⟨h3, h4⟩
  · rw [h4] at hs1
    split_ifs <;> omega
  · rw [h4] at hs1
    split_ifs <;> omega

/-- Clearing a slot keeps the array length. -/
theorem length_clear_slot (t : Table) (k : Nat) : (clear_slot t k).length = t.length := by
  unfold clear_slot; simp [store_length]

/-- Clearing a slot does not change the cells of the other slots. -/
theorem load_clear_slot_ne (t : Table) (k c : Nat) (h1 : c ≠ k) (h2 : c ≠ k + 1) :
    load (clear_slot t k) c = load t c := by
  unfold clear_slot
  rw [load_store_ne _ _ _ _ (by omega), load_store_ne _ _ _ _ (by omega)]

/-- The key cell of a cleared slot is null. -/
theorem load_clear_slot_key (t : Table) (k : Nat) : load (clear_slot t k) k = 0 := by
  unfold clear_slot
  rw [load_store_ne _ _ _ _ (by omega)]
  rcases Nat.lt_or_ge k t.length with h | h
  · exact load_store_eq _ _ _ h
  · exact load_of_length_le _ _ (by rw [store_length]; exact h)

/-- The value cell of a cleared slot is null. -/
theorem load_clear_slot_val (t : Table) (k : Nat) : load (clear_slot t k) (k + 1) = 0 := by
  unfold clear_slot
  rcases Nat.lt_or_ge (k + 1) t.length with h | h
  · exact load_store_eq _ _ _ (by rw [store_length]; exact h)
  · exact load_of_length_le _ _ (by rw [store_length, store_length]; exact h)

/-- A backward shift keeps the array length. -/
theorem length_backshift (t : Table) (k n : Nat) : (backshift t k n).length = t.length := by
  unfold backshift; simp [store_length]

/-- A backward shift does not change the cells of the other slots. -/
theorem load_backshift_ne (t : Table) (k n c : Nat) (h1 : c ≠ k) (h2 : c ≠ k + 1) :
    load (backshift t k n) c = load t c := by
  unfold backshift
  rw [load_store_ne _ _ _ _ (by omega), load_store_ne _ _ _ _ (by omega)]

/-- A backward shift copies the key cell. -/
theorem load_backshift_key (t : Table) (k n : Nat) (h : k + 1 < t.length) :
    load (backshift t k n) k = load t n := by
  unfold backshift
  rw [load_store_ne _ _ _ _ (by omega), load_store_eq _ _ _ (by omega)]

/-- A backward shift copies the value cell. -/
theorem load_backshift_val (t : Table) (k n : Nat) (h : k + 1 < t.length) (hn : n + 1 ≠ k) :
    load (backshift t k n) (k + 1) = load t (n + 1) := by
  unfold backshift
  rw [load_store_eq _ _ _ (by rw [store_length]; exact h), load_store_ne _ _ _ _ (by omega)]
/-- A table of `2 ^ p1` slot pairs, `p1 >= p + 11`, has room within the probe bound for `2 ^ p`
entries. -/
theorem room_large (p p1 : Nat) (h : p + 11 ≤ p1) :
    2 ^ p < max_probe (2 ^ p1) + 1 ∧ 2 ^ p < 2 ^ p1 := by
  have h1 : (2 : Nat) ^ p < 2 ^ (p1 - 6) := Nat.pow_lt_pow_right (by norm_num) (by omega)
  have h2 : (2 : Nat) ^ p < 2 ^ p1 := Nat.pow_lt_pow_right (by norm_num) (by omega)
  rw [max_probe_large p1 (by omega)]
  exact ⟨by omega, h2⟩

/-- When the scan finds no place, the loop of `jl_table_assign_bp` returns (12 units of fuel are
enough) with a table of strictly greater power-of-two length. -/
theorem assign_loop_after_growth (rt : Runtime) (q : Nat) (hHT : rt.HT_N_INLINE = 2 ^ q * 2)
    (a : Table) (key val : Nat) (rehash : Bool) (p : Nat) (tab : Table) (key1 val1 : Nat)
    (hl : a.length = 2 ^ p * 2)
    (hs : assign_scan rt rehash (hash_size a) (h2index (rt.keyhash key) (hash_size a))
      (max_probe (hash_size a)) a key val (h2index (rt.keyhash key) (hash_size a)) 0 none
        = Scan.left tab key1 val1 none)
    (fuel : Nat) (hf : 12 ≤ fuel) :
    ∃ a1 ins p1, assign_loop rt fuel a key val rehash = some (a1, ins) ∧
      a1.length = 2 ^ p1 * 2 ∧ p < p1 ∧ used_count a1 ≤ used_count a + 1 := by
  obtain ⟨f, rfl⟩ : ∃ f, fuel = f + 1 := ⟨fuel - 1, by omega⟩
  have htot := assign_loop_total rt q hHT (2 ^ p) (p + 11) (fun p1 hp1 => room_large p p1 hp1)
  have hlen := assign_scan_length rt rehash (hash_size a)
    (h2index (rt.keyhash key) (hash_size a)) (max_probe (hash_size a)) a key val
    (h2index (rt.keyhash key) (hash_size a)) 0 none
  have hus := (assign_scan_used rt rehash (hash_size a)
    (h2index (rt.keyhash key) (hash_size a)) (max_probe (hash_size a)) a key val
    (h2index (rt.keyhash key) (hash_size a)) 0 none
    (by rw [hash_size_pow a p hl, h2index_pow]; omega)).1
  rw [hs] at hlen hus
  simp only [Scan.tab] at hlen hus
  have hcnt : used_count tab ≤ used_count a := used_count_mono a tab hlen (fun i _ h => hus i h)
  have htl : tab.length = 2 ^ p * 2 := by rw [hlen, hl]
  have hua : used_count a ≤ 2 ^ p := by
    have := used_count_le a
    rwa [hash_size_pow a p hl] at this
  obtain ⟨p1, hg, hp1⟩ := growth_newsz_pow rt q p hHT
  rw [assign_loop_grow rt f a key val rehash tab key1 val1 hs, htl, hg]
  have hvu : valued_below tab (2 ^ p) ≤ used_count tab := by
    have := valued_below_le_used tab
    rwa [hash_size_pow tab p htl] at this
  have hassign : ∀ (newa : Table) (k v p2 : Nat), newa.length = 2 ^ p2 * 2 → p1 ≤ p2 →
      used_count newa ≤ 2 ^ p →
      ∃ a1 ins p3, (fun newa k v => assign_loop rt f
          (if hash_size newa = 0 then jl_alloc_memory_any rt.HT_N_INLINE else newa) k v true)
          newa k v = some (a1, ins) ∧ a1.length = 2 ^ p3 * 2 ∧ p2 ≤ p3 ∧
        used_count a1 ≤ used_count newa + 1 := by
    intro newa k v p2 hl2 hp2 hu2
    have hpos : 0 < 2 ^ p2 := Nat.two_pow_pos p2
    have hhs : ¬ hash_size newa = 0 := by rw [hash_size_pow newa p2 hl2]; omega
    simp only [if_neg hhs]
    exact htot 10 f newa k v true p2 (by omega) hl2 (by omega) hu2
  have hK : tab.length = 2 * 2 ^ p := by rw [htl]; ring
  obtain ⟨newa, p2, hr, hl2, hp2, hu2⟩ := rehash_loop_total _ tab (2 ^ p) p1 (2 ^ p)
    (by omega) hK hassign (2 ^ p * 2 / 2 + 1) 0 (jl_alloc_memory_any (2 ^ p1 * 2)) p1
    (length_alloc _) (le_refl _) (by rw [used_count_alloc]; exact Nat.zero_le _)
    (Nat.zero_le _)
  rw [htl, Nat.mul_zero] at hr
  rw [hr]
  simp only []
  obtain ⟨a1, ins, p3, h1, h2, h3, h4⟩ :=
    htot 10 f newa key1 val1 rehash p2 (by omega) hl2 (by omega) (by omega)
  exact ⟨a1, ins, p3, h1, h2, by omega, by omega⟩
/-- The last element of an appended list, with a default. -/
theorem getLast?_append_getD (l1 l2 : List Table) (t : Table) :
    ((l1 ++ l2).getLast?).getD t = (l2.getLast?).getD ((l1.getLast?).getD t) := by
  rw [List.getLast?_append]
  cases l2.getLast? <;> simp [Option.or]

/-- The last of the tables listed by `assign_scan_stores` is the table the scan ends with (the
table it started from when it made no store). -/
theorem assign_scan_stores_last (rt : Runtime) (rehash : Bool) (sz orig : Nat) :
    ∀ (n : Nat) (tab : Table) (key val index pc : Nat) (e : Option Nat),
      ((assign_scan_stores rt rehash sz orig n tab key val index pc e).getLast?).getD tab
        = (assign_scan rt rehash sz orig n tab key val index pc e).tab := by
  intro n
  induction n with
  | zero =>
    intro tab key val index pc e
    unfold assign_scan_stores assign_scan
    simp only []
    split_ifs <;> simp [Scan.tab]
  | succ m ih =>
    intro tab key val index pc e
    unfold assign_scan_stores assign_scan
    simp only []
    split_ifs <;>
      first
        | (simp [Scan.tab]; done)
        | (rw [getLast?_append_getD, ← ih]; simp)
/-- One full turn of the scan body (lines 93-117), with what is carried on: either nothing is
swapped, or the incoming entry is stored in the current slot and the resident is carried; and
`empty_slot` is kept (the slot then has a value) or becomes the current index (the slot then has
a null value cell). -/
theorem assign_scan_step_full (rt : Runtime) (rehash : Bool) (sz orig n : Nat) (tab : Table)
    (key val index pc : Nat) (e : Option Nat) (hk : load tab index ≠ 0)
    (hB : ¬(rehash = false ∧ rt.jl_egal key (load tab index) = true ∧
      load tab (index + 1) ≠ 0)) :
    ∃ (tab1 : Table) (key1 val1 pc1 : Nat) (e1 : Option Nat),
      ((tab1 = tab ∧ key1 = key ∧ val1 = val) ∨
        (tab1 = store (store tab index key) (index + 1) val ∧ key1 = load tab index ∧
          val1 = load tab (index + 1))) ∧
      ((e1 = e ∧ (e = none → load tab1 (index + 1) ≠ 0)) ∨
        (e = none ∧ e1 = some index ∧ load tab1 (index + 1) = 0)) ∧
      assign_scan rt rehash sz orig n tab key val index pc e =
        match n with
        | 0 => Scan.left tab1 key1 val1 e1
        | m + 1 =>
          if (index + 2) &&& (sz * 2 - 1) ≠ orig then
            assign_scan rt rehash sz orig m tab1 key1 val1 ((index + 2) &&& (sz * 2 - 1)) pc1 e1
          else Scan.left tab1 key1 val1 e1 := by
  by_cases hs : pc > h2index (rt.keyhash (load tab index)) sz
  · by_cases he : e = none ∧ load (store (store tab index key) (index + 1) val) (index + 1) = 0
    · refine ⟨store (store tab index key) (index + 1) val, load tab index, load tab (index + 1),
        ((index + sz * 2 - h2index (rt.keyhash (load tab index)) sz) &&& (sz * 2 - 1)) + 2,
        some index, Or.inr ⟨rfl, rfl, rfl⟩, Or.inr ⟨he.1, rfl, he.2⟩, ?_⟩
      conv_lhs => unfold assign_scan
      simp only []
      rw [if_neg hk, if_neg hB]
      simp only [decide_eq_true hs, if_true, if_pos he]
    · refine ⟨store (store tab index key) (index + 1) val, load tab index, load tab (index + 1),
        ((index + sz * 2 - h2index (rt.keyhash (load tab index)) sz) &&& (sz * 2 - 1)) + 2,
        e, Or.inr ⟨rfl, rfl, rfl⟩, Or.inl ⟨rfl, fun h1 h2 => he ⟨h1, h2⟩⟩, ?_⟩
      conv_lhs => unfold assign_scan
      simp only []
      rw [if_neg hk, if_neg hB]
      simp only [decide_eq_true hs, if_true, if_neg he]
  · by_cases he : e = none ∧ load tab (index + 1) = 0
    · refine ⟨tab, key, val, pc + 2, some index, Or.inl ⟨rfl, rfl, rfl⟩,
        Or.inr ⟨he.1, rfl, he.2⟩, ?_⟩
      conv_lhs => unfold assign_scan
      simp only []
      rw [if_neg hk, if_neg hB]
      simp only [decide_eq_false hs, if_false, if_pos he, Bool.false_eq_true]
    · refine ⟨tab, key, val, pc + 2, e, Or.inl ⟨rfl, rfl, rfl⟩,
        Or.inl ⟨rfl, fun h1 h2 => he ⟨h1, h2⟩⟩, ?_⟩
      conv_lhs => unfold assign_scan
      simp only []
      rw [if_neg hk, if_neg hB]
      simp only [decide_eq_false hs, if_false, if_neg he, Bool.false_eq_true]

/-- A non-null cell lies inside the array. -/
theorem lt_length_of_load (t : Table) (i : Nat) (h : load t i ≠ 0) : i < t.length := by
  by_contra hc
  exact h (load_of_length_le t i (by omega))

/-- Overwriting the value cell of a keyed slot with a non-null value keeps I2. -/
theorem paired_store_val (t : Table) (index v : Nat) (hp : SlotsPaired t)
    (hk : load t index ≠ 0) (hev : index % 2 = 0) (hv : v ≠ 0) (hin : index + 1 < t.length) :
    SlotsPaired (store t (index + 1) v) := by
  intro i hi
  have hi' : i < hash_size t := by unfold hash_size at hi ⊢; rwa [store_length] at hi
  by_cases his : i = index / 2
  · have h1 : 2 * i = index := by omega
    rw [h1, load_store_ne _ _ _ _ (by omega), load_store_eq _ _ _ (by omega)]
    exact ⟨fun h => absurd h hk, fun h => absurd h hv⟩
  · rw [load_store_ne _ _ _ _ (by omega), load_store_ne _ _ _ _ (by omega)]
    exact hp i hi'

/-- Storing a non-null key and a non-null value in the two cells of a slot keeps I2. -/
theorem paired_store_pair (t : Table) (index k v : Nat) (hp : SlotsPaired t)
    (hev : index % 2 = 0) (hk : k ≠ 0) (hv : v ≠ 0) :
    SlotsPaired (store (store t index k) (index + 1) v) := by
  intro i hi
  have hi' : i < hash_size t := by
    unfold hash_size at hi ⊢; rwa [store_length, store_length] at hi
  by_cases his : i = index / 2
  · have h1 : 2 * i = index := by omega
    have hlt : index + 1 < t.length := by unfold hash_size at hi'; omega
    rw [h1, load_store_ne _ _ _ _ (by omega), load_store_eq _ _ _ (by omega),
      load_store_eq _ _ _ (by rw [store_length]; omega)]
    exact ⟨fun h => absurd h hk, fun h => absurd h hv⟩
  · rw [load_store_ne _ _ _ _ (by omega), load_store_ne _ _ _ _ (by omega),
      load_store_ne _ _ _ _ (by omega), load_store_ne _ _ _ _ (by omega)]
    exact hp i hi'

/-- Clearing both cells of a slot keeps I2. -/
theorem paired_clear_slot (t : Table) (index : Nat) (hp : SlotsPaired t)
    (hev : index % 2 = 0) : SlotsPaired (clear_slot t index) := by
  intro i hi
  have hi' : i < hash_size t := by
    unfold hash_size at hi ⊢; rwa [length_clear_slot] at hi
  by_cases his : i = index / 2
  · have h1 : 2 * i = index := by omega
    rw [h1, load_clear_slot_key, load_clear_slot_val]
  · rw [load_clear_slot_ne _ _ _ (by omega) (by omega),
      load_clear_slot_ne _ _ _ (by omega) (by omega)]
    exact hp i hi'

/-- In a table with I2, a keyed slot has a value. -/
theorem paired_val_of_key (t : Table) (index : Nat) (hp : SlotsPaired t)
    (hk : load t index ≠ 0) (hev : index % 2 = 0) (hin : index + 1 < t.length) :
    load t (index + 1) ≠ 0 := by
  have h := hp (index / 2) (by unfold hash_size; omega)
  have h1 : 2 * (index / 2) = index := by omega
  rw [h1] at h
  exact fun h0 => hk (h.mpr h0)

/-- In a table with I2, a valued slot has a key. -/
theorem paired_key_of_val (t : Table) (index : Nat) (hp : SlotsPaired t)
    (hv : load t (index + 1) ≠ 0) (hev : index % 2 = 0) : load t index ≠ 0 := by
  have hlt := lt_length_of_load t (index + 1) hv
  have h := hp (index / 2) (by unfold hash_size; omega)
  have h1 : 2 * (index / 2) = index := by omega
  rw [h1] at h
  exact fun h0 => hv (h.mp h0)

/-- The next key-cell index of a scan is even and lies inside the `sz` slot pairs. -/
theorem next_index_bound (index sz : Nat) (hev : index % 2 = 0) (hsz : 1 ≤ sz) :
    ((index + 2) &&& (sz * 2 - 1)) % 2 = 0 ∧ ((index + 2) &&& (sz * 2 - 1)) + 1 < sz * 2 := by
  have h1 := and_even (index + 2) (sz * 2 - 1) (by omega)
  have h2 : (index + 2) &&& (sz * 2 - 1) ≤ sz * 2 - 1 := Nat.and_le_right
  exact ⟨h1, by omega⟩

/-- The ideal index of a hash is even and lies inside the `sz` slot pairs. -/
theorem h2index_bound (hv sz : Nat) (hsz : 1 ≤ sz) :
    h2index hv sz % 2 = 0 ∧ h2index hv sz + 1 < sz * 2 := by
  unfold h2index
  have h2 : hv &&& (sz - 1) ≤ sz - 1 := Nat.and_le_right
  exact ⟨by omega, by omega⟩
/-- On a table with I2 and an incoming entry with non-null key and value, one turn of the scan
body keeps I2, carries an entry with non-null key and value, and leaves `empty_slot` unset. -/
theorem assign_scan_step_paired (rt : Runtime) (rehash : Bool) (sz orig n : Nat) (tab : Table)
    (key val index pc : Nat) (hp : SlotsPaired tab) (hin : index + 1 < tab.length)
    (hkey : key ≠ 0) (hval : val ≠ 0) (hev : index % 2 = 0) (hk : load tab index ≠ 0)
    (hB : ¬(rehash = false ∧ rt.jl_egal key (load tab index) = true ∧
      load tab (index + 1) ≠ 0)) :
    ∃ (tab1 : Table) (key1 val1 pc1 : Nat),
      ((tab1 = tab ∧ key1 = key ∧ val1 = val) ∨
        (tab1 = store (store tab index key) (index + 1) val ∧ key1 = load tab index ∧
          val1 = load tab (index + 1))) ∧
      SlotsPaired tab1 ∧ tab1.length = tab.length ∧ key1 ≠ 0 ∧ val1 ≠ 0 ∧
      assign_scan rt rehash sz orig n tab key val index pc none =
        match n with
        | 0 => Scan.left tab1 key1 val1 none
        | m + 1 =>
          if (index + 2) &&& (sz * 2 - 1) ≠ orig then
            assign_scan rt rehash sz orig m tab1 key1 val1 ((index + 2) &&& (sz * 2 - 1)) pc1
              none
          else Scan.left tab1 key1 val1 none := by
  obtain ⟨tab1, key1, val1, pc1, e1, ht, he1, hr⟩ :=
    assign_scan_step_full rt rehash sz orig n tab key val index pc none hk hB
  have hv2 := paired_val_of_key tab index hp hk hev hin
  have hlt := lt_length_of_load tab (index + 1) hv2
  have hfacts : SlotsPaired tab1 ∧ tab1.length = tab.length ∧ key1 ≠ 0 ∧ val1 ≠ 0 ∧
      load tab1 (index + 1) ≠ 0 := by
    rcases ht with ⟨rfl, rfl, rfl⟩ | ⟨rfl, rfl, rfl⟩
    · exact ⟨hp, rfl, hkey, hval, hv2⟩
    · refine ⟨paired_store_pair tab index key val hp hev hkey hval,
        by simp [store_length], hk, hv2, ?_⟩
      rw [load_store_eq _ _ _ (by rw [store_length]; exact hlt)]
      exact hval
  have he : e1 = none := by
    rcases he1 with ⟨h1, -⟩ | ⟨-, -, h3⟩
    · exact h1
    · exact absurd h3 hfacts.2.2.2.2
  rw [he] at hr
  exact ⟨tab1, key1, val1, pc1, ht, hfacts.1, hfacts.2.1, hfacts.2.2.1, hfacts.2.2.2.1, hr⟩

/-- On a table with I2, the scan of an entry with non-null key and value ends with a table with
I2; when it is left, the carried entry has a non-null key and value and the empty slot, if any,
is a key-cell index whose key cell is null. -/
theorem assign_scan_paired (rt : Runtime) (rehash : Bool) (sz orig : Nat) :
    ∀ (n : Nat) (tab : Table) (key val index pc : Nat), SlotsPaired tab →
      1 ≤ sz → sz * 2 ≤ tab.length → key ≠ 0 → val ≠ 0 → index % 2 = 0 → index + 1 < sz * 2 →
      SlotsPaired (assign_scan rt rehash sz orig n tab key val index pc none).tab ∧
      (∀ t k v e1, assign_scan rt rehash sz orig n tab key val index pc none
          = Scan.left t k v e1 →
        k ≠ 0 ∧ v ≠ 0 ∧ ∀ x, e1 = some x → x % 2 = 0 ∧ load t x = 0) := by
  intro n
  induction n with
  | zero =>
    intro tab key val index pc hp hsz hfit hkey hval hev hidx
    by_cases hk : load tab index = 0
    · rw [assign_scan_null _ _ _ _ _ _ _ _ _ _ _ hk]
      refine ⟨hp, fun t k v e1 h => ?_⟩
      simp only [if_true, Scan.left.injEq] at h
      obtain ⟨rfl, rfl, rfl, rfl⟩ := h
      exact ⟨hkey, hval, fun x hx => by injection hx with hx; subst hx; exact ⟨hev, hk⟩⟩
    by_cases hB : rehash = false ∧ rt.jl_egal key (load tab index) = true ∧
        load tab (index + 1) ≠ 0
    · rw [assign_scan_update _ _ _ _ _ _ _ _ _ _ _ hk hB]
      exact ⟨paired_store_val tab index val hp hk hev hval (by omega),
        fun t k v e1 h => absurd h (by simp)⟩
    obtain ⟨tab1, key1, val1, pc1, -, hp1, hl1, hk1, hv1, hr⟩ :=
      assign_scan_step_paired rt rehash sz orig 0 tab key val index pc hp (by omega) hkey hval hev
        hk hB
    rw [hr]
    refine ⟨hp1, fun t k v e1 h => ?_⟩
    simp only [Scan.left.injEq] at h
    obtain ⟨rfl, rfl, rfl, rfl⟩ := h
    exact ⟨hk1, hv1, fun x hx => absurd hx (by simp)⟩
  | succ m ih =>
    intro tab key val index pc hp hsz hfit hkey hval hev hidx
    by_cases hk : load tab index = 0
    · rw [assign_scan_null _ _ _ _ _ _ _ _ _ _ _ hk]
      refine ⟨hp, fun t k v e1 h => ?_⟩
      simp only [if_true, Scan.left.injEq] at h
      obtain ⟨rfl, rfl, rfl, rfl⟩ := h
      exact ⟨hkey, hval, fun x hx => by injection hx with hx; subst hx; exact ⟨hev, hk⟩⟩
    by_cases hB : rehash = false ∧ rt.jl_egal key (load tab index) = true ∧
        load tab (index + 1) ≠ 0
    · rw [assign_scan_update _ _ _ _ _ _ _ _ _ _ _ hk hB]
      exact ⟨paired_store_val tab index val hp hk hev hval (by omega),
        fun t k v e1 h => absurd h (by simp)⟩
    obtain ⟨tab1, key1, val1, pc1, -, hp1, hl1, hk1, hv1, hr⟩ :=
      assign_scan_step_paired rt rehash sz orig (m + 1) tab key val index pc hp (by omega) hkey hval
        hev hk hB
    rw [hr]
    simp only []
    split_ifs with hc
    · exact ih tab1 key1 val1 _ pc1 hp1 hsz (by rw [hl1]; exact hfit) hk1 hv1
        (next_index_bound index sz hev hsz).1 (next_index_bound index sz hev hsz).2
    · refine ⟨hp1, fun t k v e1 h => ?_⟩
      simp only [Scan.left.injEq] at h
      obtain ⟨rfl, rfl, rfl, rfl⟩ := h
      exact ⟨hk1, hv1, fun x hx => absurd hx (by simp)⟩
/-- The rehash loop keeps every property of the new table that each insertion of an entry with
non-null key and value keeps, when the valued slots of the old table have a key. -/
theorem rehash_loop_inv (P : Table → Prop)
    (assign : Table → Nat → Nat → Option (Table × Nat)) (ol : Table) (sz : Nat)
    (hol : ∀ i, i % 2 = 0 → load ol (i + 1) ≠ 0 → load ol i ≠ 0)
    (hassign : ∀ newa k v a1 ins, P newa → k ≠ 0 → v ≠ 0 →
      assign newa k v = some (a1, ins) → P a1) :
    ∀ (n i : Nat) (newa r : Table), i % 2 = 0 → P newa →
      rehash_loop assign ol sz n i newa = some r → P r := by
  intro n
  induction n with
  | zero =>
    intro i newa r _ hP hr
    simp only [rehash_loop, Option.some.injEq] at hr
    rw [← hr]; exact hP
  | succ n ih =>
    intro i newa r hev hP hr
    unfold rehash_loop at hr
    split_ifs at hr with h1 h2
    · cases ha : assign newa (load ol i) (load ol (i + 1)) with
      | none => rw [ha] at hr; simp at hr
      | some res =>
        obtain ⟨a1, ins⟩ := res
        rw [ha] at hr
        simp only [] at hr
        exact ih (i + 2) a1 r (by omega)
          (hassign newa _ _ a1 ins hP (hol i hev h2) h2 ha) hr
    · exact ih (i + 2) newa r (by omega) hP hr
    · simp only [Option.some.injEq] at hr
      rw [← hr]; exact hP

/-- The loop of `jl_table_assign_bp` keeps every property `P` of tables that fresh arrays have
and that one turn without growth keeps, for entries with non-null key and value. -/
theorem assign_loop_inv (rt : Runtime) (P : Table → Prop)
    (halloc : P (jl_alloc_memory_any rt.HT_N_INLINE))
    (hgrow : ∀ a, P a → P (jl_alloc_memory_any (growth_newsz rt a.length)))
    (hturn : ∀ (a : Table) (key val : Nat) (rehash : Bool), P a → key ≠ 0 → val ≠ 0 →
      (∀ t, assign_scan rt rehash (hash_size a) (h2index (rt.keyhash key) (hash_size a))
          (max_probe (hash_size a)) a key val (h2index (rt.keyhash key) (hash_size a)) 0 none
            = Scan.updated t → P t) ∧
      (∀ t k v x, assign_scan rt rehash (hash_size a) (h2index (rt.keyhash key) (hash_size a))
          (max_probe (hash_size a)) a key val (h2index (rt.keyhash key) (hash_size a)) 0 none
            = Scan.left t k v (some x) → P (store (store t x k) (x + 1) v)) ∧
      (∀ t k v, assign_scan rt rehash (hash_size a) (h2index (rt.keyhash key) (hash_size a))
          (max_probe (hash_size a)) a key val (h2index (rt.keyhash key) (hash_size a)) 0 none
            = Scan.left t k v none →
        k ≠ 0 ∧ v ≠ 0 ∧ t.length = a.length ∧
          ∀ i, i % 2 = 0 → load t (i + 1) ≠ 0 → load t i ≠ 0)) :
    ∀ (fuel : Nat) (a : Table) (key val : Nat) (rehash : Bool) (a1 : Table) (ins : Nat),
      P a → key ≠ 0 → val ≠ 0 → assign_loop rt fuel a key val rehash = some (a1, ins) →
      P a1 := by
  intro fuel
  induction fuel with
  | zero =>
    intro a key val rehash a1 ins _ _ _ hr
    simp [assign_loop] at hr
  | succ f ih =>
    intro a key val rehash a1 ins hP hkey hval hr
    obtain ⟨hU, hS, hN⟩ := hturn a key val rehash hP hkey hval
    cases hs : assign_scan rt rehash (hash_size a) (h2index (rt.keyhash key) (hash_size a))
      (max_probe (hash_size a)) a key val (h2index (rt.keyhash key) (hash_size a)) 0 none with
    | updated tab =>
      have : assign_loop rt (f + 1) a key val rehash = some (tab, 0) := by
        conv_lhs => unfold assign_loop
        simp only [hs]
      rw [this] at hr
      simp only [Option.some.injEq, Prod.mk.injEq] at hr
      rw [← hr.1]
      exact hU tab hs
    | left tab k v e =>
      cases e with
      | some x =>
        have : assign_loop rt (f + 1) a key val rehash
            = some (store (store tab x k) (x + 1) v, 1) := by
          conv_lhs => unfold assign_loop
          simp only [hs]
        rw [this] at hr
        simp only [Option.some.injEq, Prod.mk.injEq] at hr
        rw [← hr.1]
        exact hS tab k v x hs
      | none =>
        obtain ⟨hk1, hv1, hl1, hol⟩ := hN tab k v hs
        rw [assign_loop_grow rt f a key val rehash tab k v hs] at hr
        cases hre : rehash_loop
            (fun newa k v => assign_loop rt f
              (if hash_size newa = 0 then jl_alloc_memory_any rt.HT_N_INLINE else newa) k v
              true)
            tab tab.length (tab.length / 2 + 1) 0
            (jl_alloc_memory_any (growth_newsz rt tab.length)) with
        | none => rw [hre] at hr; simp at hr
        | some newa =>
          rw [hre] at hr
          simp only [] at hr
          have hPn : P newa := by
            refine rehash_loop_inv P _ tab tab.length hol ?_ _ 0 _ newa (by omega)
              (by rw [hl1]; exact hgrow a hP) hre
            intro na k2 v2 a2 ins2 hPna hk2 hv2 hres
            simp only [] at hres
            refine ih _ k2 v2 true a2 ins2 ?_ hk2 hv2 hres
            split_ifs
            · exact halloc
            · exact hPna
          exact ih newa k v rehash a1 ins hPn hk1 hv1 hr
/-- Invariant I2 in the words of the slot states: every slot pair is Empty or Occupied. -/
theorem paired_iff (t : Table) :
    SlotsPaired t ↔ ∀ i, i < hash_size t → Empty t i ∨ Occupied t i := by
  unfold SlotsPaired Empty Occupied
  constructor
  · intro h i hi
    by_cases hk : load t (2 * i) = 0
    · exact Or.inl ⟨hk, (h i hi).mp hk⟩
    · exact Or.inr ⟨hk, fun hv => hk ((h i hi).mpr hv)⟩
  · intro h i hi
    rcases h i hi with ⟨h1, h2⟩ | ⟨h1, h2⟩
    · exact ⟨fun _ => h2, fun _ => h1⟩
    · exact ⟨fun h0 => absurd h0 h1, fun h0 => absurd h0 h2⟩

/-- A fresh array has I2. -/
theorem paired_alloc (n : Nat) : SlotsPaired (jl_alloc_memory_any n) := by
  intro i _
  rw [load_alloc, load_alloc]

/-- The size requested at growth is at least two cells when the table has a slot pair. -/
theorem growth_newsz_ge (rt : Runtime) (sz : Nat) (hHT : 2 ≤ rt.HT_N_INLINE) (hsz : 2 ≤ sz) :
    2 ≤ growth_newsz rt sz := by
  unfold growth_newsz
  split_ifs
  · exact hHT
  · rw [Nat.shiftLeft_eq]; omega
  · rw [Nat.shiftLeft_eq]; omega

/-- The loop of `jl_table_assign_bp` keeps I2 for entries with non-null key and value. -/
theorem assign_loop_paired (rt : Runtime) (hHT : 2 ≤ rt.HT_N_INLINE) (fuel : Nat) (a : Table)
    (key val : Nat) (rehash : Bool) (a1 : Table) (ins : Nat) (hp : SlotsPaired a)
    (hsz : 1 ≤ hash_size a) (hkey : key ≠ 0) (hval : val ≠ 0)
    (hr : assign_loop rt fuel a key val rehash = some (a1, ins)) :
    SlotsPaired a1 ∧ 1 ≤ hash_size a1 := by
  refine assign_loop_inv rt (fun t => SlotsPaired t ∧ 1 ≤ hash_size t) ?_ ?_ ?_ fuel a key val
    rehash a1 ins ⟨hp, hsz⟩ hkey hval hr
  · exact ⟨paired_alloc _, by unfold hash_size; rw [length_alloc]; omega⟩
  · intro t ht
    refine ⟨paired_alloc _, ?_⟩
    have h2 : 2 ≤ t.length := by have := ht.2; unfold hash_size at this; omega
    have := growth_newsz_ge rt t.length hHT h2
    unfold hash_size; rw [length_alloc]; omega
  · intro t k v rh ht hk hv
    have hb := h2index_bound (rt.keyhash k) (hash_size t) ht.2
    have hfit : hash_size t * 2 ≤ t.length := by unfold hash_size; omega
    have hs := assign_scan_paired rt rh (hash_size t) (h2index (rt.keyhash k) (hash_size t))
      (max_probe (hash_size t)) t k v (h2index (rt.keyhash k) (hash_size t)) 0 ht.1 ht.2 hfit
      hk hv hb.1 hb.2
    have hl := assign_scan_length rt rh (hash_size t) (h2index (rt.keyhash k) (hash_size t))
      (max_probe (hash_size t)) t k v (h2index (rt.keyhash k) (hash_size t)) 0 none
    refine ⟨?_, ?_, ?_⟩
    · intro t1 h1
      rw [h1] at hs hl
      simp only [Scan.tab] at hs hl
      exact ⟨hs.1, by have := ht.2; unfold hash_size at this ⊢; rw [hl]; exact this⟩
    · intro t1 k1 v1 x h1
      obtain ⟨hk1, hv1, hx⟩ := hs.2 t1 k1 v1 (some x) h1
      rw [h1] at hs hl
      simp only [Scan.tab] at hs hl
      refine ⟨paired_store_pair t1 x k1 v1 hs.1 (hx x rfl).1 hk1 hv1, ?_⟩
      have := ht.2
      unfold hash_size at this ⊢
      rw [store_length, store_length, hl]; exact this
    · intro t1 k1 v1 h1
      obtain ⟨hk1, hv1, -⟩ := hs.2 t1 k1 v1 none h1
      rw [h1] at hs hl
      simp only [Scan.tab] at hs hl
      exact ⟨hk1, hv1, hl, fun i hi hv2 => paired_key_of_val t1 i hs.1 hv2 hi⟩

/-- The function `jl_eqtable_put` keeps I2 for entries with non-null key and value. -/
theorem put_paired (rt : Runtime) (hHT : 2 ≤ rt.HT_N_INLINE) (fuel : Nat) (h : Table)
    (key val : Nat) (h1 : Table) (ins : Nat) (hp : SlotsPaired h) (hkey : key ≠ 0)
    (hval : val ≠ 0) (hr : jl_eqtable_put rt fuel h key val = some (h1, ins)) :
    SlotsPaired h1 := by
  unfold jl_eqtable_put jl_table_assign_bp at hr
  split_ifs at hr with h0
  · exact (assign_loop_paired rt hHT fuel _ key val false h1 ins (paired_alloc _)
      (by unfold hash_size; rw [length_alloc]; omega) hkey hval hr).1
  · exact (assign_loop_paired rt hHT fuel h key val false h1 ins hp (by omega) hkey hval hr).1

/-- The loop of `jl_eqtable_pop` keeps I2. -/
theorem pop_loop_paired (rt : Runtime) (sz : Nat) (hsz : 1 ≤ sz) :
    ∀ (fuel : Nat) (tab : Table) (keyidx : Nat) (r : Table), SlotsPaired tab →
      sz * 2 ≤ tab.length → keyidx % 2 = 0 → keyidx + 1 < sz * 2 →
      pop_loop rt sz fuel tab keyidx = some r → SlotsPaired r := by
  intro fuel
  induction fuel with
  | zero =>
    intro tab keyidx r _ _ _ _ hr
    simp [pop_loop] at hr
  | succ f ih =>
    intro tab keyidx r hp hfit hev hidx hr
    rw [pop_loop_succ] at hr
    have hc := paired_clear_slot tab keyidx hp hev
    have hn := next_index_bound keyidx sz hev hsz
    split_ifs at hr with h1 h2
    · simp only [Option.some.injEq] at hr
      rw [← hr]; exact hc
    · simp only [Option.some.injEq] at hr
      rw [← hr]; exact hc
    · have hne : (keyidx + 2) &&& (sz * 2 - 1) ≠ keyidx := by
        intro he
        rw [he, load_clear_slot_key] at h1
        exact h1 rfl
      have hv2 := paired_val_of_key (clear_slot tab keyidx) _ hc h1 hn.1
        (by rw [length_clear_slot]; omega)
      have hb : backshift (clear_slot tab keyidx) keyidx ((keyidx + 2) &&& (sz * 2 - 1))
          = store (store (clear_slot tab keyidx) keyidx
              (load (clear_slot tab keyidx) ((keyidx + 2) &&& (sz * 2 - 1)))) (keyidx + 1)
              (load (clear_slot tab keyidx) (((keyidx + 2) &&& (sz * 2 - 1)) + 1)) := by
        unfold backshift
        rw [load_store_ne _ _ _ _ (by omega)]
      refine ih _ _ r ?_ (by rw [length_backshift, length_clear_slot]; exact hfit) hn.1 hn.2 hr
      rw [hb]
      exact paired_store_pair _ keyidx _ _ hc hev h1 hv2

/-- The function `jl_eqtable_pop` keeps I2. -/
theorem pop_paired (rt : Runtime) (fuel : Nat) (h : Table) (key deflt : Nat) (h1 : Table)
    (v f : Nat) (hp : SlotsPaired h)
    (hr : jl_eqtable_pop rt fuel h key deflt = some (h1, v, f)) : SlotsPaired h1 := by
  rcases peek_valueindex_hit rt h key with hz | ⟨hodd, -, -, hv⟩
  · unfold jl_eqtable_pop at hr
    simp only [hz, if_true, Option.some.injEq, Prod.mk.injEq] at hr
    rw [← hr.1]; exact hp
  · have hlt := lt_length_of_load h _ hv
    have h0 : jl_table_peek_valueindex rt h key ≠ 0 := by omega
    unfold jl_eqtable_pop at hr
    simp only [if_neg h0] at hr
    cases hpl : pop_loop rt (hash_size h) fuel h (jl_table_peek_valueindex rt h key - 1) with
    | none => rw [hpl] at hr; simp at hr
    | some tab =>
      rw [hpl] at hr
      simp only [Option.some.injEq, Prod.mk.injEq] at hr
      rw [← hr.1]
      exact pop_loop_paired rt (hash_size h) (by unfold hash_size; omega) fuel h _ tab hp
        (by unfold hash_size; omega) (by omega) (by unfold hash_size; omega) hpl
/-- Going from bucket `i` forward by the cyclic distance to slot `c` arrives at `c`. -/
theorem dist_reach (sz i c : Nat) (hi : i < sz) (hc : c < sz) :
    (i + (c + sz - i) % sz) % sz = c := by
  rw [cyclic_dist c sz i hc hi]
  split_ifs with h
  · have : i + (c - i) = c := by omega
    rw [this, Nat.mod_eq_of_lt hc]
  · have : i + (c + sz - i) = c + sz := by omega
    rw [this, Nat.add_mod_right, Nat.mod_eq_of_lt hc]

/-- A slot reached from bucket `i` in `D` steps lies at cyclic distance `D % sz` from it. -/
theorem arc_dist (sz i D c : Nat) (hi : i < sz) (h : (i + D) % sz = c) :
    (c + sz - i) % sz = D % sz := by
  have hc : c < sz := by rw [← h]; exact Nat.mod_lt _ (by omega)
  have h1 : (c + sz - i) + i ≡ D + i [MOD sz] := by
    have e1 : (c + sz - i) + i = c + sz := by omega
    have e2 : D + i = i + D := by omega
    rw [e1, e2]
    show (c + sz) % sz = (i + D) % sz
    rw [Nat.add_mod_right, Nat.mod_eq_of_lt hc, h]
  exact Nat.ModEq.add_right_cancel' i h1

/-- One more step forward, cyclically. -/
theorem step_mod (sz a c : Nat) (h : a % sz = c) : (a + 1) % sz = (c + 1) % sz := by
  rw [Nat.add_mod, h, Nat.add_mod c 1 sz]
  rcases Nat.lt_or_ge c sz with hc | hc
  · rw [Nat.mod_eq_of_lt hc]
  · have hz : sz = 0 := by
      by_contra hne
      have := Nat.mod_lt a (Nat.pos_of_ne_zero hne)
      omega
    subst hz
    simp

/-- Storing an entry with a non-null key keeps every non-null key cell non-null. -/
theorem keyed_store_mono (tab : Table) (c key val x : Nat) (hkey : key ≠ 0)
    (h : load tab (2 * x) ≠ 0) :
    load (store (store tab (2 * c) key) (2 * c + 1) val) (2 * x) ≠ 0 := by
  rw [load_store_ne _ _ _ _ (by omega)]
  by_cases hx : x = c
  · subst hx
    rw [load_store_eq _ _ _ (lt_length_of_load tab _ h)]
    exact hkey
  · rw [load_store_ne _ _ _ _ (by omega)]
    exact h

/-- Storing the carried entry in the slot it has reached keeps the chains contiguous. -/
theorem chain_store (rt : Runtime) (p : Nat) (tab : Table) (key val c : Nat)
    (hl : tab.length = 2 ^ p * 2) (hch : Chain rt p tab) (harc : Arc rt p tab key c)
    (hc : c < 2 ^ p) (hkey : key ≠ 0) :
    Chain rt p (store (store tab (2 * c) key) (2 * c + 1) val) := by
  have hpos : 0 < 2 ^ p := Nat.two_pow_pos p
  have hkc : load (store (store tab (2 * c) key) (2 * c + 1) val) (2 * c) = key := by
    rw [load_store_ne _ _ _ _ (by omega), load_store_eq _ _ _ (by omega)]
  intro s hs hks d hd
  by_cases hsc : s = c
  · subst hsc
    rw [hkc] at hd ⊢
    obtain ⟨D, hD1, hD2⟩ := harc
    rw [arc_dist (2 ^ p) _ D s (Nat.mod_lt _ hpos) hD1] at hd
    have hDle : D % 2 ^ p ≤ D := Nat.mod_le _ _
    rcases Nat.lt_or_ge d D with h1 | h1
    · exact keyed_store_mono tab s key val _ hkey (hD2 d h1)
    · have hdD : d = D := by omega
      rw [hdD, hD1, hkc]
      exact hkey
  · have hsame : load (store (store tab (2 * c) key) (2 * c + 1) val) (2 * s)
        = load tab (2 * s) := by
      rw [load_store_ne _ _ _ _ (by omega), load_store_ne _ _ _ _ (by omega)]
    rw [hsame] at hks hd ⊢
    exact keyed_store_mono tab c key val _ hkey (hch s hs hks d hd)

/-- Overwriting a value cell keeps the chains contiguous. -/
theorem chain_store_val (rt : Runtime) (p : Nat) (tab : Table) (val index : Nat)
    (hev : index % 2 = 0) (hch : Chain rt p tab) : Chain rt p (store tab (index + 1) val) := by
  have hsame : ∀ x, load (store tab (index + 1) val) (2 * x) = load tab (2 * x) :=
    fun x => load_store_ne _ _ _ _ (by omega)
  intro s hs hks d hd
  rw [hsame] at hks hd ⊢
  rw [hsame]
  exact hch s hs hks d hd

/-- A fresh array has contiguous chains. -/
theorem chain_alloc (rt : Runtime) (p n : Nat) : Chain rt p (jl_alloc_memory_any n) := by
  intro s _ hks
  exact absurd (load_alloc n _) hks

/-- When the scan passes a keyed slot without swapping, the carried entry has reached the next
slot over keyed slots. -/
theorem arc_next_same (rt : Runtime) (p : Nat) (tab : Table) (key c : Nat)
    (harc : Arc rt p tab key c) (hk : load tab (2 * c) ≠ 0) :
    Arc rt p tab key ((c + 1) % 2 ^ p) := by
  obtain ⟨D, hD1, hD2⟩ := harc
  refine ⟨D + 1, ?_, ?_⟩
  · rw [← Nat.add_assoc]
    exact step_mod _ _ _ hD1
  · intro d hd
    rcases Nat.lt_or_ge d D with h1 | h1
    · exact hD2 d h1
    · have hdD : d = D := by omega
      rw [hdD, hD1]
      exact hk

/-- When the scan swaps at a slot, the resident it carries on has reached the next slot over
keyed slots. -/
theorem arc_next_swap (rt : Runtime) (p : Nat) (tab : Table) (key val c : Nat)
    (hch : Chain rt p tab) (hc : c < 2 ^ p) (hk : load tab (2 * c) ≠ 0) (hkey : key ≠ 0) :
    Arc rt p (store (store tab (2 * c) key) (2 * c + 1) val) (load tab (2 * c))
      ((c + 1) % 2 ^ p) := by
  have hpos : 0 < 2 ^ p := Nat.two_pow_pos p
  refine ⟨(c + 2 ^ p - rt.keyhash (load tab (2 * c)) % 2 ^ p) % 2 ^ p + 1, ?_, ?_⟩
  · rw [← Nat.add_assoc]
    exact step_mod _ _ _ (dist_reach _ _ _ (Nat.mod_lt _ hpos) hc)
  · intro d hd
    exact keyed_store_mono tab c key val _ hkey (hch c hc hk d (by omega))
/-- The key cell after slot `c` in a table of `2 ^ p` slot pairs, as the scan computes it. -/
theorem next_index_pow (p c : Nat) :
    (2 * c + 2) &&& (2 ^ p * 2 - 1) = 2 * ((c + 1) % 2 ^ p) := by
  rw [mask_eq_mod, next_slot]

/-- On a table with I2 and contiguous chains, the scan of an entry that has reached slot `c`
over keyed slots ends with contiguous chains: after an update, and after the store of the
carried entry in the slot the scan found. -/
theorem assign_scan_chain (rt : Runtime) (rehash : Bool) (p orig : Nat) :
    ∀ (n : Nat) (tab : Table) (key val c pc : Nat), tab.length = 2 ^ p * 2 →
      SlotsPaired tab → Chain rt p tab → Arc rt p tab key c → c < 2 ^ p → key ≠ 0 → val ≠ 0 →
      (∀ t, assign_scan rt rehash (2 ^ p) orig n tab key val (2 * c) pc none
          = Scan.updated t → Chain rt p t) ∧
      (∀ t k v x, assign_scan rt rehash (2 ^ p) orig n tab key val (2 * c) pc none
          = Scan.left t k v (some x) → Chain rt p (store (store t x k) (x + 1) v)) := by
  have hpos : 0 < 2 ^ p := Nat.two_pow_pos p
  intro n
  induction n with
  | zero =>
    intro tab key val c pc hl hp hch harc hc hkey hval
    by_cases hk : load tab (2 * c) = 0
    · rw [assign_scan_null _ _ _ _ _ _ _ _ _ _ _ hk]
      refine ⟨fun t h => absurd h (by simp), fun t k v x h => ?_⟩
      simp only [if_true, Scan.left.injEq, Option.some.injEq] at h
      obtain ⟨rfl, rfl, rfl, rfl⟩ := h
      exact chain_store rt p _ _ _ c hl hch harc hc hkey
    by_cases hB : rehash = false ∧ rt.jl_egal key (load tab (2 * c)) = true ∧
        load tab (2 * c + 1) ≠ 0
    · rw [assign_scan_update _ _ _ _ _ _ _ _ _ _ _ hk hB]
      refine ⟨fun t h => ?_, fun t k v x h => absurd h (by simp)⟩
      simp only [Scan.updated.injEq] at h
      rw [← h]
      exact chain_store_val rt p tab val (2 * c) (by omega) hch
    obtain ⟨tab1, key1, val1, pc1, -, -, -, -, -, hr⟩ :=
      assign_scan_step_paired rt rehash (2 ^ p) orig 0 tab key val (2 * c) pc hp
        (by omega) hkey hval (by omega) hk hB
    rw [hr]
    exact ⟨fun t h => absurd h (by simp), fun t k v x h => absurd h (by simp)⟩
  | succ m ih =>
    intro tab key val c pc hl hp hch harc hc hkey hval
    by_cases hk : load tab (2 * c) = 0
    · rw [assign_scan_null _ _ _ _ _ _ _ _ _ _ _ hk]
      refine ⟨fun t h => absurd h (by simp), fun t k v x h => ?_⟩
      simp only [if_true, Scan.left.injEq, Option.some.injEq] at h
      obtain ⟨rfl, rfl, rfl, rfl⟩ := h
      exact chain_store rt p _ _ _ c hl hch harc hc hkey
    by_cases hB : rehash = false ∧ rt.jl_egal key (load tab (2 * c)) = true ∧
        load tab (2 * c + 1) ≠ 0
    · rw [assign_scan_update _ _ _ _ _ _ _ _ _ _ _ hk hB]
      refine ⟨fun t h => ?_, fun t k v x h => absurd h (by simp)⟩
      simp only [Scan.updated.injEq] at h
      rw [← h]
      exact chain_store_val rt p tab val (2 * c) (by omega) hch
    obtain ⟨tab1, key1, val1, pc1, ht, hp1, hl1, hk1, hv1, hr⟩ :=
      assign_scan_step_paired rt rehash (2 ^ p) orig (m + 1) tab key val (2 * c) pc hp
        (by omega) hkey hval (by omega) hk hB
    rw [hr]
    simp only [next_index_pow]
    split_ifs with hcont
    · refine ih tab1 key1 val1 ((c + 1) % 2 ^ p) pc1 (by rw [hl1, hl]) hp1 ?_ ?_
        (Nat.mod_lt _ hpos) hk1 hv1
      · rcases ht with ⟨rfl, -, -⟩ | ⟨rfl, -, -⟩
        · exact hch
        · exact chain_store rt p _ _ _ c hl hch harc hc hkey
      · rcases ht with ⟨rfl, rfl, -⟩ | ⟨rfl, rfl, -⟩
        · exact arc_next_same rt p _ _ c harc hk
        · exact arc_next_swap rt p tab key val c hch hc hk hkey
    · exact ⟨fun t h => absurd h (by simp), fun t k v x h => absurd h (by simp)⟩
/-- The ideal bucket of a key in a table of `2 ^ p` slot pairs. -/
theorem ideal_slot_pow (rt : Runtime) (t : Table) (p k : Nat) (hl : t.length = 2 ^ p * 2) :
    ideal_slot rt t k = rt.keyhash k % 2 ^ p := by
  unfold ideal_slot
  rw [hash_size_pow t p hl, h2index_pow]
  omega

/-- Under I2, contiguity in the words of the slot states is contiguity on the key cells. -/
theorem contiguous_iff_chain (rt : Runtime) (t : Table) (p : Nat) (hl : t.length = 2 ^ p * 2)
    (hp : SlotsPaired t) : Contiguous rt t ↔ Chain rt p t := by
  have hpos : 0 < 2 ^ p := Nat.two_pow_pos p
  have hsz := hash_size_pow t p hl
  unfold Contiguous Chain
  simp only [ideal_slot_pow rt t p _ hl, hsz]
  constructor
  · intro h s hs hks d hd hz
    have hv : load t (2 * s + 1) ≠ 0 := fun h0 => hks ((hp s (by rw [hsz]; exact hs)).mpr h0)
    refine h s hs ⟨hks, hv⟩ d hd ⟨hz, ?_⟩
    exact (hp _ (by rw [hsz]; exact Nat.mod_lt _ hpos)).mp hz
  · intro h s hs hocc d hd hE
    exact h s hs hocc.1 d hd hE.1

/-- The loop of `jl_table_assign_bp` keeps I2 together with contiguous chains, on tables of
power-of-two length and for entries with non-null key and value. -/
theorem assign_loop_chain (rt : Runtime) (q : Nat) (hHT : rt.HT_N_INLINE = 2 ^ q * 2)
    (fuel : Nat) (a : Table) (key val : Nat) (rehash : Bool) (a1 : Table) (ins : Nat)
    (hP : ∃ p, a.length = 2 ^ p * 2 ∧ SlotsPaired a ∧ Chain rt p a)
    (hkey : key ≠ 0) (hval : val ≠ 0)
    (hr : assign_loop rt fuel a key val rehash = some (a1, ins)) :
    ∃ p, a1.length = 2 ^ p * 2 ∧ SlotsPaired a1 ∧ Chain rt p a1 := by
  refine assign_loop_inv rt (fun t => ∃ p, t.length = 2 ^ p * 2 ∧ SlotsPaired t ∧ Chain rt p t)
    ?_ ?_ ?_ fuel a key val rehash a1 ins hP hkey hval hr
  · exact ⟨q, by rw [length_alloc, hHT], paired_alloc _, chain_alloc rt q _⟩
  · rintro t ⟨p, hl, -, -⟩
    obtain ⟨p1, h1, -⟩ := growth_newsz_pow rt q p hHT
    exact ⟨p1, by rw [length_alloc, hl, h1], paired_alloc _, chain_alloc rt p1 _⟩
  · rintro t k v rh ⟨p, hl, hp, hch⟩ hk hv
    have hpos : 0 < 2 ^ p := Nat.two_pow_pos p
    have hsz := hash_size_pow t p hl
    rw [hsz, h2index_pow]
    have harc : Arc rt p t k (rt.keyhash k % 2 ^ p) :=
      ⟨0, by rw [Nat.add_zero, Nat.mod_mod], fun d hd => absurd hd (by omega)⟩
    have hc := assign_scan_chain rt rh p (2 * (rt.keyhash k % 2 ^ p)) (max_probe (2 ^ p)) t k v
      (rt.keyhash k % 2 ^ p) 0 hl hp hch harc (Nat.mod_lt _ hpos) hk hv
    have hs := assign_scan_paired rt rh (2 ^ p) (2 * (rt.keyhash k % 2 ^ p))
      (max_probe (2 ^ p)) t k v (2 * (rt.keyhash k % 2 ^ p)) 0 hp hpos (by omega) hk hv
      (by omega) (by have := Nat.mod_lt (rt.keyhash k) hpos; omega)
    have hlen := assign_scan_length rt rh (2 ^ p) (2 * (rt.keyhash k % 2 ^ p))
      (max_probe (2 ^ p)) t k v (2 * (rt.keyhash k % 2 ^ p)) 0 none
    refine ⟨?_, ?_, ?_⟩
    · intro t1 h1
      have hch1 := hc.1 t1 h1
      rw [h1] at hs hlen
      simp only [Scan.tab] at hs hlen
      exact ⟨p, by rw [hlen, hl], hs.1, hch1⟩
    · intro t1 k1 v1 x h1
      have hch1 := hc.2 t1 k1 v1 x h1
      obtain ⟨hk1, hv1, hx⟩ := hs.2 t1 k1 v1 (some x) h1
      rw [h1] at hs hlen
      simp only [Scan.tab] at hs hlen
      exact ⟨p, by rw [store_length, store_length, hlen, hl],
        paired_store_pair t1 x k1 v1 hs.1 (hx x rfl).1 hk1 hv1, hch1⟩
    · intro t1 k1 v1 h1
      obtain ⟨hk1, hv1, -⟩ := hs.2 t1 k1 v1 none h1
      rw [h1] at hs hlen
      simp only [Scan.tab] at hs hlen
      exact ⟨hk1, hv1, hlen, fun i hi hv2 => paired_key_of_val t1 i hs.1 hv2 hi⟩

/-- The function `jl_eqtable_put` keeps I2 together with contiguous chains, on tables of length
0 or a power of two and for entries with non-null key and value. -/
theorem put_chain (rt : Runtime) (q : Nat) (hHT : rt.HT_N_INLINE = 2 ^ q * 2) (fuel : Nat)
    (h : Table) (key val : Nat) (h1 : Table) (ins : Nat)
    (hP : h.length = 0 ∨ ∃ p, h.length = 2 ^ p * 2 ∧ SlotsPaired h ∧ Chain rt p h)
    (hkey : key ≠ 0) (hval : val ≠ 0)
    (hr : jl_eqtable_put rt fuel h key val = some (h1, ins)) :
    ∃ p, h1.length = 2 ^ p * 2 ∧ SlotsPaired h1 ∧ Chain rt p h1 := by
  unfold jl_eqtable_put jl_table_assign_bp at hr
  split_ifs at hr with h0
  · exact assign_loop_chain rt q hHT fuel _ key val false h1 ins
      ⟨q, by rw [length_alloc, hHT], paired_alloc _, chain_alloc rt q _⟩ hkey hval hr
  · rcases hP with hz | hP
    · exact absurd (by unfold hash_size; rw [hz]) h0
    · exact assign_loop_chain rt q hHT fuel h key val false h1 ins hP hkey hval hr

/-- A sequence of `jl_eqtable_put` calls with non-null keys and values, from a table of length 0
or with I2 and contiguous chains, ends with I2 and contiguous chains. -/
theorem put_all_chain (rt : Runtime) (q : Nat) (hHT : rt.HT_N_INLINE = 2 ^ q * 2) (fuel : Nat) :
    ∀ (puts : List (Nat × Nat)) (h t : Table),
      (h.length = 0 ∨ ∃ p, h.length = 2 ^ p * 2 ∧ SlotsPaired h ∧ Chain rt p h) →
      (∀ kv, kv ∈ puts → kv.1 ≠ 0 ∧ kv.2 ≠ 0) → put_all rt fuel h puts = some t →
      t.length = 0 ∨ ∃ p, t.length = 2 ^ p * 2 ∧ SlotsPaired t ∧ Chain rt p t := by
  intro puts
  induction puts with
  | nil =>
    intro h t hP _ hr
    simp only [put_all, Option.some.injEq] at hr
    rw [← hr]; exact hP
  | cons kv rest ih =>
    intro h t hP hne hr
    obtain ⟨k, v⟩ := kv
    unfold put_all at hr
    cases hput : jl_eqtable_put rt fuel h k v with
    | none => rw [hput] at hr; simp at hr
    | some res =>
      obtain ⟨t1, ins⟩ := res
      rw [hput] at hr
      simp only [] at hr
      have h1 := hne (k, v) (List.mem_cons_self _ _)
      exact ih t1 t (Or.inr (put_chain rt q hHT fuel h k v t1 ins hP h1.1 h1.2 hput))
        (fun kv hkv => hne kv (List.mem_cons_of_mem _ hkv)) hr

/-- A sequence of `jl_eqtable_put` calls returns, on a table of length 0 or a power of two. -/
theorem put_all_total (rt : Runtime) (q : Nat) (hHT : rt.HT_N_INLINE = 2 ^ q * 2) (fuel : Nat)
    (hf : 12 ≤ fuel) :
    ∀ (puts : List (Nat × Nat)) (h : Table), (h.length = 0 ∨ ∃ p, h.length = 2 ^ p * 2) →
      ∃ t, put_all rt fuel h puts = some t := by
  intro puts
  induction puts with
  | nil => intro h _; exact ⟨h, rfl⟩
  | cons kv rest ih =>
    intro h hlen
    obtain ⟨k, v⟩ := kv
    obtain ⟨h1, ins, p1, hr, hl1, -⟩ := put_total rt q hHT h k v fuel hlen hf
    obtain ⟨t, ht⟩ := ih h1 (Or.inr ⟨p1, hl1⟩)
    refine ⟨t, ?_⟩
    unfold put_all
    rw [hr]
    exact ht
/-- When the lookup scan from slot `c` ends at a null key cell, it has passed `J` slots, each
with a non-null key cell and none holding an equal key with a value, and slot `c + J` has a null
key cell. -/
theorem peek_scan_reaches (rt : Runtime) (tab : Table) (key p orig : Nat) :
    ∀ (n c : Nat), c < 2 ^ p →
      peek_scan_reaches_empty rt tab key (2 ^ p) orig n (2 * c) = true →
      ∃ J, load tab (2 * ((c + J) % 2 ^ p)) = 0 ∧
        ∀ i, i < J → load tab (2 * ((c + i) % 2 ^ p)) ≠ 0 ∧
          ¬(rt.jl_egal key (load tab (2 * ((c + i) % 2 ^ p))) = true ∧
            load tab (2 * ((c + i) % 2 ^ p) + 1) ≠ 0) := by
  have hpos : 0 < 2 ^ p := Nat.two_pow_pos p
  intro n
  induction n with
  | zero =>
    intro c hc h
    unfold peek_scan_reaches_empty at h
    simp only [] at h
    split_ifs at h with h1
    exact ⟨0, by rw [Nat.add_zero, Nat.mod_eq_of_lt hc]; exact h1,
      fun i hi => absurd hi (by omega)⟩
  | succ m ih =>
    intro c hc h
    unfold peek_scan_reaches_empty at h
    simp only [next_index_pow] at h
    split_ifs at h with h1 h2 h3 h4
    · exact ⟨0, by rw [Nat.add_zero, Nat.mod_eq_of_lt hc]; exact h1,
        fun i hi => absurd hi (by omega)⟩
    · obtain ⟨J, hJ1, hJ2⟩ := ih ((c + 1) % 2 ^ p) (Nat.mod_lt _ hpos) h
      refine ⟨J + 1, ?_, ?_⟩
      · rw [Nat.mod_add_mod] at hJ1
        rw [← hJ1]; congr 3; omega
      · intro i hi
        rcases Nat.eq_zero_or_pos i with h0 | h0
        · subst h0
          rw [Nat.add_zero, Nat.mod_eq_of_lt hc]
          exact ⟨h1, h2⟩
        · obtain ⟨i1, rfl⟩ : ∃ i1, i = i1 + 1 := ⟨i - 1, by omega⟩
          have := hJ2 i1 (by omega)
          rw [Nat.mod_add_mod] at this
          have e : c + 1 + i1 = c + (i1 + 1) := by omega
          rw [e] at this
          exact this

/-- On a table with contiguous chains, a lookup that reaches a null key cell proves that no
Occupied slot holds an equal key of the same ideal bucket. -/
theorem lookup_empty_absent (rt : Runtime) (t : Table) (p key : Nat)
    (hl : t.length = 2 ^ p * 2) (hch : Chain rt p t)
    (hreach : lookup_reaches_empty rt t key = true) :
    ∀ s, s < hash_size t → Occupied t s → rt.jl_egal key (load t (2 * s)) = true →
      rt.keyhash (load t (2 * s)) % 2 ^ p ≠ rt.keyhash key % 2 ^ p := by
  have hpos : 0 < 2 ^ p := Nat.two_pow_pos p
  have hsz := hash_size_pow t p hl
  unfold lookup_reaches_empty at hreach
  simp only [hsz, h2index_pow] at hreach
  rw [if_neg (by omega)] at hreach
  obtain ⟨J, hJ1, hJ2⟩ := peek_scan_reaches rt t key p _ _ _ (Nat.mod_lt _ hpos) hreach
  intro s hs hocc heg hh
  rw [hsz] at hs
  have hchain := hch s hs hocc.1
  rw [hh] at hchain
  rcases Nat.lt_or_ge ((s + 2 ^ p - rt.keyhash key % 2 ^ p) % 2 ^ p) J with hd | hd
  · have h2 := (hJ2 _ hd).2
    rw [dist_reach _ _ _ (Nat.mod_lt _ hpos) hs] at h2
    exact h2 ⟨heg, hocc.2⟩
  · exact hchain J hd hJ1

/-- A lookup scan that ends at a null key cell returns 0 (line 166). -/
theorem peek_scan_reaches_zero (rt : Runtime) (tab : Table) (key sz orig : Nat) :
    ∀ (n index : Nat), peek_scan_reaches_empty rt tab key sz orig n index = true →
      peek_scan rt tab key sz orig n index = 0 := by
  intro n
  induction n with
  | zero =>
    intro index h
    unfold peek_scan_reaches_empty at h
    unfold peek_scan
    simp only [] at h ⊢
    split_ifs at h ⊢
    rfl
  | succ m ih =>
    intro index h
    unfold peek_scan_reaches_empty at h
    unfold peek_scan
    simp only [] at h ⊢
    split_ifs at h ⊢ <;> first | rfl | contradiction | exact ih _ h

/-- A lookup that reaches a null key cell finds no entry. -/
theorem lookup_reaches_zero (rt : Runtime) (t : Table) (key : Nat)
    (h : lookup_reaches_empty rt t key = true) : jl_table_peek_valueindex rt t key = 0 := by
  unfold lookup_reaches_empty at h
  unfold jl_table_peek_valueindex
  simp only [] at h ⊢
  split_ifs at h ⊢ with h0
  exact peek_scan_reaches_zero rt t key _ _ _ _ h

/-- The chains stay contiguous only together with I2.  `table_half` has 16 slot pairs and
contiguous chains, but its slot 14 holds a key with a null value cell.
`jl_eqtable_put(table_half, 30, 9)` records that slot as `empty_slot` (lines 108-112, where the
`assert(0)` is compiled out), swaps `(30, 9)` with `(16, 2)` at slot 0 and stores `(16, 2)` in
slot 14 (lines 120-126): key `16`, of ideal bucket 0, is then Occupied in slot 14 behind the
Empty slot 1. -/
theorem half_filled_slot_breaks_chain :
    table_half.length = 2 ^ 5 ∧ Contiguous rt32 table_half ∧
    jl_eqtable_put rt32 1 table_half 30 9 = some (table_half_put, 1) ∧
    Occupied table_half_put 14 ∧ load table_half_put (2 * 14) = 16 ∧
    ideal_slot rt32 table_half_put 16 = 0 ∧ Empty table_half_put 1 ∧
    ¬ Contiguous rt32 table_half_put ∧
    lookup_reaches_empty rt32 table_half_put 16 = true ∧
    jl_eqtable_get rt32 table_half_put 16 0 = 0 := by
  decide!
/-! ## The claims -/

/-- C1, at a failing input: the eighteen puts `puts_C1` from the empty table all return, the
first seventeen giving `table_C1_before` and the last one `table_C1`; key `544` is put exactly
once, with value `1016`, and is retrieved before the last put, but in the final table
`jl_eqtable_get` answers the default `0` for it instead of the last value put. -/
theorem C1_get_misses_a_put_key :
    puts_C1.filter (fun kv => kv.1 = 544) = [(544, 1016)] ∧
    put_all rt32 2 [] (puts_C1.take 17) = some table_C1_before ∧
    jl_eqtable_get rt32 table_C1_before 544 0 = 1016 ∧
    put_all rt32 2 [] puts_C1 = some table_C1 ∧
    jl_eqtable_get rt32 table_C1 544 0 = 0 := by
  decide!

/-- C2, at a failing input: in `table_three`, built by `puts_three`, key `32` is present (get
finds value `2`) and 3 slots are Occupied; putting `(32, 4)` returns `table_dup` with
`inserted = 1`, and 4 slots are Occupied. -/
theorem C2_reput_reports_inserted :
    put_all rt32 1 [] puts_three = some table_three ∧
    jl_eqtable_get rt32 table_three 32 0 = 2 ∧
    occupied_count table_three = 3 ∧
    jl_eqtable_put rt32 1 table_three 32 4 = some (table_dup, 1) ∧
    occupied_count table_dup = 4 := by
  decide!

/-- C3, at a failing input: in `table_C3`, built by `puts_C3`, no cell holds key `2` and get
answers the default for it; `jl_eqtable_put` of `(2, 7)` returns `table_C3_put` with
`inserted = 1`, and the `jl_eqtable_pop` of key `2` that follows returns the default `0` with
`found = 0`, not `7` with `found = 1`. -/
theorem C3_pop_after_put_misses :
    put_all rt32 2 [] puts_C3 = some table_C3 ∧
    2 ∉ table_C3 ∧
    jl_eqtable_get rt32 table_C3 2 0 = 0 ∧
    jl_eqtable_put rt32 2 table_C3 2 7 = some (table_C3_put, 1) ∧
    jl_eqtable_pop rt32 1 table_C3_put 2 0 = some (table_C3_put, 0, 0) := by
  decide!

/-- C4, at a failing input: in `table_dup`, built by `puts_three` and the put of `(32, 4)`, key
`32` is present (get finds `4`); `jl_eqtable_pop` of `32` returns `4` with `found = 1` and
leaves `table_dup_popped`, in which `jl_eqtable_get` of `32` with default `99` answers `2`, not
the default. -/
theorem C4_get_after_pop_finds_stale_value :
    put_all rt32 1 [] (puts_three ++ [(32, 4)]) = some table_dup ∧
    jl_eqtable_get rt32 table_dup 32 0 = 4 ∧
    jl_eqtable_pop rt32 3 table_dup 32 0 = some (table_dup_popped, 4, 1) ∧
    jl_eqtable_get rt32 table_dup_popped 32 99 = 2 := by
  decide!

/-- C5, at a failing input: in `table_C5`, built by `puts_C5`, keys `16` and `32` are present
(get finds `1` and `3`); `jl_eqtable_pop` of `16` returns `1` with `found = 1` and leaves
`table_C5_popped`, in which `jl_eqtable_get` of the other key `32` answers the default `0`,
not `3`. -/
theorem C5_pop_loses_another_key :
    put_all rt32 1 [] puts_C5 = some table_C5 ∧
    jl_eqtable_get rt32 table_C5 16 0 = 1 ∧
    jl_eqtable_get rt32 table_C5 32 0 = 3 ∧
    jl_eqtable_pop rt32 1 table_C5 16 0 = some (table_C5_popped, 1, 1) ∧
    jl_eqtable_get rt32 table_C5_popped 32 0 = 0 := by
  decide!

/-- C6, at a failing input: `table_C6`, built by `puts_C6`, has 64 cells and get finds key `65`
with value `100` in it; the growth policy chooses 128 cells, `jl_idtable_rehash` to 128 cells
returns `table_C6_grown`, and in it get answers the default `0` for key `65`. -/
theorem C6_rehash_loses_a_key :
    put_all rt32 2 [] puts_C6 = some table_C6 ∧
    jl_eqtable_get rt32 table_C6 65 0 = 100 ∧
    growth_newsz rt32 table_C6.length = 128 ∧
    jl_idtable_rehash rt32 1 table_C6 128 = some table_C6_grown ∧
    jl_eqtable_get rt32 table_C6_grown 65 0 = 0 := by
  decide!

/-- C7 as stated fails at the cursor `(size_t)-1`: on the one-slot table `[5, 6]` no index
`j >= (size_t)-1` is below the length, so the claim gives `(size_t)-1`, but the `i++` of line
259 wraps the odd cursor to `0` and `jl_eqtable_nextind` returns `0`. -/
theorem C7_cursor_wraps_at_size_max :
    jl_eqtable_nextind [5, 6] SIZE_MAX = 0 ∧
    jl_eqtable_nextind [5, 6] SIZE_MAX ≠ SIZE_MAX ∧
    ¬ ∃ j, SIZE_MAX ≤ j ∧ j < [5, 6].length ∧ j % 2 = 0 ∧ load [5, 6] (j + 1) ≠ 0 := by
  refine ⟨by decide!, by decide!, ?_⟩
  rintro ⟨j, h1, h2, -, -⟩
  have : SIZE_MAX = 2 ^ 64 - 1 := rfl
  simp only [List.length_cons, List.length_nil] at h2
  omega

/-- C7, amended: for every table `t` of even length (a `size_t`), the iteration
`i_0 = jl_eqtable_nextind(t, 0)`, `i_{n+1} = jl_eqtable_nextind(t, i_n + 2)`, stopped at the
first `(size_t)-1`, stops within `length / 2 + 1` calls and yields exactly the key-cell indices
of the slot pairs whose value cell is non-null, in strictly increasing order (so each once): it
yields every Occupied slot and never an Empty one; and for every cursor `i` other than
`(size_t)-1`, `jl_eqtable_nextind(t, i)` is the least even `j >= i` with `j < length` and a
non-null value cell at `j + 1`, or `(size_t)-1` when there is none. -/
theorem C7_nextind_iteration (t : Table) (hlen : t.length % 2 = 0)
    (hmax : t.length ≤ SIZE_MAX) :
    (∀ n, t.length / 2 < n →
      nextind_iter t n 0 =
        ((List.range (t.length / 2)).map (fun s => 2 * s)).filter
          (fun j => load t (j + 1) ≠ 0) ∧
      (nextind_iter t n 0).Pairwise (fun a b => a < b) ∧
      (∀ s, Occupied t s → 2 * s ∈ nextind_iter t n 0) ∧
      (∀ j, j ∈ nextind_iter t n 0 → ¬ (load t j = 0 ∧ load t (j + 1) = 0))) ∧
    (∀ i, i < SIZE_MAX →
      (jl_eqtable_nextind t i = SIZE_MAX ∧
        ∀ j, i ≤ j → j < t.length → j % 2 = 0 → load t (j + 1) = 0) ∨
      (i ≤ jl_eqtable_nextind t i ∧ jl_eqtable_nextind t i < t.length ∧
        jl_eqtable_nextind t i % 2 = 0 ∧ load t (jl_eqtable_nextind t i + 1) ≠ 0 ∧
        ∀ j, i ≤ j → j < jl_eqtable_nextind t i → j % 2 = 0 → load t (j + 1) = 0)) := by
  refine ⟨fun n hn => ?_, fun i hi => nextind_spec t i hi⟩
  have h := nextind_iter_eq t hlen hmax n 0 (Nat.zero_le _) (by omega)
  rw [Nat.mul_zero, Nat.sub_zero, valued_cells_eq_filter, ← List.range_eq_range'] at h
  refine ⟨h, ?_, ?_, ?_⟩
  · rw [h]
    apply List.Pairwise.filter
    rw [List.pairwise_map]
    exact (List.pairwise_lt_range _).imp (fun hab => by omega)
  · intro s hs
    rw [h, List.mem_filter, List.mem_map]
    refine ⟨⟨s, ?_, rfl⟩, by simpa using hs.2⟩
    rw [List.mem_range]
    by_contra hge
    exact hs.2 (load_of_length_le t _ (by omega))
  · intro j hj hE
    rw [h, List.mem_filter] at hj
    simp only [ne_eq, decide_not, Bool.not_eq_true', decide_eq_false_iff_not] at hj
    exact hj.2 hE.2

/-- C7, amended, at the three-slot table `[5, 6, 0, 0, 7, 8]`. -/
theorem C7_nextind_iteration_witness :
    [5, 6, 0, 0, 7, 8].length % 2 = 0 ∧ [5, 6, 0, 0, 7, 8].length ≤ SIZE_MAX ∧
    (∀ n, [5, 6, 0, 0, 7, 8].length / 2 < n →
      nextind_iter [5, 6, 0, 0, 7, 8] n 0 =
        ((List.range ([5, 6, 0, 0, 7, 8].length / 2)).map (fun s => 2 * s)).filter
          (fun j => load [5, 6, 0, 0, 7, 8] (j + 1) ≠ 0) ∧
      (nextind_iter [5, 6, 0, 0, 7, 8] n 0).Pairwise (fun a b => a < b) ∧
      (∀ s, Occupied [5, 6, 0, 0, 7, 8] s → 2 * s ∈ nextind_iter [5, 6, 0, 0, 7, 8] n 0) ∧
      (∀ j, j ∈ nextind_iter [5, 6, 0, 0, 7, 8] n 0 →
        ¬ (load [5, 6, 0, 0, 7, 8] j = 0 ∧ load [5, 6, 0, 0, 7, 8] (j + 1) = 0))) ∧
    (∀ i, i < SIZE_MAX →
      (jl_eqtable_nextind [5, 6, 0, 0, 7, 8] i = SIZE_MAX ∧
        ∀ j, i ≤ j → j < [5, 6, 0, 0, 7, 8].length → j % 2 = 0 →
          load [5, 6, 0, 0, 7, 8] (j + 1) = 0) ∨
      (i ≤ jl_eqtable_nextind [5, 6, 0, 0, 7, 8] i ∧
        jl_eqtable_nextind [5, 6, 0, 0, 7, 8] i < [5, 6, 0, 0, 7, 8].length ∧
        jl_eqtable_nextind [5, 6, 0, 0, 7, 8] i % 2 = 0 ∧
        load [5, 6, 0, 0, 7, 8] (jl_eqtable_nextind [5, 6, 0, 0, 7, 8] i + 1) ≠ 0 ∧
        ∀ j, i ≤ j → j < jl_eqtable_nextind [5, 6, 0, 0, 7, 8] i → j % 2 = 0 →
          load [5, 6, 0, 0, 7, 8] (j + 1) = 0)) :=
  ⟨by decide, by decide!, C7_nextind_iteration [5, 6, 0, 0, 7, 8] (by decide) (by decide!)⟩
/-- C8 as stated fails on `table_full`, the table of `L = 32` cells built by the first sixteen
puts of `puts_C1` (`HT_N_INLINE = 32`, so `HT_N_INLINE <= L < 2^19`): the scan of the put of
`(544, 1016)` exhausts its probe bound without an empty slot, and the size requested for the
replacement store is `2 * L = 64`, not `4 * L`; the put returns a table of 64 cells. -/
theorem C8_small_table_is_doubled :
    put_all rt32 2 [] (puts_C1.take 16) = some table_full ∧
    assign_scan rt32 false (hash_size table_full) (h2index (rt32.keyhash 544) (hash_size table_full))
      (max_probe (hash_size table_full)) table_full 544 1016
      (h2index (rt32.keyhash 544) (hash_size table_full)) 0 none
        = Scan.left table_full_scanned 64 1001 none ∧
    rt32.HT_N_INLINE ≤ table_full.length ∧ table_full.length < 2 ^ 19 ∧
    growth_newsz rt32 table_full.length = 2 * table_full.length ∧
    growth_newsz rt32 table_full.length ≠ 4 * table_full.length ∧
    (jl_eqtable_put rt32 2 table_full 544 1016).map (fun r => r.1.length) = some 64 := by
  decide!

/-- C8, amended: when the scan of an insertion into a table of `L` cells ends without an empty
slot (probe bound exhausted), `jl_table_assign_bp` calls `jl_idtable_rehash` on the scanned
table with the size `HT_N_INLINE` if `L < HT_N_INLINE`, with `2 * L` if `L >= HT_N_INLINE` and
(`L <= 2^8` or `L >= 2^19`), and with `4 * L` otherwise, and retries the insertion of the
carried entry on the result. -/
theorem C8_growth_request (rt : Runtime) (fuel : Nat) (a : Table) (key val : Nat)
    (rehash : Bool) (tab : Table) (key1 val1 : Nat)
    (hscan : assign_scan rt rehash (hash_size a) (h2index (rt.keyhash key) (hash_size a))
      (max_probe (hash_size a)) a key val (h2index (rt.keyhash key) (hash_size a)) 0 none
        = Scan.left tab key1 val1 none) :
    assign_loop rt (fuel + 1) a key val rehash =
      (jl_idtable_rehash rt fuel tab
        (if a.length < rt.HT_N_INLINE then rt.HT_N_INLINE
         else if a.length ≤ 2 ^ 8 ∨ 2 ^ 19 ≤ a.length then 2 * a.length
         else 4 * a.length)).bind
        (fun newa => assign_loop rt fuel newa key1 val1 rehash) := by
  have hl : tab.length = a.length := by
    have := assign_scan_length rt rehash (hash_size a) (h2index (rt.keyhash key) (hash_size a))
      (max_probe (hash_size a)) a key val (h2index (rt.keyhash key) (hash_size a)) 0 none
    rw [hscan] at this
    exact this
  have hn : growth_newsz rt tab.length =
      (if a.length < rt.HT_N_INLINE then rt.HT_N_INLINE
         else if a.length ≤ 2 ^ 8 ∨ 2 ^ 19 ≤ a.length then 2 * a.length
         else 4 * a.length) := by
    rw [hl]
    unfold growth_newsz
    simp only [Nat.shiftLeft_eq, ge_iff_le, Nat.one_mul, Nat.pow_one]
    split_ifs <;> first | rfl | omega
  conv_lhs => unfold assign_loop
  simp only [hscan]
  rw [hn]
  unfold jl_idtable_rehash jl_table_assign_bp
  cases h : rehash_loop _ tab tab.length (tab.length / 2 + 1) 0 _ <;> simp [h, Option.bind]

/-- C8, amended, at the put of `(544, 1016)` into `table_full`. -/
theorem C8_growth_request_witness :
    assign_scan rt32 false (hash_size table_full)
      (h2index (rt32.keyhash 544) (hash_size table_full)) (max_probe (hash_size table_full))
      table_full 544 1016 (h2index (rt32.keyhash 544) (hash_size table_full)) 0 none
        = Scan.left table_full_scanned 64 1001 none ∧
    assign_loop rt32 (1 + 1) table_full 544 1016 false =
      (jl_idtable_rehash rt32 1 table_full_scanned
        (if table_full.length < rt32.HT_N_INLINE then rt32.HT_N_INLINE
         else if table_full.length ≤ 2 ^ 8 ∨ 2 ^ 19 ≤ table_full.length then 2 * table_full.length
         else 4 * table_full.length)).bind
        (fun newa => assign_loop rt32 1 newa 64 1001 false) :=
  ⟨by decide!,
    C8_growth_request rt32 1 table_full 544 1016 false table_full_scanned 64 1001 (by decide!)⟩
/-- C9: provided `HT_N_INLINE` is a power of two that is at least 2, for every table whose array
length is 0 or a power of two not below `HT_N_INLINE` (whatever its cells hold), every key and
every value: `jl_eqtable_put` returns (12 units of fuel are always enough) a table whose array
length is a power of two, at least `HT_N_INLINE` and at least the input length; and
`jl_eqtable_pop` returns (`length ^ 2` units of fuel are always enough) leaving a table of the
same array length. -/
theorem C9_capacity_invariant (rt : Runtime) (hHT : ∃ q, rt.HT_N_INLINE = 2 ^ (q + 1))
    (h : Table)
    (hlen : h.length = 0 ∨ ((∃ m, h.length = 2 ^ m) ∧ rt.HT_N_INLINE ≤ h.length))
    (key val deflt : Nat) :
    (∀ fuel, 12 ≤ fuel →
      ∃ h1 ins, jl_eqtable_put rt fuel h key val = some (h1, ins) ∧
        (∃ m, h1.length = 2 ^ m) ∧ rt.HT_N_INLINE ≤ h1.length ∧ h.length ≤ h1.length) ∧
    (∀ fuel, h.length ^ 2 ≤ fuel →
      ∃ h1 v f, jl_eqtable_pop rt fuel h key deflt = some (h1, v, f) ∧
        h1.length = h.length) := by
  obtain ⟨q, hq⟩ := hHT
  have hq2 : rt.HT_N_INLINE = 2 ^ q * 2 := by rw [hq, pow_succ]
  have hlen2 : h.length = 0 ∨ ∃ p, h.length = 2 ^ p * 2 := by
    rcases hlen with h0 | ⟨⟨m, hm⟩, hge⟩
    · exact Or.inl h0
    · right
      rcases m with _ | m
      · have hpos : 0 < 2 ^ q := Nat.two_pow_pos q
        rw [hm, hq2] at hge
        omega
      · exact ⟨m, by rw [hm, pow_succ]⟩
  refine ⟨fun fuel hf => ?_, fun fuel hf => pop_total rt h key deflt fuel hlen2 hf⟩
  obtain ⟨h1, ins, p1, hr, hl1, hle, h0, -⟩ := put_total rt q hq2 h key val fuel hlen2 hf
  refine ⟨h1, ins, hr, ⟨p1 + 1, by rw [hl1, pow_succ]⟩, ?_, hle⟩
  rcases hlen with hz | ⟨-, hge⟩
  · exact h0 hz
  · omega

/-- C9 at the table built by `puts_three` (32 cells, `HT_N_INLINE = 32`). -/
theorem C9_capacity_invariant_witness :
    (∃ q, rt32.HT_N_INLINE = 2 ^ (q + 1)) ∧
    (table_three.length = 0 ∨
      ((∃ m, table_three.length = 2 ^ m) ∧ rt32.HT_N_INLINE ≤ table_three.length)) ∧
    (∀ fuel, 12 ≤ fuel →
      ∃ h1 ins, jl_eqtable_put rt32 fuel table_three 16 5 = some (h1, ins) ∧
        (∃ m, h1.length = 2 ^ m) ∧ rt32.HT_N_INLINE ≤ h1.length ∧
        table_three.length ≤ h1.length) ∧
    (∀ fuel, table_three.length ^ 2 ≤ fuel →
      ∃ h1 v f, jl_eqtable_pop rt32 fuel table_three 16 0 = some (h1, v, f) ∧
        h1.length = table_three.length) :=
  ⟨⟨4, by decide⟩, Or.inr ⟨⟨5, by decide⟩, by decide⟩,
    C9_capacity_invariant rt32 ⟨4, by decide⟩ table_three
      (Or.inr ⟨⟨5, by decide⟩, by decide⟩) 16 5 0⟩
/-- C10, at a failing input: `table_dup`, built by `puts_three` and the put of `(32, 4)`, has
two distinct Occupied slots, at key cells 2 and 6, whose keys are both `32`. -/
theorem C10_two_slots_hold_one_key :
    put_all rt32 1 [] (puts_three ++ [(32, 4)]) = some table_dup ∧
    Occupied table_dup 1 ∧ Occupied table_dup 3 ∧
    rt32.jl_egal (load table_dup (2 * 1)) (load table_dup (2 * 3)) = true := by
  decide!

/-- C11 (slot-state invariant I2).  For a runtime whose `HT_N_INLINE` is at least 2 (it is 32)
and every table `h` in which each slot pair is Empty (both cells null) or Occupied (both cells
non-null): the table returned by `jl_eqtable_put` with a non-null key and a non-null value, and
the table left by `jl_eqtable_pop`, again have every slot pair Empty or Occupied, so that no
tombstone or half-filled slot remains; and on a table of length 0 or a power of two at least 2,
with `HT_N_INLINE` such a power, both operations do return. -/
theorem C11_slot_state_invariant (rt : Runtime) (hHT : 2 ≤ rt.HT_N_INLINE) (h : Table)
    (hI2 : ∀ i, i < hash_size h → Empty h i ∨ Occupied h i) :
    (∀ fuel key val h1 ins, key ≠ 0 → val ≠ 0 →
      jl_eqtable_put rt fuel h key val = some (h1, ins) →
      ∀ i, i < hash_size h1 → Empty h1 i ∨ Occupied h1 i) ∧
    (∀ fuel key deflt h1 v f, jl_eqtable_pop rt fuel h key deflt = some (h1, v, f) →
      ∀ i, i < hash_size h1 → Empty h1 i ∨ Occupied h1 i) ∧
    (∀ q, rt.HT_N_INLINE = 2 ^ q * 2 → (h.length = 0 ∨ ∃ p, h.length = 2 ^ p * 2) →
      ∀ fuel key val deflt, 12 ≤ fuel → h.length ^ 2 ≤ fuel →
        (∃ h1 ins, jl_eqtable_put rt fuel h key val = some (h1, ins)) ∧
        ∃ h1 v f, jl_eqtable_pop rt fuel h key deflt = some (h1, v, f)) := by
  have hp : SlotsPaired h := (paired_iff h).mpr hI2
  refine ⟨?_, ?_, ?_⟩
  · intro fuel key val h1 ins hkey hval hr
    exact (paired_iff h1).mp (put_paired rt hHT fuel h key val h1 ins hp hkey hval hr)
  · intro fuel key deflt h1 v f hr
    exact (paired_iff h1).mp (pop_paired rt fuel h key deflt h1 v f hp hr)
  · intro q hq hlen fuel key val deflt hf1 hf2
    obtain ⟨h1, ins, p1, hr, -⟩ := put_total rt q hq h key val fuel hlen hf1
    obtain ⟨h2, v, f, hr2, -⟩ := pop_total rt h key deflt fuel hlen hf2
    exact ⟨⟨h1, ins, hr⟩, ⟨h2, v, f, hr2⟩⟩

/-- C11 at a concrete input: on the table holding the keys 16, 48 and 32, the insertion of
`(64, 7)` and the removal of key 32 return with every slot pair Empty or Occupied. -/
theorem C11_slot_state_invariant_witness :
    (∃ h1 ins, jl_eqtable_put rt32 1024 table_three 64 7 = some (h1, ins) ∧
      ∀ i, i < hash_size h1 → Empty h1 i ∨ Occupied h1 i) ∧
    (∃ h1 v f, jl_eqtable_pop rt32 1024 table_three 32 0 = some (h1, v, f) ∧
      ∀ i, i < hash_size h1 → Empty h1 i ∨ Occupied h1 i) := by
  have hI2 : ∀ i, i < hash_size table_three → Empty table_three i ∨ Occupied table_three i := by
    decide!
  have hT := C11_slot_state_invariant rt32 (by decide) table_three hI2
  obtain ⟨⟨h1, ins, hr⟩, -⟩ :=
    hT.2.2 4 (by decide) (Or.inr ⟨4, by decide⟩) 1024 64 7 0 (by decide) (by decide)
  obtain ⟨-, ⟨h2, v, f, hr2⟩⟩ :=
    hT.2.2 4 (by decide) (Or.inr ⟨4, by decide⟩) 1024 32 7 0 (by decide) (by decide)
  exact ⟨⟨h1, ins, hr, hT.1 1024 64 7 h1 ins (by decide) (by decide) hr⟩,
    ⟨h2, v, f, hr2, hT.2.1 1024 32 0 h2 v f hr2⟩⟩
/-- C12 as stated fails when the default is the stored key.  In `table_three`, built by the
puts of `(16, 1)`, `(32, 2)` and `(48, 3)`, the lookup of key `48` finds the entry of slot 1
(lookup index 3, and `jl_eqtable_get` returns the value `3` whatever the default), yet
`jl_eqtable_getkey(h, 48, 48)` returns `48`, which is its default `d`: getkey returns `d`
although get finds an entry. -/
theorem C12_getkey_default_is_stored_key :
    put_all rt32 1 [] puts_three = some table_three ∧
    jl_table_peek_valueindex rt32 table_three 48 = 3 ∧
    jl_eqtable_get rt32 table_three 48 48 = 3 ∧ jl_eqtable_get rt32 table_three 48 0 = 3 ∧
    load table_three 2 = 48 ∧
    jl_eqtable_getkey rt32 table_three 48 48 = 48 := by
  decide!

/-- C12, amended: for every table, key and default `d`, with
`v = jl_table_peek_valueindex(h, key)` the index both `jl_eqtable_get` and `jl_eqtable_getkey`
go by: when `v = 0` (get finds no entry) both return `d`; otherwise `v` is the odd index of a
non-null value cell, get returns cell `v`, getkey returns the key cell `v - 1` of the same slot,
and that stored key is non-null and identity-equal (`jl_egal`) to the queried key.  Hence
getkey returns `d` exactly when get finds no entry or the stored key is `d` itself, and it
hands back its default for every default exactly when get finds no entry. -/
theorem C12_getkey_returns_stored_key (rt : Runtime) (h : Table) (key d : Nat) :
    (jl_table_peek_valueindex rt h key = 0 →
      jl_eqtable_get rt h key d = d ∧ jl_eqtable_getkey rt h key d = d) ∧
    (jl_table_peek_valueindex rt h key ≠ 0 →
      jl_table_peek_valueindex rt h key % 2 = 1 ∧
      jl_eqtable_get rt h key d = load h (jl_table_peek_valueindex rt h key) ∧
      jl_eqtable_getkey rt h key d = load h (jl_table_peek_valueindex rt h key - 1) ∧
      rt.jl_egal key (jl_eqtable_getkey rt h key d) = true ∧
      jl_eqtable_getkey rt h key d ≠ 0 ∧ jl_eqtable_get rt h key d ≠ 0) ∧
    (jl_eqtable_getkey rt h key d = d ↔
      (jl_table_peek_valueindex rt h key = 0 ∨
        load h (jl_table_peek_valueindex rt h key - 1) = d)) ∧
    ((∀ d1, jl_eqtable_getkey rt h key d1 = d1) ↔ jl_table_peek_valueindex rt h key = 0) := by
  have hget : ∀ d1, jl_table_peek_valueindex rt h key ≠ 0 →
      jl_eqtable_get rt h key d1 = load h (jl_table_peek_valueindex rt h key) ∧
      jl_eqtable_getkey rt h key d1 = load h (jl_table_peek_valueindex rt h key - 1) := by
    intro d1 hv
    unfold jl_eqtable_get jl_eqtable_getkey jl_table_peek_bp
    rw [if_pos hv]
    exact ⟨rfl, rfl⟩
  have hnone : ∀ d1, jl_table_peek_valueindex rt h key = 0 →
      jl_eqtable_get rt h key d1 = d1 ∧ jl_eqtable_getkey rt h key d1 = d1 := by
    intro d1 hv
    unfold jl_eqtable_get jl_eqtable_getkey jl_table_peek_bp
    rw [if_neg (by rw [hv]; simp)]
    exact ⟨rfl, rfl⟩
  refine ⟨hnone d, fun hv => ?_, ?_, ?_⟩
  · rcases peek_valueindex_hit rt h key with h0 | ⟨h1, h2, h3, h4⟩
    · exact absurd h0 hv
    · obtain ⟨hg, hk⟩ := hget d hv
      rw [hg, hk]
      exact ⟨h1, rfl, rfl, h3, h2, h4⟩
  · by_cases hv : jl_table_peek_valueindex rt h key = 0
    · exact ⟨fun _ => Or.inl hv, fun _ => (hnone d hv).2⟩
    · rw [(hget d hv).2]
      exact ⟨fun hd => Or.inr hd, fun hd => hd.resolve_left hv⟩
  · constructor
    · intro hall
      by_contra hv
      rcases peek_valueindex_hit rt h key with h0 | ⟨h1, h2, h3, h4⟩
      · exact hv h0
      · have := hall 0
        rw [(hget 0 hv).2] at this
        exact h2 this
    · intro hv d1
      exact (hnone d1 hv).2

/-- C12, amended, at `table_three` and key `48`, stored in slot 1. -/
theorem C12_getkey_returns_stored_key_witness :
    jl_table_peek_valueindex rt32 table_three 48 = 3 ∧
    jl_eqtable_getkey rt32 table_three 48 0 = 48 ∧
    jl_eqtable_get rt32 table_three 48 0 = 3 ∧
    ((jl_table_peek_valueindex rt32 table_three 48 = 0 →
      jl_eqtable_get rt32 table_three 48 0 = 0 ∧ jl_eqtable_getkey rt32 table_three 48 0 = 0) ∧
    (jl_table_peek_valueindex rt32 table_three 48 ≠ 0 →
      jl_table_peek_valueindex rt32 table_three 48 % 2 = 1 ∧
      jl_eqtable_get rt32 table_three 48 0
        = load table_three (jl_table_peek_valueindex rt32 table_three 48) ∧
      jl_eqtable_getkey rt32 table_three 48 0
        = load table_three (jl_table_peek_valueindex rt32 table_three 48 - 1) ∧
      rt32.jl_egal 48 (jl_eqtable_getkey rt32 table_three 48 0) = true ∧
      jl_eqtable_getkey rt32 table_three 48 0 ≠ 0 ∧ jl_eqtable_get rt32 table_three 48 0 ≠ 0) ∧
    (jl_eqtable_getkey rt32 table_three 48 0 = 0 ↔
      (jl_table_peek_valueindex rt32 table_three 48 = 0 ∨
        load table_three (jl_table_peek_valueindex rt32 table_three 48 - 1) = 0)) ∧
    ((∀ d1, jl_eqtable_getkey rt32 table_three 48 d1 = d1) ↔
      jl_table_peek_valueindex rt32 table_three 48 = 0)) :=
  ⟨by decide!, by decide!, by decide!, C12_getkey_returns_stored_key rt32 table_three 48 0⟩
/-- C13: for every table and key, with `v = jl_table_peek_valueindex(h, key)`: when the lookup
scan does not find the key (`v = 0`), `jl_eqtable_pop` returns `deflt` with `*found = 0` and
leaves every cell unchanged (whatever the fuel); whenever `jl_eqtable_pop` returns, `*found` is
`1` exactly when the lookup scan found the key (and `0` exactly when it did not); and on a
table of power-of-two length a found key makes it return with `*found = 1`. -/
theorem C13_pop_of_absent_key (rt : Runtime) (h : Table) (key deflt : Nat) :
    (jl_table_peek_valueindex rt h key = 0 →
      ∀ fuel, jl_eqtable_pop rt fuel h key deflt = some (h, deflt, 0)) ∧
    (∀ fuel h1 v f, jl_eqtable_pop rt fuel h key deflt = some (h1, v, f) →
      (f = 1 ↔ jl_table_peek_valueindex rt h key ≠ 0) ∧
      (f = 0 ↔ jl_table_peek_valueindex rt h key = 0)) ∧
    ((∃ p, h.length = 2 ^ (p + 1)) → jl_table_peek_valueindex rt h key ≠ 0 →
      ∀ fuel, h.length ^ 2 ≤ fuel →
        ∃ h1 v, jl_eqtable_pop rt fuel h key deflt = some (h1, v, 1)) := by
  refine ⟨fun hv fuel => ?_, fun fuel h1 v f hr => ?_, fun ⟨p, hp⟩ hv fuel hf => ?_⟩
  · unfold jl_eqtable_pop
    simp [hv]
  · unfold jl_eqtable_pop at hr
    simp only [] at hr
    by_cases hv : jl_table_peek_valueindex rt h key = 0
    · rw [if_pos hv] at hr
      simp only [hv, ne_eq, not_true_eq_false, if_false, Option.some.injEq, Prod.mk.injEq] at hr
      obtain ⟨-, -, rfl⟩ := hr
      simp [hv]
    · rw [if_neg hv] at hr
      cases hl : pop_loop rt (hash_size h) fuel h (jl_table_peek_valueindex rt h key - 1) with
      | none => rw [hl] at hr; simp at hr
      | some tab =>
        rw [hl] at hr
        simp only [ne_eq, hv, not_false_eq_true, if_true, Option.some.injEq,
          Prod.mk.injEq] at hr
        obtain ⟨-, -, rfl⟩ := hr
        simp [hv]
  · obtain ⟨h1, v, f, hr, -⟩ := pop_total rt h key deflt fuel
      (Or.inr ⟨p, by rw [hp, pow_succ]⟩) hf
    refine ⟨h1, v, ?_⟩
    have hr2 := hr
    unfold jl_eqtable_pop at hr2
    simp only [] at hr2
    rw [if_neg hv] at hr2
    cases hl : pop_loop rt (hash_size h) fuel h (jl_table_peek_valueindex rt h key - 1) with
    | none => rw [hl] at hr2; simp at hr2
    | some tab =>
      rw [hl] at hr2
      simp only [ne_eq, hv, not_false_eq_true, if_true, Option.some.injEq,
        Prod.mk.injEq] at hr2
      obtain ⟨-, -, rfl⟩ := hr2
      exact hr

/-- C13 at `table_three`: key `64` is not found, key `48` is. -/
theorem C13_pop_of_absent_key_witness :
    jl_table_peek_valueindex rt32 table_three 64 = 0 ∧
    (∃ p, table_three.length = 2 ^ (p + 1)) ∧
    ((jl_table_peek_valueindex rt32 table_three 64 = 0 →
      ∀ fuel, jl_eqtable_pop rt32 fuel table_three 64 9 = some (table_three, 9, 0)) ∧
    (∀ fuel h1 v f, jl_eqtable_pop rt32 fuel table_three 64 9 = some (h1, v, f) →
      (f = 1 ↔ jl_table_peek_valueindex rt32 table_three 64 ≠ 0) ∧
      (f = 0 ↔ jl_table_peek_valueindex rt32 table_three 64 = 0)) ∧
    ((∃ p, table_three.length = 2 ^ (p + 1)) →
      jl_table_peek_valueindex rt32 table_three 64 ≠ 0 →
      ∀ fuel, table_three.length ^ 2 ≤ fuel →
        ∃ h1 v, jl_eqtable_pop rt32 fuel table_three 64 9 = some (h1, v, 1))) :=
  ⟨by decide!, ⟨4, by decide⟩, C13_pop_of_absent_key rt32 table_three 64 9⟩
/-- C14 as stated fails on `table_C14`, the table of 64 cells built by `puts_C14`: the scan of
the put of `(1152, 7)` exhausts the probe bound and triggers growth to 128 cells; the retried
insertion, of the carried `(1088, 116)` against the grown table, exhausts the probe bound again,
so that one growth is not enough (with fuel for one growth the put does not return); a second
growth follows, and the put returns a table of 256 cells. -/
theorem C14_one_growth_is_not_enough :
    put_all rt32 2 [] puts_C14 = some table_C14 ∧
    assign_scan rt32 false (hash_size table_C14) (h2index (rt32.keyhash 1152) (hash_size table_C14))
      (max_probe (hash_size table_C14)) table_C14 1152 7
      (h2index (rt32.keyhash 1152) (hash_size table_C14)) 0 none
        = Scan.left table_C14_scanned 1088 116 none ∧
    jl_idtable_rehash rt32 1 table_C14_scanned (growth_newsz rt32 table_C14.length)
      = some table_C14_grown ∧
    assign_scan rt32 false (hash_size table_C14_grown)
      (h2index (rt32.keyhash 1088) (hash_size table_C14_grown))
      (max_probe (hash_size table_C14_grown)) table_C14_grown 1088 116
      (h2index (rt32.keyhash 1088) (hash_size table_C14_grown)) 0 none
        = Scan.left table_C14_rescanned 1152 7 none ∧
    jl_eqtable_put rt32 2 table_C14 1152 7 = none ∧
    (jl_eqtable_put rt32 3 table_C14 1152 7).map (fun r => (r.1.length, r.2)) = some (256, 1) := by
  decide!

/-- C14, amended: provided `HT_N_INLINE` is a power of two that is at least 2, whenever the scan
of an insertion by `jl_table_assign_bp` into a table of `2 ^ (p + 1)` cells exhausts the probe
bound (ends without an empty slot), the table is rehashed into a replacement store and the
carried entry is retried against it, growing again whenever the probe bound is exhausted again;
the insertion always returns (12 units of fuel, that is 11 nested growths, are enough), with a
table of strictly greater power-of-two length. -/
theorem C14_insertion_returns_after_growths (rt : Runtime)
    (hHT : ∃ q, rt.HT_N_INLINE = 2 ^ (q + 1)) (a : Table) (p : Nat)
    (hlen : a.length = 2 ^ (p + 1)) (key val : Nat) (rehash : Bool)
    (tab : Table) (key1 val1 : Nat)
    (hscan : assign_scan rt rehash (hash_size a) (h2index (rt.keyhash key) (hash_size a))
      (max_probe (hash_size a)) a key val (h2index (rt.keyhash key) (hash_size a)) 0 none
        = Scan.left tab key1 val1 none) :
    ∀ fuel, 12 ≤ fuel →
      jl_table_assign_bp rt fuel a key val rehash =
        (jl_idtable_rehash rt (fuel - 1) tab (growth_newsz rt a.length)).bind
          (fun newa => assign_loop rt (fuel - 1) newa key1 val1 rehash) ∧
      ∃ a1 ins p1, jl_table_assign_bp rt fuel a key val rehash = some (a1, ins) ∧
        a1.length = 2 ^ (p1 + 1) ∧ p < p1 := by
  intro fuel hf
  obtain ⟨q, hq⟩ := hHT
  have hq2 : rt.HT_N_INLINE = 2 ^ q * 2 := by rw [hq, pow_succ]
  have hl2 : a.length = 2 ^ p * 2 := by rw [hlen, pow_succ]
  have hhs : ¬ hash_size a = 0 := by
    rw [hash_size_pow a p hl2]; exact Nat.ne_of_gt (Nat.two_pow_pos p)
  have hbp : jl_table_assign_bp rt fuel a key val rehash = assign_loop rt fuel a key val rehash := by
    unfold jl_table_assign_bp
    rw [if_neg hhs]
  rw [hbp]
  constructor
  · obtain ⟨f, rfl⟩ : ∃ f, fuel = f + 1 := ⟨fuel - 1, by omega⟩
    have htl : tab.length = a.length := by
      have := assign_scan_length rt rehash (hash_size a) (h2index (rt.keyhash key) (hash_size a))
        (max_probe (hash_size a)) a key val (h2index (rt.keyhash key) (hash_size a)) 0 none
      rw [hscan] at this
      exact this
    rw [assign_loop_grow rt f a key val rehash tab key1 val1 hscan, Nat.add_sub_cancel, htl]
    unfold jl_idtable_rehash jl_table_assign_bp
    rw [htl]
    cases h : rehash_loop _ tab a.length (a.length / 2 + 1) 0 _ <;> simp [h, Option.bind]
  · obtain ⟨a1, ins, p1, h1, h2, h3, -⟩ :=
      assign_loop_after_growth rt q hq2 a key val rehash p tab key1 val1 hl2 hscan fuel hf
    exact ⟨a1, ins, p1, h1, by rw [h2, pow_succ], h3⟩

/-- C14, amended, at the put of `(1152, 7)` into `table_C14`. -/
theorem C14_insertion_returns_after_growths_witness :
    (∃ q, rt32.HT_N_INLINE = 2 ^ (q + 1)) ∧ table_C14.length = 2 ^ (5 + 1) ∧
    assign_scan rt32 false (hash_size table_C14)
      (h2index (rt32.keyhash 1152) (hash_size table_C14))
      (max_probe (hash_size table_C14)) table_C14 1152 7
      (h2index (rt32.keyhash 1152) (hash_size table_C14)) 0 none
        = Scan.left table_C14_scanned 1088 116 none ∧
    ∀ fuel, 12 ≤ fuel →
      jl_table_assign_bp rt32 fuel table_C14 1152 7 false =
        (jl_idtable_rehash rt32 (fuel - 1) table_C14_scanned
          (growth_newsz rt32 table_C14.length)).bind
          (fun newa => assign_loop rt32 (fuel - 1) newa 1088 116 false) ∧
      ∃ a1 ins p1, jl_table_assign_bp rt32 fuel table_C14 1152 7 false = some (a1, ins) ∧
        a1.length = 2 ^ (p1 + 1) ∧ 5 < p1 :=
  ⟨⟨4, by decide⟩, by decide, by decide!,
    C14_insertion_returns_after_growths rt32 ⟨4, by decide⟩ table_C14 5 (by decide) 1152 7
      false table_C14_scanned 1088 116 (by decide!)⟩
/-- C15, at a failing input: `table_AB` is built by the puts of `(16, 1)` and `(32, 2)`.  The
put of `(48, 3)` into it makes four cell stores; after the first one, the store of line 98 that
displaces the resident of slot 1, the table holds key `48` in cell 2 next to the non-null value
`2` in cell 3, the value put for key `32`, and a lookup of `48` in that state returns `2`,
although the only value ever put for `48` is `3`.  The put ends with `table_three`. -/
theorem C15_displacement_tears_a_slot :
    put_all rt32 1 [] [(16, 1), (32, 2)] = some table_AB ∧
    put_stores rt32 table_AB 48 3 =
      [[16, 1, 48, 2] ++ List.replicate 28 0, [16, 1, 48, 3] ++ List.replicate 28 0,
        [16, 1, 48, 3, 32, 0] ++ List.replicate 26 0, table_three] ∧
    load ([16, 1, 48, 2] ++ List.replicate 28 0) 2 = 48 ∧
    load ([16, 1, 48, 2] ++ List.replicate 28 0) 3 = 2 ∧
    jl_eqtable_get rt32 ([16, 1, 48, 2] ++ List.replicate 28 0) 48 0 = 2 ∧
    jl_eqtable_get rt32 table_AB 32 0 = 2 ∧
    jl_eqtable_put rt32 1 table_AB 48 3 = some (table_three, 1) := by
  decide!
/-- C16, at a failing input, in both directions.  In `table_A1` the resident of slot 1 (key `1`)
sits in its ideal slot, probe distance 0; the scan of the put of `(32, 3)` (bucket 0) reaches it
with accumulated distance 2 cells, strictly greater, yet ends with the table unchanged and
`(32, 3)` still carried to the empty slot at index 4: no swap.  In `table_AB` the resident of
slot 1 (key `32`, bucket 0) has probe distance 2 cells; the scan of the put of `(48, 3)`
(bucket 0) reaches it with the same distance 2, not greater, yet ends with `(48, 3)` in slot 1
and `(32, 2)` carried: a swap.  Line 96 compares with `desired_index` (2 and 0 here). -/
theorem C16_swap_rule_compares_with_bucket :
    load table_A1 2 = 1 ∧ rt32.jl_egal 32 1 = false ∧ slot_dist rt32 table_A1 1 = 0 ∧
    h2index (rt32.keyhash 1) (hash_size table_A1) = 2 ∧
    assign_scan rt32 false 16 0 16 table_A1 32 3 0 0 none = Scan.left table_A1 32 3 (some 4) ∧
    assign_scan rt32 false 16 0 15 table_A1 32 3 2 2 none = Scan.left table_A1 32 3 (some 4) ∧
    load table_AB 2 = 32 ∧ rt32.jl_egal 48 32 = false ∧ slot_dist rt32 table_AB 1 = 2 ∧
    h2index (rt32.keyhash 32) (hash_size table_AB) = 0 ∧
    assign_scan rt32 false 16 0 16 table_AB 48 3 0 0 none
      = Scan.left ([16, 1, 48, 3] ++ List.replicate 28 0) 32 2 (some 4) ∧
    assign_scan rt32 false 16 0 15 table_AB 48 3 2 2 none
      = Scan.left ([16, 1, 48, 3] ++ List.replicate 28 0) 32 2 (some 4) := by
  decide!
/-- C17, at a failing input: `table_C1`, built from the empty table by the eighteen puts
`puts_C1`, has 32 slot pairs, so `max_probe` is 16; its slot 17 is Occupied by key `544`, whose
ideal bucket is 0: the key is stored 17 slot pairs (34 cells) past its ideal bucket, and the
scan of `jl_table_peek_valueindex` does not reach it. -/
theorem C17_key_stored_beyond_probe_bound :
    put_all rt32 2 [] puts_C1 = some table_C1 ∧
    hash_size table_C1 = 32 ∧ max_probe (hash_size table_C1) = 16 ∧
    Occupied table_C1 17 ∧ load table_C1 (2 * 17) = 544 ∧
    h2index (rt32.keyhash 544) (hash_size table_C1) = 0 ∧
    slot_dist rt32 table_C1 17 = 2 * 17 ∧
    jl_table_peek_valueindex rt32 table_C1 544 = 0 := by
  decide!

/-- C18 (contiguous probe chains).  Tables are those of the data model: every slot pair is
Empty or Occupied (invariant I2), and `jl_eqtable_put` is called with a non-null key and a
non-null value; `HT_N_INLINE` is a power of two at least 2 (it is 32).  For every such table of
power-of-two capacity in which no Empty slot lies, cyclically, between the ideal bucket of an
Occupied key and the slot it is stored in, `jl_eqtable_put` returns (12 units of fuel are
enough) and the table it returns has the same property (and I2, and a power-of-two capacity).
Hence every sequence of puts from an array of null cells (of length 0 or a power of two)
returns a table with contiguous chains, in which a lookup scan that reaches an Empty slot
returns 0 and proves the key absent: no Occupied slot holds a key `jl_egal` to the one looked up
in the same ideal bucket, so none at all when `jl_egal` keys have equal hashes. -/
theorem C18_contiguous_chains (rt : Runtime) (q : Nat) (hHT : rt.HT_N_INLINE = 2 ^ q * 2) :
    (∀ (h : Table) (p key val : Nat), h.length = 2 ^ (p + 1) →
      (∀ i, i < hash_size h → Empty h i ∨ Occupied h i) → Contiguous rt h →
      key ≠ 0 → val ≠ 0 →
      (∀ fuel, 12 ≤ fuel → ∃ h1 ins, jl_eqtable_put rt fuel h key val = some (h1, ins)) ∧
      (∀ fuel h1 ins, jl_eqtable_put rt fuel h key val = some (h1, ins) →
        (∃ p1, h1.length = 2 ^ (p1 + 1)) ∧
        (∀ i, i < hash_size h1 → Empty h1 i ∨ Occupied h1 i) ∧ Contiguous rt h1)) ∧
    (∀ (n : Nat) (puts : List (Nat × Nat)), (n = 0 ∨ ∃ p, n = 2 ^ (p + 1)) →
      (∀ kv, kv ∈ puts → kv.1 ≠ 0 ∧ kv.2 ≠ 0) →
      (∀ fuel, 12 ≤ fuel → ∃ t, put_all rt fuel (jl_alloc_memory_any n) puts = some t) ∧
      (∀ fuel t, put_all rt fuel (jl_alloc_memory_any n) puts = some t →
        Contiguous rt t ∧
        ∀ key, lookup_reaches_empty rt t key = true →
          jl_table_peek_valueindex rt t key = 0 ∧
          (∀ s, s < hash_size t → Occupied t s → rt.jl_egal key (load t (2 * s)) = true →
            ideal_slot rt t (load t (2 * s)) ≠ ideal_slot rt t key) ∧
          ((∀ a b, rt.jl_egal a b = true → rt.keyhash a = rt.keyhash b) →
            ∀ s, s < hash_size t → Occupied t s →
              rt.jl_egal key (load t (2 * s)) = false))) := by
  refine ⟨?_, ?_⟩
  · intro h p key val hl hI2 hcon hkey hval
    have hl2 : h.length = 2 ^ p * 2 := by rw [hl, pow_succ]
    have hp : SlotsPaired h := (paired_iff h).mpr hI2
    refine ⟨fun fuel hf => ?_, fun fuel h1 ins hr => ?_⟩
    · obtain ⟨h1, ins, -, hr, -⟩ := put_total rt q hHT h key val fuel (Or.inr ⟨p, hl2⟩) hf
      exact ⟨h1, ins, hr⟩
    · obtain ⟨p1, hl1, hp1, hch1⟩ := put_chain rt q hHT fuel h key val h1 ins
        (Or.inr ⟨p, hl2, hp, (contiguous_iff_chain rt h p hl2 hp).mp hcon⟩) hkey hval hr
      exact ⟨⟨p1, by rw [hl1, pow_succ]⟩, (paired_iff h1).mp hp1,
        (contiguous_iff_chain rt h1 p1 hl1 hp1).mpr hch1⟩
  · intro n puts hn hne
    have hstart : (jl_alloc_memory_any n).length = 0 ∨
        ∃ p, (jl_alloc_memory_any n).length = 2 ^ p * 2 ∧ SlotsPaired (jl_alloc_memory_any n) ∧
          Chain rt p (jl_alloc_memory_any n) := by
      rcases hn with h0 | ⟨p, hp⟩
      · exact Or.inl (by rw [length_alloc, h0])
      · exact Or.inr ⟨p, by rw [length_alloc, hp, pow_succ], paired_alloc _, chain_alloc rt p _⟩
    refine ⟨fun fuel hf => ?_, fun fuel t hr => ?_⟩
    · apply put_all_total rt q hHT fuel hf puts
      rcases hstart with h0 | ⟨p, hp, -⟩
      · exact Or.inl h0
      · exact Or.inr ⟨p, hp⟩
    · rcases put_all_chain rt q hHT fuel puts _ t hstart hne hr with h0 | ⟨p, hl, hp, hch⟩
      · have hsz : hash_size t = 0 := by unfold hash_size; rw [h0]
        refine ⟨fun s hs => absurd hs (by omega), fun key hreach => ?_⟩
        unfold lookup_reaches_empty at hreach
        simp [hsz] at hreach
      · refine ⟨(contiguous_iff_chain rt t p hl hp).mpr hch, fun key hreach => ?_⟩
        have habs := lookup_empty_absent rt t p key hl hch hreach
        refine ⟨lookup_reaches_zero rt t key hreach, fun s hs hocc heg => ?_,
          fun hhash s hs hocc => ?_⟩
        · rw [ideal_slot_pow rt t p _ hl, ideal_slot_pow rt t p _ hl]
          exact habs s hs hocc heg
        · cases heg : rt.jl_egal key (load t (2 * s)) with
          | false => rfl
          | true => exact absurd (by rw [hhash _ _ heg]) (habs s hs hocc heg)

/-- C18 at the table holding the keys 16, 48 and 32 (all of ideal bucket 0, in slots
0 to 2) and at the three puts that build it. -/
theorem C18_contiguous_chains_witness :
    (∃ h1 ins, jl_eqtable_put rt32 12 table_three 64 7 = some (h1, ins) ∧
      Contiguous rt32 h1) ∧
    (∃ t, put_all rt32 12 (jl_alloc_memory_any 0) puts_three = some t ∧ Contiguous rt32 t ∧
      (lookup_reaches_empty rt32 t 64 = true →
        ∀ s, s < hash_size t → Occupied t s → rt32.jl_egal 64 (load t (2 * s)) = false)) := by
  have hT := C18_contiguous_chains rt32 4 (by decide)
  have h1 := hT.1 table_three 4 64 7 (by decide) (by decide!) (by decide!) (by decide)
    (by decide)
  have h2 := hT.2 0 puts_three (Or.inl rfl) (by decide)
  obtain ⟨t1, ins, hr1⟩ := h1.1 12 (le_refl _)
  obtain ⟨t2, hr2⟩ := h2.1 12 (le_refl _)
  have hegal : ∀ a b, rt32.jl_egal a b = true → rt32.keyhash a = rt32.keyhash b := by
    intro a b hab
    have : a = b := by simpa [rt32] using hab
    rw [this]
  exact ⟨⟨t1, ins, hr1, (h1.2 12 t1 ins hr1).2.2⟩,
    ⟨t2, hr2, (h2.2 12 t2 hr2).1, fun hreach => ((h2.2 12 t2 hr2).2 64 hreach).2.2 hegal⟩⟩
/-- C19: for every table of power-of-two length in which key `A` is stored with its value `va`
in the slot at key-cell index 0, its ideal slot, key `B` (not identity-equal to `A`, ideal
index 0 too) is stored with its value `vb` in the following slot pair, at key-cell index 2, and
the slot pair at key-cell index 4 is Empty (`jl_egal` being reflexive on `A` and `B`):
`jl_eqtable_pop(table, A, d)` returns `va` with `*found = 1` (2 units of fuel are enough), moves
`B` with `vb` into the slot at index 0, leaves the slot at index 2 Empty and every other cell
unchanged, and a subsequent `jl_eqtable_get(table, B, d)` returns `vb`. -/
theorem C19_backward_shift_scenario (rt : Runtime) (t : Table) (p A B va vb d : Nat)
    (hlen : t.length = 2 ^ (p + 1))
    (hA : load t 0 = A) (hva : load t 1 = va) (hB : load t 2 = B) (hvb : load t 3 = vb)
    (hAne : A ≠ 0) (hvane : va ≠ 0) (hBne : B ≠ 0) (hvbne : vb ≠ 0)
    (hidealA : h2index (rt.keyhash A) (hash_size t) = 0)
    (hidealB : h2index (rt.keyhash B) (hash_size t) = 0)
    (_hAB : rt.jl_egal A B = false)
    (hreflA : rt.jl_egal A A = true) (hreflB : rt.jl_egal B B = true)
    (hE : load t 4 = 0 ∧ load t 5 = 0) :
    ∀ fuel, 2 ≤ fuel →
      ∃ t1, jl_eqtable_pop rt fuel t A d = some (t1, va, 1) ∧
        load t1 0 = B ∧ load t1 1 = vb ∧ load t1 2 = 0 ∧ load t1 3 = 0 ∧
        (∀ c, 4 ≤ c → load t1 c = load t c) ∧
        t1.length = t.length ∧
        jl_eqtable_get rt t1 B d = vb := by
  intro fuel hfuel
  obtain ⟨f, rfl⟩ : ∃ f, fuel = f + 1 + 1 := ⟨fuel - 2, by omega⟩
  have hlen2 : t.length = 2 ^ p * 2 := by rw [hlen, pow_succ]
  have hsz : hash_size t = 2 ^ p := hash_size_pow t p hlen2
  -- the table has at least four cells
  have h3 : 3 < t.length := by
    by_contra hc
    have := load_of_length_le t 3 (by omega)
    rw [hvb] at this
    exact hvbne this
  have hp : 2 ≤ 2 ^ p := by omega
  rw [hsz] at hidealA hidealB
  -- the lookup of `A` stops at index 0
  have hpeekA : jl_table_peek_valueindex rt t A = 1 := by
    unfold jl_table_peek_valueindex
    simp only []
    rw [hsz, if_neg (by omega), hidealA]
    unfold peek_scan
    simp only []
    rw [hA, if_neg hAne, if_pos ⟨hreflA, by rw [hva]; exact hvane⟩]
  -- the result of the two turns of the loop
  let t1 : Table := clear_slot (backshift (clear_slot t 0) 0 2) 2
  have hc0 : ∀ c, 2 ≤ c → load (clear_slot t 0) c = load t c :=
    fun c hc => load_clear_slot_ne t 0 c (by omega) (by omega)
  have hlc : (clear_slot t 0).length = t.length := length_clear_slot t 0
  have hb0 : load (backshift (clear_slot t 0) 0 2) 0 = B := by
    rw [load_backshift_key _ _ _ (by rw [hlc]; omega), hc0 2 (by omega), hB]
  have hb1 : load (backshift (clear_slot t 0) 0 2) 1 = vb := by
    have := load_backshift_val (clear_slot t 0) 0 2 (by rw [hlc]; omega) (by omega)
    rw [this, hc0 3 (by omega), hvb]
  have hbc : ∀ c, 2 ≤ c → load (backshift (clear_slot t 0) 0 2) c = load t c := by
    intro c hc
    rw [load_backshift_ne _ _ _ _ (by omega) (by omega), hc0 c hc]
  have hlb : (backshift (clear_slot t 0) 0 2).length = t.length := by
    rw [length_backshift, hlc]
  have ht1_0 : load t1 0 = B := by
    show load (clear_slot _ 2) 0 = B
    rw [load_clear_slot_ne _ _ _ (by omega) (by omega), hb0]
  have ht1_1 : load t1 1 = vb := by
    show load (clear_slot _ 2) 1 = vb
    rw [load_clear_slot_ne _ _ _ (by omega) (by omega), hb1]
  have ht1_2 : load t1 2 = 0 := load_clear_slot_key _ 2
  have ht1_3 : load t1 3 = 0 := load_clear_slot_val _ 2
  have ht1_c : ∀ c, 4 ≤ c → load t1 c = load t c := by
    intro c hc
    show load (clear_slot _ 2) c = load t c
    rw [load_clear_slot_ne _ _ _ (by omega) (by omega), hbc c (by omega)]
  have hlt1 : t1.length = t.length := by
    show (clear_slot _ 2).length = t.length
    rw [length_clear_slot, hlb]
  -- the loop
  have hloop : pop_loop rt (2 ^ p) (f + 1 + 1) t 0 = some t1 := by
    rw [pop_loop_succ]
    simp only [mask_eq_mod]
    have hm2 : (0 + 2) % (2 ^ p * 2) = 2 := Nat.mod_eq_of_lt (by omega)
    rw [hm2, hc0 2 (by omega), hB, if_neg hBne, hidealB, if_neg (by omega), pop_loop_succ]
    simp only [mask_eq_mod]
    rcases Nat.lt_or_ge 2 (2 ^ p) with h4 | h4
    · have hm4 : (2 + 2) % (2 ^ p * 2) = 4 := Nat.mod_eq_of_lt (by omega)
      have h0 : load (clear_slot (backshift (clear_slot t 0) 0 2) 2) 4 = 0 := by
        have := ht1_c 4 (by omega)
        rw [hE.1] at this
        exact this
      rw [hm4, if_pos h0]
    · have h2p : 2 ^ p = 2 := by omega
      have hm4 : (2 + 2) % (2 ^ p * 2) = 0 := by rw [h2p]
      have h0 : load (clear_slot (backshift (clear_slot t 0) 0 2) 2) 0 = B := ht1_0
      rw [hm4, h0, if_neg hBne, hidealB, if_pos rfl]
  refine ⟨t1, ?_, ht1_0, ht1_1, ht1_2, ht1_3, ht1_c, hlt1, ?_⟩
  · unfold jl_eqtable_pop
    simp only []
    rw [hpeekA, if_neg (by omega), hsz]
    simp only [Nat.sub_self, hloop, hva]
    rfl
  · have hsz1 : hash_size t1 = 2 ^ p := hash_size_pow t1 p (by rw [hlt1, hlen2])
    have hpeekB : jl_table_peek_valueindex rt t1 B = 1 := by
      unfold jl_table_peek_valueindex
      simp only []
      rw [hsz1, if_neg (by omega), hidealB]
      unfold peek_scan
      simp only []
      rw [ht1_0, if_neg hBne, if_pos ⟨hreflB, by rw [ht1_1]; exact hvbne⟩]
    unfold jl_eqtable_get jl_table_peek_bp
    simp only []
    rw [hpeekB]
    simp only [ne_eq, one_ne_zero, not_false_eq_true, if_true]
    exact ht1_1

/-- C19 at `table_AB`: `A = 16` with value `1`, `B = 32` with value `2`, default `9`. -/
theorem C19_backward_shift_scenario_witness :
    (table_AB.length = 2 ^ (4 + 1) ∧ load table_AB 0 = 16 ∧ load table_AB 2 = 32 ∧
      h2index (rt32.keyhash 16) (hash_size table_AB) = 0 ∧
      h2index (rt32.keyhash 32) (hash_size table_AB) = 0 ∧
      load table_AB 4 = 0 ∧ load table_AB 5 = 0) ∧
    ∀ fuel, 2 ≤ fuel →
      ∃ t1, jl_eqtable_pop rt32 fuel table_AB 16 9 = some (t1, 1, 1) ∧
        load t1 0 = 32 ∧ load t1 1 = 2 ∧ load t1 2 = 0 ∧ load t1 3 = 0 ∧
        (∀ c, 4 ≤ c → load t1 c = load table_AB c) ∧
        t1.length = table_AB.length ∧
        jl_eqtable_get rt32 t1 32 9 = 2 :=
  ⟨by decide!,
    C19_backward_shift_scenario rt32 table_AB 4 16 32 1 2 9 (by decide) (by decide!)
      (by decide!) (by decide!) (by decide!) (by decide) (by decide) (by decide) (by decide)
      (by decide!) (by decide!) (by decide!) (by decide!) (by decide!) (by decide!)⟩
/-- C20: on every table whose array length is a power of two `2 ^ (p + 1) >= 2`, for every key,
every default and every hash function, whatever the cells hold: `jl_eqtable_pop` returns
(`length ^ 2` units of fuel are always enough); its loop, entered at any slot, returns within as
many turns as the sum of the cyclic probe distances allows; and every turn that does not break
at a null key cell or at an entry sitting in its ideal bucket is a backward shift after which
the loop goes on from the vacated slot, the moved entry is exactly one slot pair (two cells)
closer to its ideal bucket, and the sum of the cyclic probe distances is strictly smaller. -/
theorem C20_pop_terminates (rt : Runtime) (h : Table) (p : Nat)
    (hlen : h.length = 2 ^ (p + 1)) (key deflt : Nat) :
    (∀ fuel, h.length ^ 2 ≤ fuel →
      ∃ h1 v f, jl_eqtable_pop rt fuel h key deflt = some (h1, v, f) ∧
        h1.length = h.length) ∧
    (∀ (tab : Table) (s fuel : Nat), tab.length = h.length → s < 2 ^ p →
      total_dist rt (clear_slot tab (2 * s)) < fuel →
      ∃ tab1, pop_loop rt (2 ^ p) fuel tab (2 * s) = some tab1) ∧
    (∀ (tab : Table) (s : Nat), tab.length = h.length → s < 2 ^ p →
      load (clear_slot tab (2 * s)) (2 * ((s + 1) % 2 ^ p)) ≠ 0 →
      2 * ((s + 1) % 2 ^ p) ≠
        h2index (rt.keyhash (load (clear_slot tab (2 * s)) (2 * ((s + 1) % 2 ^ p)))) (2 ^ p) →
      (∀ fuel, pop_loop rt (2 ^ p) (fuel + 1) tab (2 * s) =
        pop_loop rt (2 ^ p) fuel
          (backshift (clear_slot tab (2 * s)) (2 * s) (2 * ((s + 1) % 2 ^ p)))
          (2 * ((s + 1) % 2 ^ p))) ∧
      slot_dist rt (clear_slot
          (backshift (clear_slot tab (2 * s)) (2 * s) (2 * ((s + 1) % 2 ^ p)))
          (2 * ((s + 1) % 2 ^ p))) s + 2
        = slot_dist rt (clear_slot tab (2 * s)) ((s + 1) % 2 ^ p) ∧
      total_dist rt (clear_slot
          (backshift (clear_slot tab (2 * s)) (2 * s) (2 * ((s + 1) % 2 ^ p)))
          (2 * ((s + 1) % 2 ^ p)))
        < total_dist rt (clear_slot tab (2 * s))) := by
  have hlen2 : h.length = 2 ^ p * 2 := by rw [hlen, pow_succ]
  refine ⟨fun fuel hf => pop_total rt h key deflt fuel (Or.inr ⟨p, hlen2⟩) hf,
    fun tab s fuel hl hs hd => ?_, fun tab s hl hs h1 h2 => ?_⟩
  · obtain ⟨tab1, hr, -⟩ := pop_loop_total rt p fuel tab s (by rw [hl, hlen2]) hs hd
    exact ⟨tab1, hr⟩
  · have hl1 : (clear_slot tab (2 * s)).length = 2 ^ p * 2 := by
      unfold clear_slot; simp [store_length, hl, hlen2]
    have hzero : load (clear_slot tab (2 * s)) (2 * s) = 0 := by
      unfold clear_slot
      rw [load_store_ne _ _ _ _ (by omega),
        load_store_eq _ _ _ (by rw [hl, hlen2]; omega)]
    refine ⟨fun fuel => ?_, ?_, ?_⟩
    · rw [pop_loop_succ]
      simp only [mask_eq_mod, next_slot]
      rw [if_neg h1, if_neg h2]
    · exact shift_moves_closer rt p (clear_slot tab (2 * s)) s ((s + 1) % 2 ^ p) _ _
        hl1 hs rfl hzero rfl h1 h2
    · exact shift_decreases rt p (clear_slot tab (2 * s)) s ((s + 1) % 2 ^ p) _ _
        hl1 hs rfl hzero rfl h1 h2

/-- C20 at `table_dup` (32 cells), popping key `32`. -/
theorem C20_pop_terminates_witness :
    table_dup.length = 2 ^ (4 + 1) ∧
    (∀ fuel, table_dup.length ^ 2 ≤ fuel →
      ∃ h1 v f, jl_eqtable_pop rt32 fuel table_dup 32 0 = some (h1, v, f) ∧
        h1.length = table_dup.length) :=
  ⟨by decide, (C20_pop_terminates rt32 table_dup 4 (by decide) 32 0).1⟩

end IdDict
